import Mathlib

/-! Lowering of index expressions to loop nests (scatter/workspace strategy).

A shallow embedding of `src/lower/index_expressions/lower_scatter_workspace.cpp`:
the index-tuple analysis, the index-variable graph builder, the loop-nest
orderer and the subset-loop emitter, followed by the properties proved about
them.

Conventions of the embedding:

* `std::vector<T>` is `List T`, `push_back` appends at the end.
* `std::map<K,V>` is an association list that holds its keys in strictly
  increasing order, which is the order in which a C++ range-for meets them.
* `std::set<IndexVar>` is a list used only through `contains` and `insert`.
* `size_t` is a natural number reduced modulo `2^64`.
* An exception thrown by `std::map::at` is the error `LowerError.outOfRange`,
  a failed `iassert` is the error `LowerError.assertion`.
* Index variables, scalar variables, tensors and tensor indices are identified
  by natural numbers.
-/

namespace Simit

/-! ## Data model -/

/-- An index variable, identified by a number; `std::map` and `std::set` order
index variables by this identity. -/
abbrev IndexVar := Nat

/-- A scalar variable of the lowered program (`Var`). -/
abbrev Var := Nat

/-- `typedef vector<IndexVar> IndexTuple`. -/
abbrev IndexTuple := List IndexVar

/-- One access of a tensor inside an index expression, such as `B(i,k)`: the
accessed tensor (by identity) and the ordered index variables. -/
structure IndexedTensor where
  tensor : Nat
  indexVars : List IndexVar
deriving DecidableEq, Repr

/-- The index structure of a sparse tensor (`TensorIndex`), by identity. -/
abbrev TensorIndex := Nat

/-- Which array of a tensor index a `TensorIndexRead` loads from. -/
inductive ReadType where
  | coordinates
  | sinks
deriving DecidableEq, Repr

/-- The fragment of the expression IR that the lowering reads and builds. -/
inductive Expr where
  | literal (v : Int)
  | varExpr (v : Var)
  | indexedTensor (t : IndexedTensor)
  | neg (a : Expr)
  | add (a b : Expr)
  | sub (a b : Expr)
  | mul (a b : Expr)
  | div (a b : Expr)
  | lt (a b : Expr)
  | and (a b : Expr)
  | tensorIndexRead (ti : TensorIndex) (loc : Expr) (kind : ReadType)
deriving DecidableEq, Repr

/-- An index expression: the free index variables of the result and the
expression that is evaluated for each of their values. -/
structure IndexExpr where
  resultVars : List IndexVar
  value : Expr
deriving DecidableEq, Repr

/-! ## `std::map` -/

/-- The lookup `m.at(k)`: `none` stands for the `std::out_of_range` exception. -/
def mapAt {κ ν : Type} [DecidableEq κ] : List (κ × ν) → κ → Option ν
  | [], _ => none
  | (k', v) :: m, k => if k' = k then some v else mapAt m k

/-- The statement `m[k].push_back(x)` on a map of vectors: `operator[]` finds
the entry of `k`, or creates an empty one at the place the key order gives it,
and `x` is appended to that entry. -/
def mapPushBack {κ ν : Type} [LinearOrder κ] :
    List (κ × List ν) → κ → ν → List (κ × List ν)
  | [], k, x => [(k, [x])]
  | (k', vs) :: m, k, x =>
    if k' = k then (k', vs ++ [x]) :: m
    else if k < k' then (k, [x]) :: (k', vs) :: m
    else (k', vs) :: mapPushBack m k x

/-- The keys of a map, in iteration order. -/
def mapKeys {κ ν : Type} (m : List (κ × ν)) : List κ := m.map Prod.fst

/-! ## Index tuple analysis -/

/-- `typedef map<IndexTuple, vector<const IndexedTensor *>> IndexTupleUses`;
tuples are ordered lexicographically, as `std::vector` is. -/
abbrev IndexTupleUses := List (IndexTuple × List IndexedTensor)

/-- `typedef map<IndexVar, vector<IndexVar>> IndexVarGraph`. -/
abbrev IndexVarGraph := List (IndexVar × List IndexVar)

/-- Modelled from the spec: the traversal `indexExpr->accept(&visitor)` of
`IRVisitor`, whose code is not part of the sources at hand. It walks the
expression tree operand by operand, left to right, and hands every
`IndexedTensor` node it meets to `visit(const IndexedTensor *)`; the result is
the list of these nodes in traversal order. -/
def visitedTensors : Expr → List IndexedTensor
  | .literal _ => []
  | .varExpr _ => []
  | .indexedTensor t => [t]
  | .neg a => visitedTensors a
  | .add a b => visitedTensors a ++ visitedTensors b
  | .sub a b => visitedTensors a ++ visitedTensors b
  | .mul a b => visitedTensors a ++ visitedTensors b
  | .div a b => visitedTensors a ++ visitedTensors b
  | .lt a b => visitedTensors a ++ visitedTensors b
  | .and a b => visitedTensors a ++ visitedTensors b
  | .tensorIndexRead _ loc _ => visitedTensors loc

/-- The body of `GetIndexTupleUsesVisitor::visit`:
`indexTupleUses[indexedTensor->indexVars].push_back(indexedTensor)`. -/
def visitIndexedTensor (indexTupleUses : IndexTupleUses)
    (indexedTensor : IndexedTensor) : IndexTupleUses :=
  mapPushBack indexTupleUses indexedTensor.indexVars indexedTensor

/-- `getIndexTupleUses`: the visitor starts from the empty map and is run over
the expression. -/
def getIndexTupleUses (indexExpr : IndexExpr) : IndexTupleUses :=
  (visitedTensors indexExpr.value).foldl visitIndexedTensor []

/-! ## Index variable graph -/

/-- The subtraction `a - b` of two `size_t` values. -/
def sizeSub (a b : Nat) : Nat := (a + 2 ^ 64 - b % 2 ^ 64) % 2 ^ 64

/-- The two statements in the innermost loop of `createIndexVarGraph`:
`indexVarGraph[it[i]].push_back(it[j]); indexVarGraph[it[j]].push_back(it[i]);`.
Both positions are inside the tuple whenever the statements run. -/
def addEdgePair (indexVarGraph : IndexVarGraph) (it : IndexTuple) (i j : Nat) :
    IndexVarGraph :=
  mapPushBack (mapPushBack indexVarGraph (it.getD i 0) (it.getD j 0))
    (it.getD j 0) (it.getD i 0)

/-- The loop `for (size_t j=i+1; j < it.size(); ++j)`. -/
def addEdgesFrom (indexVarGraph : IndexVarGraph) (it : IndexTuple) (i : Nat) :
    IndexVarGraph :=
  (List.range' (i + 1) (it.length - (i + 1))).foldl
    (fun g j => addEdgePair g it i j) indexVarGraph

/-- The loop `for (size_t i=0; i < it.size() - 1; ++i)` over one tuple; the
bound is computed in `size_t`. -/
def addTupleEdges (indexVarGraph : IndexVarGraph) (it : IndexTuple) :
    IndexVarGraph :=
  (List.range (sizeSub it.length 1)).foldl
    (fun g i => addEdgesFrom g it i) indexVarGraph

/-- `createIndexVarGraph`: the tuples of the tuple map are met in key order. -/
def createIndexVarGraph (indexExpression : IndexExpr) : IndexVarGraph :=
  (getIndexTupleUses indexExpression).foldl
    (fun g itu => addTupleEdges g itu.1) []

/-- The adjacency list of a variable, empty for a variable that is no key. -/
def adjacency (g : IndexVarGraph) (u : IndexVar) : List IndexVar :=
  (mapAt g u).getD []

/-- The keys of a map are strictly increasing: the representation invariant
of `std::map`. -/
def MapSorted {κ ν : Type} [LinearOrder κ] (m : List (κ × ν)) : Prop :=
  List.Pairwise (· < ·) (mapKeys m)

/-! ## Loop nest orderer -/

/-- Modelled from the spec: the class `IndexVariableLoop` of `loops.h`, which
is not part of the sources at hand. A loop is built either from an index
variable alone, `IndexVariableLoop(indexVar)`, and is then not linked, or from
an index variable and the loop that links it,
`IndexVariableLoop(indexVar, linkedLoop)`. -/
inductive IndexVariableLoop where
  | unlinked (indexVar : IndexVar)
  | linked (indexVar : IndexVar) (linkedLoop : IndexVariableLoop)
deriving DecidableEq, Repr

/-- `IndexVariableLoop::getIndexVar`. -/
def IndexVariableLoop.getIndexVar : IndexVariableLoop → IndexVar
  | .unlinked v => v
  | .linked v _ => v

/-- `IndexVariableLoop::isLinked`. -/
def IndexVariableLoop.isLinked : IndexVariableLoop → Bool
  | .unlinked _ => false
  | .linked _ _ => true

/-- Modelled from the spec: `IndexVariableLoop::getInductionVar`, the scalar
variable that drives the generated loop. It is created together with the loop
from the index variable and carries the number of that index variable. -/
def IndexVariableLoop.getInductionVar (l : IndexVariableLoop) : Var :=
  l.getIndexVar

/-- `IndexVariableLoop::getLinkedLoop`, defined for a linked loop. -/
def IndexVariableLoop.getLinkedLoop : IndexVariableLoop → Option IndexVariableLoop
  | .unlinked _ => none
  | .linked _ l => some l

/-- The ways in which the lowering can fail to return. -/
inductive LowerError where
  /-- `std::map::at` was called with a key the map does not hold. -/
  | outOfRange
  /-- An `iassert` failed. -/
  | assertion
  /-- The recursion budget of the embedding ran out (no behaviour of the
  program; see `createLoopNest_ne_fuel`). -/
  | fuel
deriving DecidableEq, Repr

deriving instance DecidableEq for Except

/-- The two containers the traversal updates in place: `set<IndexVar> *visited`
and `vector<IndexVariableLoop> *loops`. -/
structure LoopNestState where
  visited : List IndexVar
  loops : List IndexVariableLoop
deriving DecidableEq, Repr

/-- The two updates `visited->insert(v); loops->push_back(loop);`. -/
def LoopNestState.push (st : LoopNestState) (v : IndexVar)
    (loop : IndexVariableLoop) : LoopNestState :=
  ⟨st.visited.insert v, st.loops ++ [loop]⟩

/-- The range-for of the recursive `createLoopNest` over the adjacency list of
`linkedLoop`, with the recursive call passed as `visit`. The call
`createLoopNest(ivGraph, sink, visited, loops)` hands the index variable `sink`
to a parameter of type `IndexVariableLoop`, so the loop it recurses on is the
converted `IndexVariableLoop(sink)`. -/
def forEachSink (visit : IndexVariableLoop → LoopNestState → Except LowerError LoopNestState)
    (linkedLoop : IndexVariableLoop) :
    List IndexVar → LoopNestState → Except LowerError LoopNestState
  | [], st => .ok st
  | sink :: rest, st =>
    if sink ∈ st.visited then forEachSink visit linkedLoop rest st
    else
      match visit (.unlinked sink) (st.push sink (.linked sink linkedLoop)) with
      | .error e => .error e
      | .ok st1 => forEachSink visit linkedLoop rest st1

/-- The recursive `createLoopNest(ivGraph, linkedLoop, visited, loops)`. The
first argument bounds the depth of the recursion. -/
def createLoopNestRec (ivGraph : IndexVarGraph) :
    Nat → IndexVariableLoop → LoopNestState → Except LowerError LoopNestState
  | 0, _, _ => .error .fuel
  | fuel + 1, linkedLoop, st =>
    match mapAt ivGraph linkedLoop.getIndexVar with
    | none => .error .outOfRange
    | some sinks =>
      forEachSink (createLoopNestRec ivGraph fuel) linkedLoop sinks st

/-- All adjacency entries of a graph, key by key. -/
def allSinks (g : IndexVarGraph) : List IndexVar := (g.map Prod.snd).flatten

/-- A recursion depth that no traversal of the graph exceeds: every nested call
is made for an adjacency entry that was not visited before. -/
def loopFuel (g : IndexVarGraph) : Nat := (allSinks g).length + 1

/-- The range-for over the sources in `createLoopNest(ivGraph, sources)`. -/
def forEachSource (ivGraph : IndexVarGraph) :
    List IndexVar → LoopNestState → Except LowerError LoopNestState
  | [], st => .ok st
  | source :: rest, st =>
    if source ∈ st.visited then forEachSource ivGraph rest st
    else
      match createLoopNestRec ivGraph (loopFuel ivGraph) (.unlinked source)
          (st.push source (.unlinked source)) with
      | .error e => .error e
      | .ok st1 => forEachSource ivGraph rest st1

/-- `createLoopNest(ivGraph, sources)`: order the index variables into one loop
per index variable by traversing the index variable graph. -/
def createLoopNest (ivGraph : IndexVarGraph) (sources : List IndexVar) :
    Except LowerError (List IndexVariableLoop) :=
  match forEachSource ivGraph sources ⟨[], []⟩ with
  | .error e => .error e
  | .ok st => .ok st.loops

/-- `createLoopNest(indexExpr)`. -/
def createLoopNestExpr (indexExpr : IndexExpr) :
    Except LowerError (List IndexVariableLoop) :=
  createLoopNest (createIndexVarGraph indexExpr) indexExpr.resultVars

/-- The index variables of a loop list, in order. -/
def loopVars (loops : List IndexVariableLoop) : List IndexVar :=
  loops.map IndexVariableLoop.getIndexVar

/-- The graph has the edge `u -> v`. -/
def Edge (g : IndexVarGraph) (u v : IndexVar) : Prop := v ∈ adjacency g u

/-- There is a path in the graph from `u` to `v` (of any length, also 0). -/
def Reachable (g : IndexVarGraph) (u v : IndexVar) : Prop :=
  Relation.ReflTransGen (Edge g) u v

/-- Every edge of the graph has its reverse. -/
def SymmetricGraph (g : IndexVarGraph) : Prop :=
  ∀ u v, Edge g u v → Edge g v u

/-- Big-step description of the range-for of the recursive `createLoopNest`
over the adjacency entries `sinks` that are still to come: it relates the
containers before the loop to the containers after it. -/
inductive SinkLoop (g : IndexVarGraph) :
    IndexVariableLoop → List IndexVar → LoopNestState → LoopNestState → Prop where
  | done (L : IndexVariableLoop) (st : LoopNestState) : SinkLoop g L [] st st
  | skip {L : IndexVariableLoop} {sink : IndexVar} {rest : List IndexVar}
      {st st' : LoopNestState} :
      sink ∈ st.visited → SinkLoop g L rest st st' →
      SinkLoop g L (sink :: rest) st st'
  | descend {L : IndexVariableLoop} {sink : IndexVar} {rest sinks : List IndexVar}
      {st st1 st' : LoopNestState} :
      sink ∉ st.visited → mapAt g sink = some sinks →
      SinkLoop g (.unlinked sink) sinks (st.push sink (.linked sink L)) st1 →
      SinkLoop g L rest st1 st' →
      SinkLoop g L (sink :: rest) st st'

/-- The shape of every loop list the orderer builds, entry by entry: a root is
one of `roots` and new to the list; a linked entry is new to the list, its
linking loop is the unlinked loop of a variable that is already in the list,
and the graph has the edge from that variable to the entry. -/
inductive WellLinked (g : IndexVarGraph) (roots : List IndexVar) :
    List IndexVariableLoop → Prop where
  | nil : WellLinked g roots []
  | root (l : List IndexVariableLoop) (v : IndexVar) :
      WellLinked g roots l → v ∈ roots → v ∉ loopVars l →
      WellLinked g roots (l ++ [.unlinked v])
  | link (l : List IndexVariableLoop) (v u : IndexVar) :
      WellLinked g roots l → u ∈ loopVars l → Edge g u v → v ∉ loopVars l →
      WellLinked g roots (l ++ [.linked v (.unlinked u)])

/-- The number of adjacency entries of the graph that are not visited yet. -/
def unvisitedSinks (g : IndexVarGraph) (visited : List IndexVar) : Nat :=
  ((allSinks g).toFinset.filter (fun x => x ∉ visited)).card

/-- All adjacency entries of `u` are visited, and `u` is a key. -/
def Closed (g : IndexVarGraph) (visited : List IndexVar) (u : IndexVar) : Prop :=
  ∃ sinks, mapAt g u = some sinks ∧ ∀ s ∈ sinks, s ∈ visited

/-- The visited set holds exactly the index variables of the loop list. -/
def Synced (st : LoopNestState) : Prop :=
  ∀ x, x ∈ st.visited ↔ x ∈ loopVars st.loops

/-- Why a call can fail: the budget is at most the number of unvisited
adjacency entries, or the lookup of a variable that is no key. -/
def FailureCause (g : IndexVarGraph) (fuel : Nat) (L : IndexVariableLoop)
    (st : LoopNestState) (e : LowerError) : Prop :=
  (e = .fuel ∧ fuel ≤ unvisitedSinks g st.visited) ∨
  (e = .outOfRange ∧ ∃ v, (v = L.getIndexVar ∨ ∃ u, Edge g u v) ∧ mapAt g v = none)

/-- The entries that one run of the innermost statements of
`createIndexVarGraph`, at positions `i` and `j` of the tuple `it`, appends to
the adjacency list of `u`. -/
def edgeContrib (it : IndexTuple) (u : IndexVar) (i j : Nat) : List IndexVar :=
  (if u = it.getD i 0 then [it.getD j 0] else []) ++
    (if u = it.getD j 0 then [it.getD i 0] else [])

/-- The entries that the loop over `j`, for one `i`, appends to the adjacency
list of `u`. -/
def rowContrib (it : IndexTuple) (u : IndexVar) (i : Nat) : List IndexVar :=
  ((List.range' (i + 1) (it.length - (i + 1))).map (fun j => edgeContrib it u i j)).flatten

/-- The entries that the loops over one tuple append to the adjacency list of
`u`. -/
def tupleContrib (it : IndexTuple) (u : IndexVar) : List IndexVar :=
  ((List.range (sizeSub it.length 1)).map (fun i => rowContrib it u i)).flatten

/-! ## Statements of the lowered program -/

/-- Modelled from the spec: a dense index set, a data source the lowering
treats as opaque; only its number of elements matters to a counted loop. -/
abbrev IndexSet := Nat

/-- Modelled from the spec: the statement vocabulary the lowering emits
(sequential block, counted loop, conditional loop with an explicit continuation
predicate, comment wrapping a statement, no-op), and the assignments and the
minimum its helper functions build. The builders of the statement IR are not
part of the sources at hand. -/
inductive Stmt where
  | pass
  | assignStmt (var : Var) (value : Expr)
  | min (result : Var) (exprs : List Expr)
  | block (stmts : List Stmt)
  | whileLoop (condition : Expr) (body : Stmt)
  | forLoop (var : Var) (domain : IndexSet) (body : Stmt)
  | comment (text : String) (commented : Stmt)
  /-- A default-constructed `Stmt`, as in the declaration `Stmt loopNest;`: it
  holds no statement. -/
  | undefined

/-- Modelled from the spec: `increment(var)` of `ir_codegen.h`, the statement
that advances a variable by one. -/
def increment (var : Var) : Stmt :=
  .assignStmt var (.add (.varExpr var) (.literal 1))

/-- Modelled from the spec: the class `TensorIndexVar` of `loops.h`. It binds
the index structure of one sparse tensor to a loop: `sourceVar` holds the
position in the enclosing dimension, `coordinateVar` is the coordinate pointer
(a position in the coordinate array of the structure) and `sinkVar` receives
the coordinate that the pointer points to. -/
structure TensorIndexVar where
  sourceVar : Var
  coordinateVar : Var
  sinkVar : Var
  tensorIndex : TensorIndex
deriving DecidableEq, Repr

/-- `TensorIndexVar::getCoordinateVar`. -/
def TensorIndexVar.getCoordinateVar (t : TensorIndexVar) : Var := t.coordinateVar

/-- `TensorIndexVar::getSinkVar`. -/
def TensorIndexVar.getSinkVar (t : TensorIndexVar) : Var := t.sinkVar

/-- Modelled from the spec: the accessor "load coordinate at offset k". With
offset 0 it reads where the coordinates of the current source position begin,
with offset 1 where they end (the next boundary). -/
def TensorIndexVar.loadCoordinate (t : TensorIndexVar) (offset : Int) : Expr :=
  .tensorIndexRead t.tensorIndex
    (if offset = 0 then .varExpr t.sourceVar
     else .add (.varExpr t.sourceVar) (.literal offset))
    .coordinates

/-- Modelled from the spec: the accessor of the current (sink) value, the
coordinate that the coordinate pointer points to. -/
def TensorIndexVar.loadSink (t : TensorIndexVar) : Expr :=
  .tensorIndexRead t.tensorIndex (.varExpr t.coordinateVar) .sinks

/-- Modelled from the spec: "initialize coordinate variable for this row". -/
def TensorIndexVar.initCoordinateVar (t : TensorIndexVar) : Stmt :=
  .assignStmt t.coordinateVar (t.loadCoordinate 0)

/-- Modelled from the spec: "initialize sink variable", into a variable given
by the caller: `initSinkVar(sinkVar)`. -/
def TensorIndexVar.initSinkVarOf (t : TensorIndexVar) (sinkVar : Var) : Stmt :=
  .assignStmt sinkVar t.loadSink

/-- Modelled from the spec: "initialize sink variable", into the own sink
variable: `initSinkVar()`. -/
def TensorIndexVar.initSinkVar (t : TensorIndexVar) : Stmt :=
  t.initSinkVarOf t.sinkVar

/-- The compound operator accumulated by a subset loop. -/
inductive CompoundOperator where
  | none
  | add
deriving DecidableEq, Repr

/-- Modelled from the spec: the class `SubsetLoop` of `loops.h`: the compound
operator that is accumulated, the slice of the expression that is computed,
and the ordered list of the tensor index variables that take part. -/
structure SubsetLoop where
  tensorIndexVars : List TensorIndexVar
  compoundOperator : CompoundOperator
  indexExpression : Expr
deriving DecidableEq, Repr

/-- `SubsetLoop::getTensorIndexVars`. -/
def SubsetLoop.getTensorIndexVars (l : SubsetLoop) : List TensorIndexVar :=
  l.tensorIndexVars

/-! ## Subset loops -/

/-- `compareToNextIndexLocation`: the coordinate pointer is below the next
boundary. -/
def compareToNextIndexLocation (inductionVar : TensorIndexVar) : Expr :=
  .lt (.varExpr inductionVar.getCoordinateVar) (inductionVar.loadCoordinate 1)

/-- `subsetLoopCondition`: the first comparison, extended by `And::make` with
the comparison of every further tensor index variable. On an empty vector the
code dereferences `begin()`, which is undefined: `none`. -/
def subsetLoopCondition : List TensorIndexVar → Option Expr
  | [] => none
  | first :: rest =>
    some (rest.foldl (fun condition it => .and condition (compareToNextIndexLocation it))
      (compareToNextIndexLocation first))

/-- `emitSubsetLoop`. The assertion `iassert(tensorIndexVars.size() > 0)` comes
first; the compute statement is a TODO of the source and emits nothing. -/
def emitSubsetLoop (_target : Expr) (inductionVar : Var) (subsetLoop : SubsetLoop) :
    Except LowerError Stmt :=
  let tensorIndexVars := subsetLoop.getTensorIndexVars
  if tensorIndexVars.length > 0 then
    match subsetLoopCondition tensorIndexVars, tensorIndexVars with
    | some condition, first :: _ =>
      let body : Stmt :=
        if tensorIndexVars.length = 1 then first.initSinkVarOf inductionVar
        else
          .block [.block (tensorIndexVars.map TensorIndexVar.initSinkVar),
            .min inductionVar (tensorIndexVars.map (fun t => Expr.varExpr t.getSinkVar))]
      let body : Stmt :=
        .block [body, .block (tensorIndexVars.map (fun t => increment t.getCoordinateVar))]
      let loop : Stmt := .whileLoop condition body
      .ok (.block [.block (tensorIndexVars.map TensorIndexVar.initCoordinateVar), loop])
    | _, _ => .error .assertion
  else .error .assertion

/-! ## Simulation of the lowered program -/

/-- The values a simulation reads: the scalar variables and, for every tensor
index, its coordinate array (the boundaries of the spans) and its sink array
(the coordinates themselves). -/
structure Env where
  vars : Var → Int
  coordinates : TensorIndex → Int → Int
  sinks : TensorIndex → Int → Int

/-- The value of an expression; a comparison or conjunction is 1 or 0. A
tensor access has no scalar value. -/
def eval (env : Env) : Expr → Option Int
  | .literal v => some v
  | .varExpr v => some (env.vars v)
  | .indexedTensor _ => none
  | .neg a => (eval env a).map (fun x => -x)
  | .add a b => (eval env a).bind (fun x => (eval env b).map (fun y => x + y))
  | .sub a b => (eval env a).bind (fun x => (eval env b).map (fun y => x - y))
  | .mul a b => (eval env a).bind (fun x => (eval env b).map (fun y => x * y))
  | .div a b =>
    (eval env a).bind (fun x => (eval env b).bind (fun y =>
      if y = 0 then none else some (Int.tdiv x y)))
  | .lt a b =>
    (eval env a).bind (fun x => (eval env b).map (fun y => if x < y then 1 else 0))
  | .and a b =>
    (eval env a).bind (fun x => (eval env b).map (fun y =>
      if x ≠ 0 ∧ y ≠ 0 then 1 else 0))
  | .tensorIndexRead ti loc kind =>
    (eval env loc).map (fun l =>
      match kind with
      | .coordinates => env.coordinates ti l
      | .sinks => env.sinks ti l)

/-- The state of a simulation: the environment and the values that were
stored, one after the other, in the watched variable. -/
structure Sim where
  env : Env
  trace : List Int

/-- Store `x` in the variable `v`; a store to the watched variable is
recorded. -/
def Sim.write (watch : Var) (v : Var) (x : Int) (s : Sim) : Sim :=
  { env := { s.env with vars := fun w => if w = v then x else s.env.vars w }
    trace := if v = watch then s.trace ++ [x] else s.trace }

/-- Run the statements of a block in order. -/
def execSeq (run : Stmt → Sim → Option Sim) : List Stmt → Sim → Option Sim
  | [], s => some s
  | st :: rest, s =>
    match run st s with
    | none => none
    | some s1 => execSeq run rest s1

/-- Run the body of a counted loop for the values `i, i+1, ..` of its
variable, `n` times. -/
def execFor (watch : Var) (run : Sim → Option Sim) (v : Var) : Nat → Nat → Sim → Option Sim
  | _, 0, s => some s
  | i, n + 1, s =>
    match run (s.write watch v i) with
    | none => none
    | some s1 => execFor watch run v (i + 1) n s1

/-- The values of a list of expressions, if all of them have one. -/
def evalAll (env : Env) : List Expr → Option (List Int)
  | [] => some []
  | e :: es =>
    match eval env e, evalAll env es with
    | some x, some xs => some (x :: xs)
    | _, _ => none

/-- Simulate a statement. The first argument after the watched variable bounds
the nesting depth and the number of loop iterations; `none` is a simulation
that ran out of this budget, met an expression without a value or met a
statement that is not defined. -/
def exec (watch : Var) : Nat → Stmt → Sim → Option Sim
  | 0, _, _ => none
  | _ + 1, .pass, s => some s
  | _ + 1, .assignStmt v e, s => (eval s.env e).map (fun x => s.write watch v x)
  | _ + 1, .min r es, s =>
    match evalAll s.env es with
    | some (x :: xs) => some (s.write watch r (xs.foldl Min.min x))
    | _ => none
  | fuel + 1, .block stmts, s => execSeq (exec watch fuel) stmts s
  | fuel + 1, .whileLoop c b, s =>
    match eval s.env c with
    | none => none
    | some x =>
      if x = 0 then some s
      else
        match exec watch fuel b s with
        | none => none
        | some s1 => exec watch fuel (.whileLoop c b) s1
  | fuel + 1, .forLoop v n b, s => execFor watch (exec watch fuel b) v 0 n s
  | fuel + 1, .comment _ st, s => exec watch fuel st s
  | _ + 1, .undefined, _ => none

/-- The position at which the coordinates of a participant begin. -/
def TensorIndexVar.spanBegin (t : TensorIndexVar) (env : Env) : Int :=
  env.coordinates t.tensorIndex (env.vars t.sourceVar)

/-- The next boundary of a participant: the position at which its coordinates
end. -/
def TensorIndexVar.spanEnd (t : TensorIndexVar) (env : Env) : Int :=
  env.coordinates t.tensorIndex (env.vars t.sourceVar + 1)

/-- The coordinate span of a participant: the coordinates between its two
boundaries. -/
def TensorIndexVar.span (t : TensorIndexVar) (env : Env) : List Int :=
  (List.range (t.spanEnd env - t.spanBegin env).toNat).map
    (fun (k : Nat) => env.sinks t.tensorIndex (t.spanBegin env + (k : Int)))

/-- The sorted union of coordinate lists: every coordinate once, in increasing
order. -/
def sortedUnion (spans : List (List Int)) : List Int :=
  (spans.flatten.dedup).insertionSort (· ≤ ·)

/-- The variables a subset loop stores to, apart from the induction variable:
the coordinate pointers and the sink variables of its participants. -/
def writtenVars (ps : List TensorIndexVar) : List Var :=
  ps.map TensorIndexVar.coordinateVar ++ ps.map TensorIndexVar.sinkVar

/-- The variables of a subset loop do not alias: coordinate pointers, sink
variables and the induction variable are pairwise different, and no source
variable is among them. -/
def DistinctVars (inductionVar : Var) (ps : List TensorIndexVar) : Prop :=
  (inductionVar :: writtenVars ps).Nodup ∧
    ∀ p ∈ ps, p.sourceVar ∉ inductionVar :: writtenVars ps

/-- The element-wise minimum of coordinate lists, cut to the shortest of them:
what a loop yields that takes the minimum of the current coordinates and then
advances every list by one. -/
def lockStep : List (List Int) → List Int
  | [] => []
  | sp :: sps => sps.foldl (List.zipWith Min.min) sp

/-- The state of the simulation at the start of iteration `k` of the loop
emitted for the participants `ps`, started in `env0`: arrays and source
variables are as in `env0`, every coordinate pointer has advanced `k` times,
and `k` induction-variable values are recorded. -/
def LoopInv (ps : List TensorIndexVar) (env0 : Env) (k : Nat) (s : Sim) : Prop :=
  s.env.coordinates = env0.coordinates ∧ s.env.sinks = env0.sinks ∧
  (∀ p ∈ ps, s.env.vars p.sourceVar = env0.vars p.sourceVar) ∧
  (∀ p ∈ ps, s.env.vars p.coordinateVar = p.spanBegin env0 + k) ∧
  s.trace = (lockStep (ps.map (fun p => p.span env0))).take k

/-- The first element of `l`, if there is one, is at most every element of
`s`. -/
def HeadBelow (l s : List Int) : Prop :=
  ∀ x, l.head? = some x → ∀ y ∈ s, x ≤ y

/-- The loop body `emitSubsetLoop` builds for two or more participants: load
every sink variable, take the minimum into the induction variable, then
increment every coordinate pointer. -/
def mergeBody (inductionVar : Var) (ps : List TensorIndexVar) : Stmt :=
  .block [.block [.block (ps.map TensorIndexVar.initSinkVar),
      .min inductionVar (ps.map (fun t => Expr.varExpr t.getSinkVar))],
    .block (ps.map (fun t => increment t.getCoordinateVar))]

/-! ## The statement emitter -/

/-- The collaborators of the lowering whose code is not part of the sources at
hand, taken as parameters: the subset-loop synthesizer `createSubsetLoops`, the
first index set of the domain of an index variable
(`indexVar.getDomain().getIndexSets()[0]`), `util::locate`, `util::join`, and
the printing functions of the IR. -/
structure Collaborators where
  createSubsetLoops : Expr → IndexExpr → IndexVariableLoop → List SubsetLoop
  firstIndexSet : IndexVar → IndexSet
  locate : List IndexVar → IndexVar → Nat
  join : List IndexVar → String → String
  exprToString : Expr → String
  indexVarToString : IndexVar → String
  tensorToString : Nat → String
  operatorToString : CompoundOperator → String
  /-- `IRPrinter::print` with `visit(const IndexedTensor *)` overridden by the
  first argument. -/
  printWith : (IndexedTensor → String) → Expr → String
  /-- `IRPrinter::print` after `skipTopExprParenthesis()`. -/
  printValue : Expr → String

/-- `SubsetLoop::getCompoundOperator`. -/
def SubsetLoop.getCompoundOperator (l : SubsetLoop) : CompoundOperator :=
  l.compoundOperator

/-- `SubsetLoop::getIndexExpression`. -/
def SubsetLoop.getIndexExpression (l : SubsetLoop) : Expr :=
  l.indexExpression

/-- `tensorSliceString(vars, sliceVar)`: the variables in parentheses, separated
by commas, with a colon in place of the slice variable. The slice dimension is
stored in an `unsigned`, and the comparison `i < vars.size()-1` is made in
`size_t`. -/
def tensorSliceString (X : Collaborators) (vars : List IndexVar) (sliceVar : IndexVar) :
    String :=
  let sliceDimension := X.locate vars sliceVar % 2 ^ 32
  let result := (List.range vars.length).foldl
    (fun result i =>
      let result := result ++
        (if i = sliceDimension then ":" else X.indexVarToString (vars.getD i 0))
      if i < sizeSub vars.length 1 then result ++ "," else result)
    "("
  result ++ ")"

/-- `tensorSliceString(expr, sliceVar)`: the expression printed by a
`SlicePrinter`, which prints every tensor access as the tensor followed by its
slice string. -/
def tensorSliceStringExpr (X : Collaborators) (expr : Expr) (sliceVar : IndexVar) : String :=
  X.printWith
    (fun indexedTensor =>
      X.tensorToString indexedTensor.tensor ++
        tensorSliceString X indexedTensor.indexVars sliceVar)
    expr

/-- `workspaceWriteString`. -/
def workspaceWriteString (X : Collaborators) (subsetLoop : SubsetLoop)
    (sliceVar : IndexVar) : String :=
  "workspace " ++ X.operatorToString subsetLoop.getCompoundOperator ++ "= " ++
    tensorSliceStringExpr X subsetLoop.getIndexExpression sliceVar

/-- The loop `for (SubsetLoop &subsetLoop : subsetLoops)` of
`lowerScatterWorkspace`: every subset loop is emitted and pushed, wrapped in
its comment, on `loopStatements`. -/
def emitSubsetLoops (X : Collaborators) (target : Expr) (loop : IndexVariableLoop) :
    List SubsetLoop → List Stmt → Except LowerError (List Stmt)
  | [], loopStatements => .ok loopStatements
  | subsetLoop :: rest, loopStatements =>
    match emitSubsetLoop target loop.getInductionVar subsetLoop with
    | .error e => .error e
    | .ok loopStatement =>
      emitSubsetLoops X target loop rest
        (loopStatements ++
          [.comment (workspaceWriteString X subsetLoop loop.getIndexVar) loopStatement])

/-- The comment of the transfer out of the workspace:
`toString(target) + tensorSliceString(resultVars, indexVar) + " = workspace"`. -/
def transferComment (X : Collaborators) (target : Expr) (indexExpression : IndexExpr)
    (loop : IndexVariableLoop) : String :=
  X.exprToString target ++
    tensorSliceString X indexExpression.resultVars loop.getIndexVar ++ " = workspace"

/-- The body of the loop over the loop list in `lowerScatterWorkspace`: the
statement of one level, from the statement `loopNest` built so far. -/
def emitLevel (X : Collaborators) (target : Expr) (indexExpression : IndexExpr)
    (loops : List IndexVariableLoop) (loop : IndexVariableLoop) (loopNest : Stmt) :
    Except LowerError Stmt :=
  if !loop.isLinked then
    .ok (.forLoop loop.getInductionVar (X.firstIndexSet loop.getIndexVar) loopNest)
  else
    match emitSubsetLoops X target loop (X.createSubsetLoops target indexExpression loop) [] with
    | .error e => .error e
    | .ok loopStatements =>
      if loops.length > 0 then
        .ok (.block (loopStatements ++
          [.comment (transferComment X target indexExpression loop) .pass]))
      else .error .assertion

/-- The loop `for (IndexVariableLoop &loop : util::reverse_iterator(loops))`,
over the entries that are still to come, innermost first. -/
def emitLevels (X : Collaborators) (target : Expr) (indexExpression : IndexExpr)
    (loops : List IndexVariableLoop) : List IndexVariableLoop → Stmt → Except LowerError Stmt
  | [], loopNest => .ok loopNest
  | loop :: rest, loopNest =>
    match emitLevel X target indexExpression loops loop loopNest with
    | .error e => .error e
    | .ok loopNest1 => emitLevels X target indexExpression loops rest loopNest1

/-- The loop of `lowerScatterWorkspace` for a given loop list, started on the
default-constructed `Stmt loopNest`. -/
def emitLoopNest (X : Collaborators) (target : Expr) (indexExpression : IndexExpr)
    (loops : List IndexVariableLoop) : Except LowerError Stmt :=
  emitLevels X target indexExpression loops loops.reverse .undefined

/-- The text of the top comment: target, result variables and value. -/
def topComment (X : Collaborators) (target : Expr) (indexExpression : IndexExpr) : String :=
  X.exprToString target ++ ("(" ++ X.join indexExpression.resultVars ",") ++ ") = " ++
    X.printValue indexExpression.value

/-- `lowerScatterWorkspace`. The diagnostic output on `std::cout` is left
out. -/
def lowerScatterWorkspace (X : Collaborators) (target : Expr) (indexExpression : IndexExpr) :
    Except LowerError Stmt :=
  match createLoopNestExpr indexExpression with
  | .error e => .error e
  | .ok loops =>
    match emitLoopNest X target indexExpression loops with
    | .error e => .error e
    | .ok loopNest => .ok (.comment (topComment X target indexExpression) loopNest)

/-- The statement of the levels of a loop list, described from the outside in:
the statement of an entry is made from the statement of the entries after
it. -/
def nestOf (X : Collaborators) (target : Expr) (indexExpression : IndexExpr)
    (loops : List IndexVariableLoop) : List IndexVariableLoop → Except LowerError Stmt
  | [] => .ok .undefined
  | loop :: rest =>
    match nestOf X target indexExpression loops rest with
    | .error e => .error e
    | .ok inner => emitLevel X target indexExpression loops loop inner

mutual
/-- The number of loops, counted or conditional, in a statement tree. -/
def countLoops : Stmt → Nat
  | .pass => 0
  | .assignStmt _ _ => 0
  | .min _ _ => 0
  | .block stmts => countLoopsList stmts
  | .whileLoop _ body => countLoops body + 1
  | .forLoop _ _ body => countLoops body + 1
  | .comment _ st => countLoops st
  | .undefined => 0
/-- The number of loops in a list of statements. -/
def countLoopsList : List Stmt → Nat
  | [] => 0
  | st :: rest => countLoops st + countLoopsList rest
end

/-- The loop body `emitSubsetLoop` builds: for one participant the induction
variable is loaded from the participant's current coordinate, for more the
sink variables are loaded and their minimum is taken; then every coordinate
pointer is incremented. The function is never called on the empty list. -/
def subsetLoopBody (inductionVar : Var) : List TensorIndexVar → Stmt
  | [] => .undefined
  | [p] => .block [p.initSinkVarOf inductionVar, .block [increment p.getCoordinateVar]]
  | first :: second :: rest => mergeBody inductionVar (first :: second :: rest)

/-- The counted loops of the unlinked entries `pre`, nested in list order
around the statement `inner`. -/
def wrapDense (X : Collaborators) (pre : List IndexVariableLoop) (inner : Stmt) : Stmt :=
  pre.foldr
    (fun loop body => .forLoop loop.getInductionVar (X.firstIndexSet loop.getIndexVar) body)
    inner

/-- Collaborators for the examples: every linked loop gets one subset loop with
one participant, every index set has four elements. -/
def exampleCollaborators : Collaborators :=
  { createSubsetLoops := fun _ _ l =>
      [⟨[⟨l.getIndexVar, 50 + l.getIndexVar, 60 + l.getIndexVar, 0⟩], .add, .literal 0⟩]
    firstIndexSet := fun _ => 4
    locate := fun vs v => vs.indexOf v
    join := fun _ _ => "vars"
    exprToString := fun _ => "A"
    indexVarToString := fun _ => "v"
    tensorToString := fun _ => "T"
    operatorToString := fun _ => "+"
    printWith := fun _ _ => "expr"
    printValue := fun _ => "value" }

/-- The contraction `A(i,j) = B(i,k) * C(k,j)` with `i = 0`, `j = 1`, `k = 2`. -/
def exampleContraction : IndexExpr :=
  ⟨[0, 1], .mul (.indexedTensor ⟨10, [0, 2]⟩) (.indexedTensor ⟨11, [2, 1]⟩)⟩

/-- The linking order of a loop list: every linked entry is linked by the
unlinked loop of a variable `u` that stands before it and has an edge to it,
and every variable that stands between `u` and the entry had all its adjacency
entries in the list when the entry was pushed. So `u` is the variable of the
innermost scan that was still running at that time. -/
def ScanLinked (g : IndexVarGraph) (loops : List IndexVariableLoop) : Prop :=
  ∀ (k : Nat) (v : IndexVar) (L : IndexVariableLoop), loops[k]? = some (.linked v L) →
    ∃ (m : Nat) (u : IndexVar), m < k ∧ (loopVars loops)[m]? = some u ∧ L = .unlinked u ∧
      Edge g u v ∧
      ∀ (m' : Nat) (w : IndexVar), m < m' → m' < k → (loopVars loops)[m']? = some w →
        Closed g (loopVars (loops.take k)) w

/-- The coordinate pointers of a subset loop are variables of their own: they
are pairwise different, none of them is the induction variable, and, when the
loop body loads sink variables (two or more participants), none of them is a
sink variable. -/
def PointersApart (inductionVar : Var) (ps : List TensorIndexVar) : Prop :=
  (ps.map TensorIndexVar.coordinateVar).Nodup ∧
    inductionVar ∉ ps.map TensorIndexVar.coordinateVar ∧
    (2 ≤ ps.length → ∀ p ∈ ps, p.coordinateVar ∉ ps.map TensorIndexVar.sinkVar)

theorem mapAt_eq_none_iff {κ ν : Type} [DecidableEq κ] (m : List (κ × ν)) (k : κ) :
    mapAt m k = none ↔ k ∉ mapKeys m := by
  induction m with
  | nil => simp [mapAt, mapKeys]
  | cons a m ih =>
    obtain ⟨k', v⟩ := a
    by_cases h : k' = k
    · simp [mapAt, mapKeys, h]
    · simp only [mapAt, h, if_false, ih]
      simp [mapKeys, Ne.symm h]

theorem mem_mapKeys_of_mapAt {κ ν : Type} [DecidableEq κ] {m : List (κ × ν)} {k : κ}
    {v : ν} (h : mapAt m k = some v) : k ∈ mapKeys m := by
  by_contra hk
  rw [(mapAt_eq_none_iff m k).mpr hk] at h
  exact Option.noConfusion h

theorem mapAt_mem {κ ν : Type} [DecidableEq κ] {m : List (κ × ν)} {k : κ} {v : ν}
    (h : mapAt m k = some v) : (k, v) ∈ m := by
  induction m with
  | nil => simp [mapAt] at h
  | cons a m ih =>
    obtain ⟨k', v'⟩ := a
    by_cases hk : k' = k
    · simp [mapAt, hk] at h
      simp [hk, h]
    · simp only [mapAt, hk, if_false] at h
      exact List.mem_cons_of_mem _ (ih h)

theorem mem_mapKeys_mapPushBack {κ ν : Type} [LinearOrder κ] (m : List (κ × List ν))
    (k : κ) (x : ν) (k' : κ) :
    k' ∈ mapKeys (mapPushBack m k x) ↔ k' = k ∨ k' ∈ mapKeys m := by
  induction m with
  | nil => simp [mapPushBack, mapKeys]
  | cons a m ih =>
    obtain ⟨k1, vs⟩ := a
    simp only [mapPushBack]
    split_ifs with h1 h2
    · subst h1
      simp [mapKeys]
    · simp [mapKeys]
    · have := ih
      simp only [mapKeys, List.map_cons, List.mem_cons] at this ⊢
      rw [this]
      tauto

theorem mapSorted_mapPushBack {κ ν : Type} [LinearOrder κ] {m : List (κ × List ν)}
    (hm : MapSorted m) (k : κ) (x : ν) : MapSorted (mapPushBack m k x) := by
  induction m with
  | nil => simp [mapPushBack, MapSorted, mapKeys]
  | cons a m ih =>
    obtain ⟨k1, vs⟩ := a
    have hm' : (∀ y ∈ mapKeys m, k1 < y) ∧ MapSorted m := by
      simpa [MapSorted, mapKeys] using hm
    simp only [mapPushBack]
    split_ifs with h1 h2
    · simpa [MapSorted, mapKeys] using hm
    · have : ∀ y ∈ mapKeys ((k1, vs) :: m), k < y := by
        intro y hy
        simp only [mapKeys, List.map_cons, List.mem_cons] at hy
        rcases hy with rfl | hy
        · exact h2
        · exact lt_trans h2 (hm'.1 y (by simpa [mapKeys] using hy))
      exact List.pairwise_cons.mpr ⟨this, hm⟩
    · have hlt : k1 < k := lt_of_le_of_ne (not_lt.mp h2) h1
      refine List.pairwise_cons.mpr ⟨?_, ih hm'.2⟩
      intro y hy
      rcases (mem_mapKeys_mapPushBack m k x y).mp hy with rfl | hy
      · exact hlt
      · exact hm'.1 y hy

theorem mapAt_mapPushBack_ne {κ ν : Type} [DecidableEq κ] [LinearOrder κ]
    (m : List (κ × List ν)) (k : κ) (x : ν) {k' : κ} (h : k' ≠ k) :
    mapAt (mapPushBack m k x) k' = mapAt m k' := by
  induction m with
  | nil => simp [mapPushBack, mapAt, Ne.symm h]
  | cons a m ih =>
    obtain ⟨k1, vs⟩ := a
    simp only [mapPushBack]
    split_ifs with h1 h2
    · have : ¬ k1 = k' := by rw [h1]; exact Ne.symm h
      simp [mapAt, this]
    · simp [mapAt, Ne.symm h]
    · simp [mapAt, ih]

theorem mapAt_mapPushBack_self {κ ν : Type} [DecidableEq κ] [LinearOrder κ]
    {m : List (κ × List ν)} (hm : MapSorted m) (k : κ) (x : ν) :
    mapAt (mapPushBack m k x) k = some ((mapAt m k).getD [] ++ [x]) := by
  induction m with
  | nil => simp [mapPushBack, mapAt]
  | cons a m ih =>
    obtain ⟨k1, vs⟩ := a
    have hm' : (∀ y ∈ mapKeys m, k1 < y) ∧ MapSorted m := by
      simpa [MapSorted, mapKeys] using hm
    simp only [mapPushBack]
    split_ifs with h1 h2
    · simp [mapAt, h1]
    · have hnone : mapAt m k = none := by
        rw [mapAt_eq_none_iff]
        intro hk
        exact lt_asymm h2 (hm'.1 k hk)
      simp [mapAt, h1, hnone]
    · simp [mapAt, h1, ih hm'.2]

theorem mapSorted_nil {κ ν : Type} [LinearOrder κ] : MapSorted ([] : List (κ × ν)) := by
  simp [MapSorted, mapKeys]

/-! ## The loop nest orderer: from the recursive function to its big-step form -/

theorem forEachSink_sinkLoop (g : IndexVarGraph)
    (visit : IndexVariableLoop → LoopNestState → Except LowerError LoopNestState)
    (hvisit : ∀ L st st', visit L st = .ok st' →
      ∃ sinks, mapAt g L.getIndexVar = some sinks ∧ SinkLoop g L sinks st st')
    (L : IndexVariableLoop) (sinks : List IndexVar) (st st' : LoopNestState)
    (h : forEachSink visit L sinks st = .ok st') : SinkLoop g L sinks st st' := by
  induction sinks generalizing st with
  | nil =>
    simp only [forEachSink] at h
    have e : st = st' := Except.ok.inj h
    rw [← e]
    exact SinkLoop.done L st
  | cons sink rest ih =>
    simp only [forEachSink] at h
    split_ifs at h with hv
    · exact SinkLoop.skip hv (ih st h)
    · cases hc : visit (.unlinked sink) (st.push sink (.linked sink L)) with
      | error e => rw [hc] at h; cases h
      | ok st1 =>
        rw [hc] at h
        obtain ⟨sinks', hs', hl'⟩ := hvisit _ _ _ hc
        exact SinkLoop.descend hv hs' hl' (ih st1 h)

theorem createLoopNestRec_sinkLoop (g : IndexVarGraph) (fuel : Nat)
    (L : IndexVariableLoop) (st st' : LoopNestState)
    (h : createLoopNestRec g fuel L st = .ok st') :
    ∃ sinks, mapAt g L.getIndexVar = some sinks ∧ SinkLoop g L sinks st st' := by
  induction fuel generalizing L st st' with
  | zero => simp [createLoopNestRec] at h
  | succ fuel ih =>
    simp only [createLoopNestRec] at h
    cases hs : mapAt g L.getIndexVar with
    | none => rw [hs] at h; cases h
    | some sinks =>
      rw [hs] at h
      exact ⟨sinks, rfl, forEachSink_sinkLoop g _ ih L sinks st st' h⟩


/-! ## Invariants of the traversal -/

theorem loopVars_append (l l' : List IndexVariableLoop) :
    loopVars (l ++ l') = loopVars l ++ loopVars l' := by
  simp [loopVars]

theorem adjacency_of_mapAt {g : IndexVarGraph} {u : IndexVar} {sinks : List IndexVar}
    (h : mapAt g u = some sinks) : adjacency g u = sinks := by
  simp [adjacency, h]

theorem synced_push {st : LoopNestState} (hs : Synced st) (v : IndexVar)
    (loop : IndexVariableLoop) (hv : loop.getIndexVar = v) :
    Synced (st.push v loop) := by
  intro x
  simp only [LoopNestState.push, List.mem_insert_iff, loopVars_append, List.mem_append]
  rw [hs x]
  have e : loopVars [loop] = [v] := by simp [loopVars, hv]
  rw [e, List.mem_singleton]
  exact Or.comm

theorem sinkLoop_wellLinked {g : IndexVarGraph} {roots : List IndexVar}
    {L : IndexVariableLoop} {sinks : List IndexVar} {st st' : LoopNestState}
    (h : SinkLoop g L sinks st st') :
    ∀ u, L = .unlinked u → u ∈ loopVars st.loops → (∀ s ∈ sinks, Edge g u s) →
      WellLinked g roots st.loops → Synced st →
      WellLinked g roots st'.loops ∧ Synced st' ∧
        ∃ new, st'.loops = st.loops ++ new ∧ ∀ e ∈ new, e.isLinked = true := by
  induction h with
  | done L st =>
    intro u _ _ _ hw hs
    exact ⟨hw, hs, [], by simp, by simp⟩
  | @skip L sink rest st st' hv _ ih =>
    intro u hL hu he hw hs
    exact ih u hL hu (fun s hs' => he s (List.mem_cons_of_mem _ hs')) hw hs
  | @descend L sink rest sinks st st1 st' hv hat _ _ ih1 ih2 =>
    intro u hL hu he hw hs
    subst hL
    have hsink : sink ∉ loopVars st.loops := fun hc => hv ((hs sink).mpr hc)
    have hw1 : WellLinked g roots (st.push sink (.linked sink (.unlinked u))).loops :=
      WellLinked.link st.loops sink u hw hu (he sink (List.mem_cons_self _ _)) hsink
    have hs1 : Synced (st.push sink (.linked sink (.unlinked u))) :=
      synced_push hs sink _ rfl
    have hmem : sink ∈ loopVars (st.push sink (.linked sink (.unlinked u))).loops := by
      simp [LoopNestState.push, loopVars, IndexVariableLoop.getIndexVar]
    obtain ⟨hw2, hs2, new1, hn1, hl1⟩ := ih1 sink rfl hmem
      (fun s hs' => by simpa [Edge, adjacency_of_mapAt hat] using hs') hw1 hs1
    have hu1 : u ∈ loopVars st1.loops := by
      rw [hn1]
      simp only [LoopNestState.push, loopVars_append, List.mem_append]
      exact Or.inl (Or.inl hu)
    obtain ⟨hw3, hs3, new2, hn2, hl2⟩ := ih2 u rfl hu1
      (fun s hs' => he s (List.mem_cons_of_mem _ hs')) hw2 hs2
    refine ⟨hw3, hs3, [.linked sink (.unlinked u)] ++ new1 ++ new2, ?_, ?_⟩
    · rw [hn2, hn1]
      simp [LoopNestState.push]
    · intro e hmem'
      simp only [List.mem_append, List.mem_singleton] at hmem'
      rcases hmem' with (rfl | h1) | h2
      · rfl
      · exact hl1 e h1
      · exact hl2 e h2

theorem sinkLoop_closed {g : IndexVarGraph} {L : IndexVariableLoop}
    {sinks : List IndexVar} {st st' : LoopNestState} (h : SinkLoop g L sinks st st') :
    (∀ x ∈ st.visited, x ∈ st'.visited) ∧ (∀ s ∈ sinks, s ∈ st'.visited) ∧
      (∀ x ∈ st'.visited, x ∉ st.visited → Closed g st'.visited x) := by
  induction h with
  | done L st => exact ⟨fun _ h => h, by simp, fun x h1 h2 => absurd h1 h2⟩
  | @skip L sink rest st st' hv _ ih =>
    obtain ⟨i1, i2, i3⟩ := ih
    refine ⟨i1, ?_, i3⟩
    intro s hs
    rcases List.mem_cons.mp hs with rfl | hs
    · exact i1 _ hv
    · exact i2 s hs
  | @descend L sink rest sinks st st1 st' hv hat _ _ ih1 ih2 =>
    obtain ⟨a1, a2, a3⟩ := ih1
    obtain ⟨b1, b2, b3⟩ := ih2
    have hpush : ∀ x, x ∈ (st.push sink (.linked sink L)).visited ↔ x = sink ∨ x ∈ st.visited := by
      intro x
      simp [LoopNestState.push]
    have mono : ∀ x, Closed g st1.visited x → Closed g st'.visited x := by
      rintro x ⟨ss, hss, hall⟩
      exact ⟨ss, hss, fun s hs => b1 _ (hall s hs)⟩
    refine ⟨fun x hx => b1 _ (a1 _ ((hpush x).mpr (Or.inr hx))), ?_, ?_⟩
    · intro s hs
      rcases List.mem_cons.mp hs with rfl | hs
      · exact b1 _ (a1 _ ((hpush s).mpr (Or.inl rfl)))
      · exact b2 s hs
    · intro x hx hnx
      by_cases h1 : x ∈ st1.visited
      · by_cases h0 : x ∈ (st.push sink (.linked sink L)).visited
        · rcases (hpush x).mp h0 with rfl | h0'
          · exact mono _ ⟨sinks, hat, a2⟩
          · exact absurd h0' hnx
        · exact mono _ (a3 x h1 h0)
      · exact b3 x hx h1


theorem closed_mono {g : IndexVarGraph} {v v' : List IndexVar}
    (h : ∀ x ∈ v, x ∈ v') {u : IndexVar} (hc : Closed g v u) : Closed g v' u := by
  obtain ⟨ss, hss, hall⟩ := hc
  exact ⟨ss, hss, fun s hs => h _ (hall s hs)⟩

theorem forEachSource_inv {g : IndexVarGraph} (roots : List IndexVar)
    (sources : List IndexVar) (st st' : LoopNestState)
    (hsub : ∀ s ∈ sources, s ∈ roots) (hw : WellLinked g roots st.loops)
    (hs : Synced st) (h : forEachSource g sources st = .ok st') :
    WellLinked g roots st'.loops ∧ Synced st' ∧
      (∃ new, st'.loops = st.loops ++ new) ∧
      (∀ x ∈ st.visited, x ∈ st'.visited) ∧ (∀ s ∈ sources, s ∈ st'.visited) ∧
      (∀ x ∈ st'.visited, x ∉ st.visited → Closed g st'.visited x) := by
  induction sources generalizing st with
  | nil =>
    simp only [forEachSource] at h
    have e : st = st' := Except.ok.inj h
    subst e
    exact ⟨hw, hs, ⟨[], by simp⟩, fun _ hx => hx, by simp, fun x h1 h2 => absurd h1 h2⟩
  | cons source rest ih =>
    simp only [forEachSource] at h
    have hsub' : ∀ s ∈ rest, s ∈ roots := fun s hs' => hsub s (List.mem_cons_of_mem _ hs')
    split_ifs at h with hv
    · obtain ⟨i1, i2, i3, i4, i5, i6⟩ := ih st hsub' hw hs h
      refine ⟨i1, i2, i3, i4, ?_, i6⟩
      intro s hs'
      rcases List.mem_cons.mp hs' with rfl | hs'
      · exact i4 _ hv
      · exact i5 s hs'
    · cases hc : createLoopNestRec g (loopFuel g) (.unlinked source)
          (st.push source (.unlinked source)) with
      | error e => rw [hc] at h; cases h
      | ok st1 =>
        rw [hc] at h
        obtain ⟨sinks, hat, hl⟩ := createLoopNestRec_sinkLoop g _ _ _ _ hc
        have hat : mapAt g source = some sinks := hat
        have hsrc : source ∉ loopVars st.loops := fun hx => hv ((hs source).mpr hx)
        have hw1 : WellLinked g roots (st.push source (.unlinked source)).loops :=
          WellLinked.root st.loops source hw (hsub source (List.mem_cons_self _ _)) hsrc
        have hs1 : Synced (st.push source (.unlinked source)) := synced_push hs source _ rfl
        have hmem : source ∈ loopVars (st.push source (.unlinked source)).loops := by
          simp [LoopNestState.push, loopVars, IndexVariableLoop.getIndexVar]
        obtain ⟨hw2, hs2, new1, hn1, _⟩ := sinkLoop_wellLinked hl source rfl hmem
          (fun s hs' => by
            show s ∈ adjacency g source
            rw [adjacency_of_mapAt hat]
            exact hs') hw1 hs1
        obtain ⟨a1, a2, a3⟩ := sinkLoop_closed hl
        obtain ⟨i1, i2, ⟨new2, hn2⟩, i4, i5, i6⟩ := ih st1 hsub' hw2 hs2 h
        have hpush : ∀ x, x ∈ (st.push source (.unlinked source)).visited ↔
            x = source ∨ x ∈ st.visited := by
          intro x
          simp [LoopNestState.push]
        refine ⟨i1, i2, ⟨[.unlinked source] ++ new1 ++ new2, ?_⟩, ?_, ?_, ?_⟩
        · rw [hn2, hn1]
          simp [LoopNestState.push]
        · exact fun x hx => i4 _ (a1 _ ((hpush x).mpr (Or.inr hx)))
        · intro s hs'
          rcases List.mem_cons.mp hs' with rfl | hs'
          · exact i4 _ (a1 _ ((hpush s).mpr (Or.inl rfl)))
          · exact i5 s hs'
        · intro x hx hnx
          by_cases h1 : x ∈ st1.visited
          · by_cases h0 : x ∈ (st.push source (.unlinked source)).visited
            · rcases (hpush x).mp h0 with rfl | h0'
              · exact closed_mono i4 ⟨sinks, hat, a2⟩
              · exact absurd h0' hnx
            · exact closed_mono i4 (a3 x h1 h0)
          · exact i6 x hx h1

theorem createLoopNest_ok_iff (g : IndexVarGraph) (sources : List IndexVar)
    (loops : List IndexVariableLoop) :
    createLoopNest g sources = .ok loops ↔
      ∃ st, forEachSource g sources ⟨[], []⟩ = .ok st ∧ st.loops = loops := by
  unfold createLoopNest
  cases forEachSource g sources ⟨[], []⟩ with
  | error e => simp
  | ok st => simp

theorem synced_empty : Synced ⟨[], []⟩ := by
  intro x
  simp [loopVars]

/-- What a returned loop list satisfies, collected: its shape, the coverage of
the sources, and the closure of its variables under the edges of the graph. -/
theorem createLoopNest_facts {g : IndexVarGraph} {sources : List IndexVar}
    {loops : List IndexVariableLoop} (h : createLoopNest g sources = .ok loops) :
    WellLinked g sources loops ∧ (∀ s ∈ sources, s ∈ loopVars loops) ∧
      (∀ x ∈ loopVars loops, Closed g (loopVars loops) x) := by
  obtain ⟨st, hst, rfl⟩ := (createLoopNest_ok_iff g sources loops).mp h
  obtain ⟨i1, i2, _, _, i5, i6⟩ :=
    forEachSource_inv sources sources ⟨[], []⟩ st (fun _ hs => hs)
      WellLinked.nil synced_empty hst
  refine ⟨i1, fun s hs => (i2 s).mp (i5 s hs), ?_⟩
  intro x hx
  have hc := i6 x ((i2 x).mpr hx) (by simp)
  exact closed_mono (fun y hy => (i2 y).mp hy) hc

theorem wellLinked_nodup {g : IndexVarGraph} {roots : List IndexVar}
    {l : List IndexVariableLoop} (h : WellLinked g roots l) : (loopVars l).Nodup := by
  induction h with
  | nil => simp [loopVars]
  | root l v _ _ hv ih =>
    rw [loopVars_append]
    refine List.Nodup.append ih (by simp [loopVars]) ?_
    intro x hx hx'
    simp [loopVars, IndexVariableLoop.getIndexVar] at hx'
    subst hx'
    exact hv hx
  | link l v u _ _ _ hv ih =>
    rw [loopVars_append]
    refine List.Nodup.append ih (by simp [loopVars]) ?_
    intro x hx hx'
    simp [loopVars, IndexVariableLoop.getIndexVar] at hx'
    subst hx'
    exact hv hx

/-- Position by position: a root is a source, and a linked entry is linked by
the unlinked loop of a variable that stands before it and has an edge to it. -/
theorem wellLinked_getElem {g : IndexVarGraph} {roots : List IndexVar}
    {l : List IndexVariableLoop} (h : WellLinked g roots l) :
    ∀ k e, l[k]? = some e →
      (∀ v, e = .unlinked v → v ∈ roots) ∧
      (∀ v L, e = .linked v L →
        ∃ u, L = .unlinked u ∧ u ∈ loopVars (l.take k) ∧ Edge g u v) := by
  induction h with
  | nil => intro k e hk; simp at hk
  | root l v _ hr _ ih =>
    intro k e hk
    rcases Nat.lt_or_ge k l.length with hlt | hge
    · rw [List.getElem?_append_left hlt] at hk
      rw [List.take_append_of_le_length (Nat.le_of_lt hlt)]
      exact ih k e hk
    · rw [List.getElem?_append_right hge] at hk
      have hk0 : k - l.length = 0 := by
        by_contra hne
        rw [List.getElem?_eq_none (by simp; omega)] at hk
        cases hk
      rw [hk0] at hk
      simp at hk
      subst hk
      refine ⟨?_, ?_⟩
      · intro v' hv'
        cases hv'
        exact hr
      · intro v' L hv'
        cases hv'
  | link l v u _ hu he _ ih =>
    intro k e hk
    rcases Nat.lt_or_ge k l.length with hlt | hge
    · rw [List.getElem?_append_left hlt] at hk
      rw [List.take_append_of_le_length (Nat.le_of_lt hlt)]
      exact ih k e hk
    · rw [List.getElem?_append_right hge] at hk
      have hk0 : k - l.length = 0 := by
        by_contra hne
        rw [List.getElem?_eq_none (by simp; omega)] at hk
        cases hk
      rw [hk0] at hk
      simp at hk
      subst hk
      have hkl : k = l.length := by omega
      refine ⟨?_, ?_⟩
      · intro v' hv'
        cases hv'
      · intro v' L hv'
        cases hv'
        refine ⟨u, rfl, ?_, he⟩
        rw [hkl, List.take_left']
        · exact hu
        · rfl

/-! ## The recursion budget is never exhausted -/

theorem unvisitedSinks_mono (g : IndexVarGraph) {v v' : List IndexVar}
    (h : ∀ x ∈ v, x ∈ v') : unvisitedSinks g v' ≤ unvisitedSinks g v := by
  unfold unvisitedSinks
  apply Finset.card_le_card
  intro x hx
  simp only [Finset.mem_filter] at hx ⊢
  exact ⟨hx.1, fun hc => hx.2 (h x hc)⟩

theorem unvisitedSinks_insert_lt (g : IndexVarGraph) {v : List IndexVar} {sink : IndexVar}
    (hs : sink ∈ allSinks g) (hv : sink ∉ v) :
    unvisitedSinks g (v.insert sink) < unvisitedSinks g v := by
  unfold unvisitedSinks
  apply Finset.card_lt_card
  rw [Finset.ssubset_iff_of_subset]
  · refine ⟨sink, ?_, ?_⟩
    · simp [hs, hv]
    · simp
  · intro x hx
    simp only [Finset.mem_filter, List.mem_insert_iff, not_or] at hx ⊢
    exact ⟨hx.1, hx.2.2⟩

theorem unvisitedSinks_le (g : IndexVarGraph) (v : List IndexVar) :
    unvisitedSinks g v ≤ (allSinks g).length := by
  unfold unvisitedSinks
  exact le_trans (Finset.card_filter_le _ _) (List.toFinset_card_le _)

theorem mem_allSinks_of_mapAt {g : IndexVarGraph} {u : IndexVar} {sinks : List IndexVar}
    (h : mapAt g u = some sinks) {s : IndexVar} (hs : s ∈ sinks) : s ∈ allSinks g := by
  unfold allSinks
  rw [List.mem_flatten]
  exact ⟨sinks, List.mem_map.mpr ⟨(u, sinks), mapAt_mem h, rfl⟩, hs⟩

theorem forEachSink_error (g : IndexVarGraph) (fuel : Nat)
    (visit : IndexVariableLoop → LoopNestState → Except LowerError LoopNestState)
    (hvisit : ∀ L st e, visit L st = .error e → FailureCause g fuel L st e)
    (hmono : ∀ L st st', visit L st = .ok st' → ∀ x ∈ st.visited, x ∈ st'.visited)
    (L : IndexVariableLoop) (sinks : List IndexVar) (st : LoopNestState) (e : LowerError)
    (hsinks : ∀ s ∈ sinks, s ∈ allSinks g ∧ ∃ u, Edge g u s)
    (h : forEachSink visit L sinks st = .error e) :
    (e = .fuel ∧ fuel < unvisitedSinks g st.visited) ∨
    (e = .outOfRange ∧ ∃ v, (∃ u, Edge g u v) ∧ mapAt g v = none) := by
  induction sinks generalizing st with
  | nil => simp [forEachSink] at h
  | cons sink rest ih =>
    have hrest : ∀ s ∈ rest, s ∈ allSinks g ∧ ∃ u, Edge g u s :=
      fun s hs => hsinks s (List.mem_cons_of_mem _ hs)
    simp only [forEachSink] at h
    split_ifs at h with hv
    · exact ih st hrest h
    · have hlt := unvisitedSinks_insert_lt g (hsinks sink (List.mem_cons_self _ _)).1 hv
      cases hc : visit (.unlinked sink) (st.push sink (.linked sink L)) with
      | error e' =>
        rw [hc] at h
        have he : e' = e := Except.error.inj h
        subst he
        rcases hvisit _ _ _ hc with ⟨h1, h2⟩ | ⟨h1, v, hv1, hv2⟩
        · left
          exact ⟨h1, lt_of_le_of_lt h2 hlt⟩
        · right
          refine ⟨h1, v, ?_, hv2⟩
          rcases hv1 with rfl | hv1
          · exact (hsinks _ (List.mem_cons_self _ _)).2
          · exact hv1
      | ok st1 =>
        rw [hc] at h
        have hm := hmono _ _ _ hc
        have hle : unvisitedSinks g st1.visited ≤ unvisitedSinks g st.visited := by
          apply unvisitedSinks_mono
          intro x hx
          apply hm
          simp [LoopNestState.push, hx]
        rcases ih st1 hrest h with ⟨h1, h2⟩ | h2
        · left
          exact ⟨h1, lt_of_lt_of_le h2 hle⟩
        · right
          exact h2

theorem createLoopNestRec_mono (g : IndexVarGraph) (fuel : Nat) (L : IndexVariableLoop)
    (st st' : LoopNestState) (h : createLoopNestRec g fuel L st = .ok st') :
    ∀ x ∈ st.visited, x ∈ st'.visited := by
  obtain ⟨_, _, hl⟩ := createLoopNestRec_sinkLoop g fuel L st st' h
  exact (sinkLoop_closed hl).1

theorem createLoopNestRec_error (g : IndexVarGraph) (fuel : Nat) (L : IndexVariableLoop)
    (st : LoopNestState) (e : LowerError) (h : createLoopNestRec g fuel L st = .error e) :
    FailureCause g fuel L st e := by
  induction fuel generalizing L st e with
  | zero =>
    simp only [createLoopNestRec] at h
    left
    exact ⟨(Except.error.inj h).symm, Nat.zero_le _⟩
  | succ fuel ih =>
    simp only [createLoopNestRec] at h
    cases hs : mapAt g L.getIndexVar with
    | none =>
      rw [hs] at h
      right
      exact ⟨(Except.error.inj h).symm, L.getIndexVar, Or.inl rfl, hs⟩
    | some sinks =>
      rw [hs] at h
      have hsinks : ∀ s ∈ sinks, s ∈ allSinks g ∧ ∃ u, Edge g u s := by
        intro s hmem
        refine ⟨mem_allSinks_of_mapAt hs hmem, L.getIndexVar, ?_⟩
        show s ∈ adjacency g L.getIndexVar
        rw [adjacency_of_mapAt hs]
        exact hmem
      rcases forEachSink_error g fuel _ ih (createLoopNestRec_mono g fuel) L sinks st e
        hsinks h with ⟨h1, h2⟩ | ⟨h1, v, hv1, hv2⟩
      · left
        exact ⟨h1, h2⟩
      · right
        exact ⟨h1, v, Or.inr hv1, hv2⟩

theorem forEachSource_error (g : IndexVarGraph) (sources : List IndexVar)
    (st : LoopNestState) (e : LowerError) (h : forEachSource g sources st = .error e) :
    e = .outOfRange ∧ ∃ v, (v ∈ sources ∨ ∃ u, Edge g u v) ∧ mapAt g v = none := by
  induction sources generalizing st with
  | nil => simp [forEachSource] at h
  | cons source rest ih =>
    simp only [forEachSource] at h
    have lift : (e = .outOfRange ∧ ∃ v, (v ∈ rest ∨ ∃ u, Edge g u v) ∧ mapAt g v = none) →
        e = .outOfRange ∧ ∃ v, (v ∈ source :: rest ∨ ∃ u, Edge g u v) ∧ mapAt g v = none := by
      rintro ⟨h1, v, hv1 | hv1, hv2⟩
      · exact ⟨h1, v, Or.inl (List.mem_cons_of_mem _ hv1), hv2⟩
      · exact ⟨h1, v, Or.inr hv1, hv2⟩
    split_ifs at h with hv
    · exact lift (ih st h)
    · cases hc : createLoopNestRec g (loopFuel g) (.unlinked source)
          (st.push source (.unlinked source)) with
      | error e' =>
        rw [hc] at h
        have he : e' = e := Except.error.inj h
        subst he
        rcases createLoopNestRec_error g _ _ _ _ hc with ⟨_, h2⟩ | ⟨h1, v, hv1, hv2⟩
        · have := unvisitedSinks_le g (st.push source (.unlinked source)).visited
          unfold loopFuel at h2
          omega
        · refine ⟨h1, v, ?_, hv2⟩
          rcases hv1 with rfl | hv1
          · exact Or.inl (List.mem_cons_self _ _)
          · exact Or.inr hv1
      | ok st1 =>
        rw [hc] at h
        exact lift (ih st1 h)

/-- The only way `createLoopNest` fails to return is the exception of
`ivGraph.at`, raised for a source or an adjacency entry that is no key of the
graph: the recursion budget of the embedding never runs out. -/
theorem createLoopNest_error (g : IndexVarGraph) (sources : List IndexVar)
    (e : LowerError) (h : createLoopNest g sources = .error e) :
    e = .outOfRange ∧ ∃ v, (v ∈ sources ∨ ∃ u, Edge g u v) ∧ mapAt g v = none := by
  unfold createLoopNest at h
  cases hc : forEachSource g sources ⟨[], []⟩ with
  | error e' =>
    rw [hc] at h
    have he : e' = e := Except.error.inj h
    subst he
    exact forEachSource_error g sources _ _ hc
  | ok st => rw [hc] at h; cases h

theorem createLoopNest_ne_fuel (g : IndexVarGraph) (sources : List IndexVar) :
    createLoopNest g sources ≠ .error .fuel := by
  intro h
  have := (createLoopNest_error g sources _ h).1
  cases this


theorem mem_map_take_getElem {α β : Type} (f : α → β) (l : List α) (k : Nat) (x : β)
    (h : x ∈ (l.take k).map f) : ∃ j, j < k ∧ ∃ e, l[j]? = some e ∧ f e = x := by
  induction l generalizing k with
  | nil => simp at h
  | cons a l ih =>
    cases k with
    | zero => simp at h
    | succ k =>
      simp only [List.take_succ_cons, List.map_cons, List.mem_cons] at h
      rcases h with rfl | h
      · exact ⟨0, Nat.succ_pos _, a, by simp, rfl⟩
      · obtain ⟨j, hj, e, he, hf⟩ := ih k h
        exact ⟨j + 1, Nat.succ_lt_succ hj, e, by simpa using he, hf⟩

/-- C1 (coverage): whenever `createLoopNest(indexExpr)` returns a loop list,
every index variable of `resultVars` is the index variable of exactly one entry
of the list, and every linked entry stands later in the list than an entry of
the variable of its linking loop. -/
theorem createLoopNestExpr_coverage (indexExpr : IndexExpr)
    (loops : List IndexVariableLoop)
    (h : createLoopNestExpr indexExpr = .ok loops) :
    (∀ v ∈ indexExpr.resultVars, (loopVars loops).count v = 1) ∧
    (∀ (k : Nat) (v : IndexVar) (L : IndexVariableLoop),
      loops[k]? = some (IndexVariableLoop.linked v L) →
      ∃ j, j < k ∧ ∃ e : IndexVariableLoop, loops[j]? = some e ∧
        e.getIndexVar = L.getIndexVar) := by
  obtain ⟨hw, hcov, _⟩ := createLoopNest_facts h
  refine ⟨?_, ?_⟩
  · intro v hv
    exact List.count_eq_one_of_mem (wellLinked_nodup hw) (hcov v hv)
  · intro k v L hk
    obtain ⟨u, hL, hu, _⟩ := (wellLinked_getElem hw k _ hk).2 v L rfl
    subst hL
    exact mem_map_take_getElem _ loops k u hu

/-- Witness of C1: the contraction `A(i,j) = B(i,k) * C(k,j)` with `i = 0`,
`j = 1`, `k = 2`. -/
theorem createLoopNestExpr_coverage_witness :
    (∀ v ∈ [0, 1], (loopVars [IndexVariableLoop.unlinked 0,
        .linked 2 (.unlinked 0), .linked 1 (.unlinked 2)]).count v = 1) ∧
    (∀ (k : Nat) (v : IndexVar) (L : IndexVariableLoop),
      [IndexVariableLoop.unlinked 0, .linked 2 (.unlinked 0),
        .linked 1 (.unlinked 2)][k]? = some (IndexVariableLoop.linked v L) →
      ∃ j, j < k ∧ ∃ e : IndexVariableLoop, [IndexVariableLoop.unlinked 0,
        .linked 2 (.unlinked 0), .linked 1 (.unlinked 2)][j]? = some e ∧
        e.getIndexVar = L.getIndexVar) :=
  createLoopNestExpr_coverage
    ⟨[0, 1], .mul (.indexedTensor ⟨10, [0, 2]⟩) (.indexedTensor ⟨11, [2, 1]⟩)⟩
    [.unlinked 0, .linked 2 (.unlinked 0), .linked 1 (.unlinked 2)] (by decide)

/-- C2 (acyclic loop list): for every graph, whatever its cycles, duplicate
edges and self-loops, and every list of sources, also with repetitions, the
loop list returned by `createLoopNest` holds each index variable at most
once. -/
theorem createLoopNest_count_le_one (ivGraph : IndexVarGraph)
    (sources : List IndexVar) (loops : List IndexVariableLoop)
    (h : createLoopNest ivGraph sources = .ok loops) :
    (loopVars loops).Nodup ∧ ∀ v, (loopVars loops).count v ≤ 1 := by
  have hn := wellLinked_nodup (createLoopNest_facts h).1
  exact ⟨hn, fun v => List.nodup_iff_count_le_one.mp hn v⟩

/-- Witness of C2: a graph with the cycle `0 -> 1 -> 2 -> 0`, a self-loop at
`0`, doubled edges, and a source list that names `0` twice. -/
theorem createLoopNest_count_le_one_witness :
    (loopVars [IndexVariableLoop.unlinked 0, .linked 1 (.unlinked 0),
        .linked 2 (.unlinked 1)]).Nodup ∧
      ∀ v, (loopVars [IndexVariableLoop.unlinked 0, .linked 1 (.unlinked 0),
        .linked 2 (.unlinked 1)]).count v ≤ 1 :=
  createLoopNest_count_le_one [(0, [0, 1, 1]), (1, [0, 0, 2]), (2, [1, 0, 0])]
    [0, 0, 2] [.unlinked 0, .linked 1 (.unlinked 0), .linked 2 (.unlinked 1)]
    (by decide)

/-! ## Reachability -/

theorem wellLinked_reachable {g : IndexVarGraph} {roots : List IndexVar}
    {l : List IndexVariableLoop} (h : WellLinked g roots l) :
    ∀ v ∈ loopVars l, ∃ s ∈ roots, Reachable g s v := by
  induction h with
  | nil => intro v hv; simp [loopVars] at hv
  | root l v _ hr _ ih =>
    intro x hx
    rw [loopVars_append, List.mem_append] at hx
    rcases hx with hx | hx
    · exact ih x hx
    · simp [loopVars, IndexVariableLoop.getIndexVar] at hx
      subst hx
      exact ⟨x, hr, Relation.ReflTransGen.refl⟩
  | link l v u _ hu he _ ih =>
    intro x hx
    rw [loopVars_append, List.mem_append] at hx
    rcases hx with hx | hx
    · exact ih x hx
    · simp [loopVars, IndexVariableLoop.getIndexVar] at hx
      subst hx
      obtain ⟨s, hs, hr⟩ := ih u hu
      exact ⟨s, hs, Relation.ReflTransGen.tail hr he⟩

theorem closed_reachable {g : IndexVarGraph} {V : List IndexVar}
    (hc : ∀ x ∈ V, Closed g V x) {s v : IndexVar} (hs : s ∈ V)
    (hr : Reachable g s v) : v ∈ V := by
  induction hr with
  | refl => exact hs
  | @tail b c _ hbc ih =>
    obtain ⟨sinks, hat, hall⟩ := hc b ih
    apply hall
    have : c ∈ adjacency g b := hbc
    rw [adjacency_of_mapAt hat] at this
    exact this

theorem mapAt_ne_none_of_edge {g : IndexVarGraph} {u v : IndexVar} (h : Edge g u v) :
    mapAt g u ≠ none := by
  intro hn
  have : v ∈ adjacency g u := h
  simp [adjacency, hn] at this

/-- C8 (reachability): for a symmetric graph and sources that are all keys of
the graph, `createLoopNest` returns a loop list, and the index variables of
that list are exactly the variables reachable from some source by a path in
the graph; a variable that no source reaches is absent. -/
theorem createLoopNest_reachable (ivGraph : IndexVarGraph) (sources : List IndexVar)
    (hsym : SymmetricGraph ivGraph) (hkeys : ∀ s ∈ sources, s ∈ mapKeys ivGraph) :
    ∃ loops, createLoopNest ivGraph sources = .ok loops ∧
      ∀ v, v ∈ loopVars loops ↔ ∃ s ∈ sources, Reachable ivGraph s v := by
  cases hc : createLoopNest ivGraph sources with
  | error e =>
    exfalso
    obtain ⟨_, v, hv | ⟨u, hu⟩, hnone⟩ := createLoopNest_error ivGraph sources e hc
    · exact (mapAt_eq_none_iff ivGraph v).mp hnone (hkeys v hv)
    · exact mapAt_ne_none_of_edge (hsym u v hu) hnone
  | ok loops =>
    refine ⟨loops, rfl, ?_⟩
    obtain ⟨hw, hcov, hcl⟩ := createLoopNest_facts hc
    intro v
    constructor
    · exact wellLinked_reachable hw v
    · rintro ⟨s, hs, hr⟩
      exact closed_reachable hcl (hcov s hs) hr

/-- Witness of C8: two components `0 - 1` and `2 - 3`, traversal from `0`. -/
theorem createLoopNest_reachable_witness :
    ∃ loops, createLoopNest [(0, [1]), (1, [0]), (2, [3]), (3, [2])] [0] = .ok loops ∧
      ∀ v, v ∈ loopVars loops ↔
        ∃ s ∈ [0], Reachable [(0, [1]), (1, [0]), (2, [3]), (3, [2])] s v :=
  createLoopNest_reachable [(0, [1]), (1, [0]), (2, [3]), (3, [2])] [0]
    (by
      intro u v h
      simp only [Edge, adjacency, mapAt] at h ⊢
      split_ifs at h with h0 h1 h2 h3 <;> simp at h <;> subst_vars <;> simp)
    (by decide)

/-! ## The scan that finds a linked entry -/

theorem loopVars_getElem?_append_left (l l' : List IndexVariableLoop) (m : Nat)
    (hm : m < l.length) : (loopVars (l ++ l'))[m]? = (loopVars l)[m]? := by
  rw [loopVars_append]
  exact List.getElem?_append_left (by simpa [loopVars] using hm)

theorem scanLinked_nil (g : IndexVarGraph) : ScanLinked g [] := by
  intro k v L hk
  simp at hk

/-- An entry pushed to the list keeps the linking order when it is unlinked, or
linked by the innermost running scan. -/
theorem scanLinked_push {g : IndexVarGraph} {l : List IndexVariableLoop}
    (h : ScanLinked g l) (e : IndexVariableLoop)
    (he : ∀ v L, e = .linked v L →
      ∃ (m : Nat) (u : IndexVar), m < l.length ∧ (loopVars l)[m]? = some u ∧ L = .unlinked u ∧
        Edge g u v ∧
        ∀ (m' : Nat) (w : IndexVar), m < m' → m' < l.length → (loopVars l)[m']? = some w →
          Closed g (loopVars l) w) :
    ScanLinked g (l ++ [e]) := by
  intro k v L hk
  have hklen : k < (l ++ [e]).length := (List.getElem?_eq_some.mp hk).1
  rw [List.length_append, List.length_singleton] at hklen
  by_cases hlt : k < l.length
  · rw [List.getElem?_append_left hlt] at hk
    obtain ⟨m, u, hm, hu, hL, hedge, hcl⟩ := h k v L hk
    refine ⟨m, u, hm, ?_, hL, hedge, ?_⟩
    · rw [loopVars_getElem?_append_left l [e] m (by omega)]
      exact hu
    · intro m' w h1 h2 hw
      rw [loopVars_getElem?_append_left l [e] m' (by omega)] at hw
      rw [List.take_append_of_le_length (by omega)]
      exact hcl m' w h1 h2 hw
  · have hkeq : k = l.length := by omega
    subst hkeq
    rw [List.getElem?_append_right (Nat.le_refl _), Nat.sub_self] at hk
    have hee : e = .linked v L := by simpa using hk
    obtain ⟨m, u, hm, hu, hL, hedge, hcl⟩ := he v L hee
    refine ⟨m, u, hm, ?_, hL, hedge, ?_⟩
    · rw [loopVars_getElem?_append_left l [e] m hm]
      exact hu
    · intro m' w h1 h2 hw
      rw [loopVars_getElem?_append_left l [e] m' h2] at hw
      rw [List.take_left' rfl]
      exact hcl m' w h1 h2 hw

theorem scanLinked_append {g : IndexVarGraph} {l new : List IndexVariableLoop}
    (h : ScanLinked g (l ++ new)) : ScanLinked g l := by
  intro k v L hk
  have hklen : k < l.length := (List.getElem?_eq_some.mp hk).1
  have hk' : (l ++ new)[k]? = some (.linked v L) := by
    rw [List.getElem?_append_left hklen]
    exact hk
  obtain ⟨m, u, hm, hu, hL, hedge, hcl⟩ := h k v L hk'
  refine ⟨m, u, hm, ?_, hL, hedge, ?_⟩
  · rw [← loopVars_getElem?_append_left l new m (by omega)]
    exact hu
  · intro m' w h1 h2 hw
    rw [← loopVars_getElem?_append_left l new m' (by omega)] at hw
    have := hcl m' w h1 h2 hw
    rw [List.take_append_of_le_length (by omega)] at this
    exact this

/-- The range-for over the adjacency entries of `u`, whose loop stands at
position `m`: when every entry after position `m` has been scanned to the end,
the loop keeps the linking order, and at its end again every entry after
position `m` has been scanned to the end. -/
theorem sinkLoop_scanLinked {g : IndexVarGraph} {L : IndexVariableLoop}
    {sinks : List IndexVar} {st st' : LoopNestState} (h : SinkLoop g L sinks st st') :
    ∀ (u : IndexVar) (m : Nat), L = .unlinked u → (loopVars st.loops)[m]? = some u →
      (∀ s ∈ sinks, Edge g u s) → Synced st → ScanLinked g st.loops →
      (∀ (m' : Nat) (w : IndexVar), m < m' → (loopVars st.loops)[m']? = some w →
        Closed g st.visited w) →
      ScanLinked g st'.loops ∧ Synced st' ∧ (∃ new, st'.loops = st.loops ++ new) ∧
        (∀ (m' : Nat) (w : IndexVar), m < m' → (loopVars st'.loops)[m']? = some w →
          Closed g st'.visited w) := by
  induction h with
  | done L st =>
    intro u m _ _ _ hs hsc hcl
    exact ⟨hsc, hs, ⟨[], by simp⟩, hcl⟩
  | @skip L sink rest st st' hv _ ih =>
    intro u m hL hm hedge hs hsc hcl
    exact ih u m hL hm (fun s hs' => hedge s (List.mem_cons_of_mem _ hs')) hs hsc hcl
  | @descend L sink rest sinks' st st1 st' hv hkey hin hrest ihin ihrest =>
    intro u m hL hm hedge hs hsc hcl
    have hmlen : m < st.loops.length := by
      have := (List.getElem?_eq_some.mp hm).1
      simpa [loopVars] using this
    have hpushLoops : (st.push sink (.linked sink L)).loops = st.loops ++ [.linked sink L] := rfl
    have hsp : Synced (st.push sink (.linked sink L)) := synced_push hs _ _ rfl
    have hscp : ScanLinked g (st.push sink (.linked sink L)).loops := by
      rw [hpushLoops]
      apply scanLinked_push hsc
      intro v L' he
      have hv' : v = sink := by cases he; rfl
      have hL' : L' = L := by cases he; rfl
      subst hv' hL'
      refine ⟨m, u, hmlen, hm, hL, hedge _ (List.mem_cons_self _ _), ?_⟩
      intro m' w h1 _ hw
      exact closed_mono (fun x hx => (hs x).mp hx) (hcl m' w h1 hw)
    have hself : (loopVars (st.push sink (.linked sink L)).loops)[st.loops.length]? =
        some sink := by
      rw [hpushLoops, loopVars_append]
      rw [List.getElem?_append_right (by simp [loopVars])]
      simp [loopVars, IndexVariableLoop.getIndexVar]
    have hedge' : ∀ s ∈ sinks', Edge g sink s := by
      intro s hs'
      show s ∈ adjacency g sink
      rw [adjacency_of_mapAt hkey]
      exact hs'
    obtain ⟨hsc1, hs1, ⟨new1, hnew1⟩, hcl1⟩ :=
      ihin sink st.loops.length rfl hself hedge' hsp hscp
        (by
          intro m' w h1 hw
          have := (List.getElem?_eq_some.mp hw).1
          rw [hpushLoops] at this
          simp [loopVars] at this
          omega)
    obtain ⟨mono1, hall1, _⟩ := sinkLoop_closed hin
    have hmono : ∀ x ∈ st.visited, x ∈ st1.visited := by
      intro x hx
      apply mono1
      show x ∈ st.visited.insert sink
      exact List.mem_insert_of_mem hx
    have hclosedSink : Closed g st1.visited sink := ⟨sinks', hkey, hall1⟩
    have hloops1 : st1.loops = st.loops ++ ([.linked sink L] ++ new1) := by
      rw [hnew1, hpushLoops, List.append_assoc]
    have hm1 : (loopVars st1.loops)[m]? = some u := by
      rw [hloops1, loopVars_getElem?_append_left _ _ m hmlen]
      exact hm
    obtain ⟨hsc', hs', ⟨new2, hnew2⟩, hcl'⟩ :=
      ihrest u m hL hm1 (fun s hs' => hedge s (List.mem_cons_of_mem _ hs')) hs1 hsc1
        (by
          intro m' w h1 hw
          rcases Nat.lt_trichotomy m' st.loops.length with hlt | heq | hgt
          · rw [hloops1, loopVars_getElem?_append_left _ _ m' hlt] at hw
            exact closed_mono hmono (hcl m' w h1 hw)
          · subst heq
            rw [hnew1, loopVars_getElem?_append_left _ _ _
              (by rw [hpushLoops]; simp), hself] at hw
            cases hw
            exact hclosedSink
          · exact hcl1 m' w hgt hw)
    refine ⟨hsc', hs', ⟨[.linked sink L] ++ new1 ++ new2, ?_⟩, hcl'⟩
    rw [hnew2, hloops1]
    simp

theorem forEachSource_scanLinked {g : IndexVarGraph} (sources : List IndexVar)
    (st st' : LoopNestState) (hs : Synced st) (hsc : ScanLinked g st.loops)
    (h : forEachSource g sources st = .ok st') :
    ScanLinked g st'.loops ∧ Synced st' := by
  induction sources generalizing st with
  | nil =>
    simp only [forEachSource] at h
    have e : st = st' := Except.ok.inj h
    rw [← e]
    exact ⟨hsc, hs⟩
  | cons source rest ih =>
    simp only [forEachSource] at h
    split_ifs at h with hv
    · exact ih st hs hsc h
    · cases hc : createLoopNestRec g (loopFuel g) (.unlinked source)
          (st.push source (.unlinked source)) with
      | error e => rw [hc] at h; cases h
      | ok st1 =>
        rw [hc] at h
        obtain ⟨sinks, hkey, hloop⟩ := createLoopNestRec_sinkLoop g _ _ _ _ hc
        have hpushLoops : (st.push source (.unlinked source)).loops =
            st.loops ++ [.unlinked source] := rfl
        have hself : (loopVars (st.push source (.unlinked source)).loops)[st.loops.length]? =
            some source := by
          rw [hpushLoops, loopVars_append]
          rw [List.getElem?_append_right (by simp [loopVars])]
          simp [loopVars, IndexVariableLoop.getIndexVar]
        obtain ⟨hsc1, hs1, _, _⟩ :=
          sinkLoop_scanLinked hloop source st.loops.length rfl hself
            (by
              intro s hs'
              have hkey' : mapAt g source = some sinks := hkey
              show s ∈ adjacency g source
              rw [adjacency_of_mapAt hkey']
              exact hs')
            (synced_push hs _ _ rfl)
            (by
              rw [hpushLoops]
              apply scanLinked_push hsc
              intro v L he
              cases he)
            (by
              intro m' w h1 hw
              have := (List.getElem?_eq_some.mp hw).1
              rw [hpushLoops] at this
              simp [loopVars] at this
              omega)
        exact ih st1 hs1 hsc1 h

/-- The loop list `createLoopNest` returns is in linking order. -/
theorem createLoopNest_scanLinked {g : IndexVarGraph} {sources : List IndexVar}
    {loops : List IndexVariableLoop} (h : createLoopNest g sources = .ok loops) :
    ScanLinked g loops := by
  obtain ⟨st, hst, rfl⟩ := (createLoopNest_ok_iff g sources _).mp h
  exact (forEachSource_scanLinked sources ⟨[], []⟩ st synced_empty (scanLinked_nil g) hst).1

/-! ## Which entries are roots -/

theorem forEachSource_append (g : IndexVarGraph) (a b : List IndexVar)
    (st : LoopNestState) :
    forEachSource g (a ++ b) st =
      match forEachSource g a st with
      | .error e => .error e
      | .ok st1 => forEachSource g b st1 := by
  induction a generalizing st with
  | nil => simp [forEachSource]
  | cons s a ih =>
    simp only [List.cons_append, forEachSource]
    split_ifs with hv
    · exact ih st
    · cases createLoopNestRec g (loopFuel g) (.unlinked s) (st.push s (.unlinked s)) with
      | error e => rfl
      | ok st1 => exact ih st1

/-- One turn of the loop over the sources, for a source that is not visited
yet: the loop list gains the root of the source, followed by linked entries
only. -/
theorem createLoopNestRec_root {g : IndexVarGraph} {roots : List IndexVar}
    {st st1 : LoopNestState} {source : IndexVar} (hr : source ∈ roots)
    (hw : WellLinked g roots st.loops) (hs : Synced st) (hv : source ∉ st.visited)
    (hc : createLoopNestRec g (loopFuel g) (.unlinked source)
      (st.push source (.unlinked source)) = .ok st1) :
    WellLinked g roots st1.loops ∧ Synced st1 ∧
      ∃ new, st1.loops = st.loops ++ .unlinked source :: new ∧
        ∀ e ∈ new, e.isLinked = true := by
  obtain ⟨sinks, hat, hl⟩ := createLoopNestRec_sinkLoop g _ _ _ _ hc
  have hat : mapAt g source = some sinks := hat
  have hsrc : source ∉ loopVars st.loops := fun hx => hv ((hs source).mpr hx)
  have hw1 : WellLinked g roots (st.push source (.unlinked source)).loops :=
    WellLinked.root st.loops source hw hr hsrc
  have hs1 : Synced (st.push source (.unlinked source)) := synced_push hs source _ rfl
  have hmem : source ∈ loopVars (st.push source (.unlinked source)).loops := by
    simp [LoopNestState.push, loopVars, IndexVariableLoop.getIndexVar]
  obtain ⟨hw2, hs2, new1, hn1, hlink⟩ := sinkLoop_wellLinked hl source rfl hmem
    (fun s hs' => by
      show s ∈ adjacency g source
      rw [adjacency_of_mapAt hat]
      exact hs') hw1 hs1
  refine ⟨hw2, hs2, new1, ?_, hlink⟩
  rw [hn1]
  simp [LoopNestState.push]

theorem forEachSource_roots {g : IndexVarGraph} (roots : List IndexVar)
    (sources : List IndexVar) (st st' : LoopNestState)
    (hsub : ∀ s ∈ sources, s ∈ roots) (hw : WellLinked g roots st.loops)
    (hs : Synced st) (h : forEachSource g sources st = .ok st') :
    ∀ (k : Nat) (v : IndexVar), st.loops.length ≤ k →
      st'.loops[k]? = some (IndexVariableLoop.unlinked v) →
      ∃ i, sources[i]? = some v ∧ ∃ sti, forEachSource g (sources.take i) st = .ok sti ∧
        sti.loops = st'.loops.take k := by
  induction sources generalizing st with
  | nil =>
    intro k v hk hget
    simp only [forEachSource] at h
    have e : st = st' := Except.ok.inj h
    subst e
    rw [List.getElem?_eq_none hk] at hget
    cases hget
  | cons source rest ih =>
    intro k v hk hget
    have hsub' : ∀ s ∈ rest, s ∈ roots := fun s hs' => hsub s (List.mem_cons_of_mem _ hs')
    simp only [forEachSource] at h
    split_ifs at h with hv
    · obtain ⟨i, hi, sti, hsti, hl⟩ := ih st hsub' hw hs h k v hk hget
      refine ⟨i + 1, by simpa using hi, sti, ?_, hl⟩
      simp only [List.take_succ_cons, forEachSource, if_pos hv]
      exact hsti
    · cases hc : createLoopNestRec g (loopFuel g) (.unlinked source)
          (st.push source (.unlinked source)) with
      | error e => rw [hc] at h; cases h
      | ok st1 =>
        rw [hc] at h
        have h : forEachSource g rest st1 = .ok st' := h
        obtain ⟨hw1, hs1, new1, hn1, hlink⟩ :=
          createLoopNestRec_root (hsub source (List.mem_cons_self _ _)) hw hs hv hc
        obtain ⟨_, _, ⟨new2, hn2⟩, _, _, _⟩ := forEachSource_inv roots rest st1 st' hsub' hw1 hs1 h
        rcases Nat.lt_or_ge k st1.loops.length with hlt | hge
        · rw [hn2, List.getElem?_append_left hlt, hn1] at hget
          rcases Nat.eq_or_lt_of_le hk with heq | hgt
          · refine ⟨0, ?_, st, by simp [forEachSource], ?_⟩
            · rw [List.getElem?_append_right (Nat.le_of_eq heq), ← heq] at hget
              simp at hget
              simp [hget]
            · rw [hn2, hn1, List.append_assoc]
              exact (List.take_left' heq).symm
          · exfalso
            rw [List.getElem?_append_right hk] at hget
            have hpos : k - st.loops.length = (k - st.loops.length - 1) + 1 := by omega
            rw [hpos, List.getElem?_cons_succ] at hget
            have := hlink _ (List.mem_iff_getElem?.mpr ⟨_, hget⟩)
            simp [IndexVariableLoop.isLinked] at this
        · obtain ⟨i, hi, sti, hsti, hl⟩ := ih st1 hsub' hw1 hs1 h k v hge hget
          refine ⟨i + 1, by simpa using hi, sti, ?_, hl⟩
          simp only [List.take_succ_cons, forEachSource, if_neg hv, hc]
          exact hsti

theorem nodup_getElem?_not_mem_take {l : List IndexVariableLoop}
    (hn : (loopVars l).Nodup) {k : Nat} {e : IndexVariableLoop} (hk : l[k]? = some e) :
    e.getIndexVar ∉ loopVars (l.take k) := by
  intro hmem
  obtain ⟨j, hj, e', he', hv⟩ := mem_map_take_getElem _ l k _ hmem
  have hklen : k < (loopVars l).length := by
    have := (List.getElem?_eq_some.mp hk).1
    simpa [loopVars] using this
  have h1 : (loopVars l)[j]? = some e.getIndexVar := by
    simp [loopVars, he', hv]
  have h2 : (loopVars l)[k]? = some e.getIndexVar := by
    simp [loopVars, hk]
  exact List.nodup_iff_getElem?_ne_getElem?.mp hn j k hj hklen (h1.trans h2.symm)

/-- C7 (linking): in the loop list returned by `createLoopNest`, the entry at
position `k` is unlinked iff it was created at the turn of a source equal to its
variable, at which the list built so far was the first `k` entries and did not
hold that variable. Every other entry is linked, and its linking loop is the
loop of the variable `u` whose adjacency list was being scanned when the entry
was found: when the entry was pushed the list was the first `k` entries and did
not hold its variable; `u` stands in that list, at a position `m`, and has an
edge to the entry; and every variable that stands after position `m` in that
list had been scanned to the end, so that all its adjacency entries were in the
list and it has no edge to the entry. So `u` is the variable of the innermost
scan that was still running, which is the last variable of the list with an
edge to the entry. -/
theorem createLoopNest_linking (ivGraph : IndexVarGraph) (sources : List IndexVar)
    (loops : List IndexVariableLoop) (h : createLoopNest ivGraph sources = .ok loops)
    (k : Nat) (e : IndexVariableLoop) (hk : loops[k]? = some e) :
    (e.isLinked = false ↔
      ∃ i, sources[i]? = some e.getIndexVar ∧
        createLoopNest ivGraph (sources.take i) = .ok (loops.take k) ∧
        e.getIndexVar ∉ loopVars (loops.take k)) ∧
    (e.isLinked = true →
      ∃ (m : Nat) (u : IndexVar), m < k ∧ (loopVars loops)[m]? = some u ∧
        e.getLinkedLoop = some (.unlinked u) ∧ u ∈ loopVars (loops.take k) ∧
        Edge ivGraph u e.getIndexVar ∧ e.getIndexVar ∉ loopVars (loops.take k) ∧
        ∀ (m' : Nat) (w : IndexVar), m < m' → m' < k → (loopVars loops)[m']? = some w →
          Closed ivGraph (loopVars (loops.take k)) w ∧ ¬ Edge ivGraph w e.getIndexVar) := by
  obtain ⟨hw, _, _⟩ := createLoopNest_facts h
  have hnd := wellLinked_nodup hw
  have hnot := nodup_getElem?_not_mem_take hnd hk
  obtain ⟨st, hst, rfl⟩ := (createLoopNest_ok_iff ivGraph sources _).mp h
  refine ⟨⟨?_, ?_⟩, ?_⟩
  · intro hl
    cases e with
    | linked v L => simp [IndexVariableLoop.isLinked] at hl
    | unlinked v =>
      obtain ⟨i, hi, sti, hsti, hloops⟩ :=
        forEachSource_roots sources sources ⟨[], []⟩ st (fun _ hs => hs)
          WellLinked.nil synced_empty hst k v (Nat.zero_le _) hk
      refine ⟨i, hi, ?_, hnot⟩
      rw [createLoopNest_ok_iff]
      exact ⟨sti, hsti, hloops⟩
  · rintro ⟨i, hi, hpre, _⟩
    obtain ⟨sti, hsti, hloops⟩ := (createLoopNest_ok_iff ivGraph _ _).mp hpre
    have hsplit : sources = sources.take i ++ e.getIndexVar :: sources.drop (i + 1) := by
      have hlt := (List.getElem?_eq_some.mp hi).1
      have hget := (List.getElem?_eq_some.mp hi).2
      rw [← hget]
      simp
    have hsubt : ∀ s ∈ sources.take i, s ∈ sources := fun s hs => List.mem_of_mem_take hs
    obtain ⟨hwi, hsi, _, _, _, _⟩ :=
      forEachSource_inv sources (sources.take i) ⟨[], []⟩ sti hsubt
        WellLinked.nil synced_empty hsti
    have hvis : e.getIndexVar ∉ sti.visited := by
      intro hc
      apply hnot
      rw [← hloops]
      exact (hsi _).mp hc
    have hrun := hst
    rw [hsplit, forEachSource_append, hsti] at hrun
    simp only [forEachSource, if_neg hvis] at hrun
    cases hc : createLoopNestRec ivGraph (loopFuel ivGraph) (.unlinked e.getIndexVar)
        (sti.push e.getIndexVar (.unlinked e.getIndexVar)) with
    | error err => rw [hc] at hrun; cases hrun
    | ok st1 =>
      rw [hc] at hrun
      have hrun : forEachSource ivGraph (sources.drop (i + 1)) st1 = .ok st := hrun
      have hroot : e.getIndexVar ∈ sources := List.mem_iff_getElem?.mpr ⟨_, hi⟩
      obtain ⟨hw1, hs1, new1, hn1, _⟩ := createLoopNestRec_root hroot hwi hsi hvis hc
      obtain ⟨_, _, ⟨new2, hn2⟩, _, _, _⟩ :=
        forEachSource_inv sources (sources.drop (i + 1)) st1 st
          (fun s hs => List.mem_of_mem_drop hs) hw1 hs1 hrun
      have hklen : k < st.loops.length := (List.getElem?_eq_some.mp hk).1
      have hlen : sti.loops.length = k := by
        rw [hloops, List.length_take]
        omega
      rw [hn2, hn1, List.append_assoc,
        List.getElem?_append_right (Nat.le_of_eq hlen), hlen] at hk
      simp at hk
      rw [← hk]
      rfl
  · intro hl
    cases e with
    | unlinked v => simp [IndexVariableLoop.isLinked] at hl
    | linked v L =>
      obtain ⟨m, u, hm, hu, hL, hedge, hcl⟩ := createLoopNest_scanLinked h k v L hk
      have hmem : u ∈ loopVars (st.loops.take k) := by
        have htake : (loopVars (st.loops.take k))[m]? = some u := by
          have e1 : loopVars (st.loops.take k) = (loopVars st.loops).take k := by
            simp [loopVars, List.map_take]
          rw [e1, List.getElem?_take_of_lt hm]
          exact hu
        exact List.mem_iff_getElem?.mpr ⟨m, htake⟩
      refine ⟨m, u, hm, hu, by simp [IndexVariableLoop.getLinkedLoop, hL], hmem, hedge,
        hnot, ?_⟩
      intro m' w h1 h2 hw
      have hc := hcl m' w h1 h2 hw
      refine ⟨hc, ?_⟩
      intro hedge'
      obtain ⟨sinks, hkey, hall⟩ := hc
      apply hnot
      apply hall
      have : (IndexVariableLoop.linked v L).getIndexVar ∈ adjacency ivGraph w := hedge'
      rw [adjacency_of_mapAt hkey] at this
      exact this

/-- Witness of C7: the third entry of the loop list of the triangle
`0 - 1 - 2 - 0` traversed from `0`. The variable `2` is in the adjacency lists
of `0` and of `1`; it is found in the scan of `1`, and linked by `1`. -/
theorem createLoopNest_linking_witness :
    ((IndexVariableLoop.linked 2 (.unlinked 1)).isLinked = false ↔
      ∃ i, [0][i]? = some (IndexVariableLoop.linked 2 (.unlinked 1)).getIndexVar ∧
        createLoopNest [(0, [1, 2]), (1, [0, 2]), (2, [0, 1])] (List.take i [0]) =
          .ok (List.take 2 [IndexVariableLoop.unlinked 0, .linked 1 (.unlinked 0),
            .linked 2 (.unlinked 1)]) ∧
        (IndexVariableLoop.linked 2 (.unlinked 1)).getIndexVar ∉
          loopVars (List.take 2 [IndexVariableLoop.unlinked 0, .linked 1 (.unlinked 0),
            .linked 2 (.unlinked 1)])) ∧
    ((IndexVariableLoop.linked 2 (.unlinked 1)).isLinked = true →
      ∃ (m : Nat) (u : IndexVar), m < 2 ∧
        (loopVars [IndexVariableLoop.unlinked 0, .linked 1 (.unlinked 0),
          .linked 2 (.unlinked 1)])[m]? = some u ∧
        (IndexVariableLoop.linked 2 (.unlinked 1)).getLinkedLoop = some (.unlinked u) ∧
        u ∈ loopVars (List.take 2 [IndexVariableLoop.unlinked 0, .linked 1 (.unlinked 0),
          .linked 2 (.unlinked 1)]) ∧
        Edge [(0, [1, 2]), (1, [0, 2]), (2, [0, 1])] u
          (IndexVariableLoop.linked 2 (.unlinked 1)).getIndexVar ∧
        (IndexVariableLoop.linked 2 (.unlinked 1)).getIndexVar ∉
          loopVars (List.take 2 [IndexVariableLoop.unlinked 0, .linked 1 (.unlinked 0),
            .linked 2 (.unlinked 1)]) ∧
        ∀ (m' : Nat) (w : IndexVar), m < m' → m' < 2 →
          (loopVars [IndexVariableLoop.unlinked 0, .linked 1 (.unlinked 0),
            .linked 2 (.unlinked 1)])[m']? = some w →
          Closed [(0, [1, 2]), (1, [0, 2]), (2, [0, 1])]
            (loopVars (List.take 2 [IndexVariableLoop.unlinked 0, .linked 1 (.unlinked 0),
              .linked 2 (.unlinked 1)])) w ∧
          ¬ Edge [(0, [1, 2]), (1, [0, 2]), (2, [0, 1])] w
            (IndexVariableLoop.linked 2 (.unlinked 1)).getIndexVar) :=
  createLoopNest_linking [(0, [1, 2]), (1, [0, 2]), (2, [0, 1])] [0]
    [.unlinked 0, .linked 1 (.unlinked 0), .linked 2 (.unlinked 1)] (by decide)
    2 (.linked 2 (.unlinked 1)) (by decide)

/-! ## The index variable graph -/

theorem getD_mapAt_mapPushBack {κ ν : Type} [DecidableEq κ] [LinearOrder κ]
    {m : List (κ × List ν)} (hm : MapSorted m) (k : κ) (x : ν) (k' : κ) :
    (mapAt (mapPushBack m k x) k').getD [] =
      (mapAt m k').getD [] ++ (if k' = k then [x] else []) := by
  by_cases h : k' = k
  · subst h
    simp [mapAt_mapPushBack_self hm]
  · simp [mapAt_mapPushBack_ne m k x h, h]

/-- What the innermost statements add to the adjacency list of `u`. -/
theorem adjacency_addEdgePair {g : IndexVarGraph} (hg : MapSorted g) (it : IndexTuple)
    (i j : Nat) (u : IndexVar) :
    adjacency (addEdgePair g it i j) u = adjacency g u ++ edgeContrib it u i j := by
  unfold adjacency addEdgePair edgeContrib
  rw [getD_mapAt_mapPushBack (mapSorted_mapPushBack hg _ _), getD_mapAt_mapPushBack hg,
    List.append_assoc]

theorem mapSorted_addEdgePair {g : IndexVarGraph} (hg : MapSorted g) (it : IndexTuple)
    (i j : Nat) : MapSorted (addEdgePair g it i j) :=
  mapSorted_mapPushBack (mapSorted_mapPushBack hg _ _) _ _

/-- A loop whose body appends `c x` to the adjacency list of `u` and keeps the
map sorted appends, in all, the contributions of all its iterations. -/
theorem adjacency_foldl {α : Type} (step : IndexVarGraph → α → IndexVarGraph)
    (c : α → List IndexVar) (u : IndexVar)
    (hstep : ∀ g x, MapSorted g →
      MapSorted (step g x) ∧ adjacency (step g x) u = adjacency g u ++ c x)
    (xs : List α) (g : IndexVarGraph) (hg : MapSorted g) :
    MapSorted (xs.foldl step g) ∧
      adjacency (xs.foldl step g) u = adjacency g u ++ (xs.map c).flatten := by
  induction xs generalizing g with
  | nil => simp [hg]
  | cons x xs ih =>
    obtain ⟨h1, h2⟩ := hstep g x hg
    obtain ⟨h3, h4⟩ := ih (step g x) h1
    refine ⟨h3, ?_⟩
    simp only [List.foldl_cons, List.map_cons, List.flatten_cons]
    rw [h4, h2, List.append_assoc]

theorem adjacency_addEdgesFrom {g : IndexVarGraph} (hg : MapSorted g) (it : IndexTuple)
    (i : Nat) (u : IndexVar) :
    MapSorted (addEdgesFrom g it i) ∧
      adjacency (addEdgesFrom g it i) u = adjacency g u ++ rowContrib it u i := by
  unfold addEdgesFrom rowContrib
  exact adjacency_foldl (fun g j => addEdgePair g it i j) (fun j => edgeContrib it u i j) u
    (fun g j hg => ⟨mapSorted_addEdgePair hg it i j, adjacency_addEdgePair hg it i j u⟩)
    _ g hg

theorem adjacency_addTupleEdges {g : IndexVarGraph} (hg : MapSorted g) (it : IndexTuple)
    (u : IndexVar) :
    MapSorted (addTupleEdges g it) ∧
      adjacency (addTupleEdges g it) u = adjacency g u ++ tupleContrib it u := by
  unfold addTupleEdges tupleContrib
  exact adjacency_foldl (fun g i => addEdgesFrom g it i) (fun i => rowContrib it u i) u
    (fun g i hg => adjacency_addEdgesFrom hg it i u) _ g hg

/-- The adjacency list of `u` in the graph of an index expression: the
contributions of the tuples of the tuple map, in key order. -/
theorem adjacency_createIndexVarGraph (indexExpression : IndexExpr) (u : IndexVar) :
    MapSorted (createIndexVarGraph indexExpression) ∧
    adjacency (createIndexVarGraph indexExpression) u =
      ((getIndexTupleUses indexExpression).map (fun itu => tupleContrib itu.1 u)).flatten := by
  unfold createIndexVarGraph
  have := adjacency_foldl (fun g (itu : IndexTuple × List IndexedTensor) => addTupleEdges g itu.1)
    (fun itu => tupleContrib itu.1 u) u
    (fun g itu hg => adjacency_addTupleEdges hg itu.1 u)
    (getIndexTupleUses indexExpression) [] mapSorted_nil
  simpa [adjacency, mapAt] using this

theorem count_edgeContrib (it : IndexTuple) (u v : IndexVar) (i j : Nat) :
    (edgeContrib it u i j).count v = (edgeContrib it v i j).count u := by
  unfold edgeContrib
  by_cases h1 : u = it.getD i 0 <;> by_cases h2 : u = it.getD j 0 <;>
    by_cases h3 : v = it.getD i 0 <;> by_cases h4 : v = it.getD j 0 <;>
    simp [h1, h2, h3, h4, List.count_cons, List.count_nil] <;> 
    (try subst_vars) <;> simp_all [eq_comm]

theorem count_flatten_map_congr {α : Type} (xs : List α) (c c' : α → List IndexVar)
    (u v : IndexVar) (h : ∀ x, (c x).count v = (c' x).count u) :
    ((xs.map c).flatten).count v = ((xs.map c').flatten).count u := by
  induction xs with
  | nil => simp
  | cons x xs ih => simp [List.count_append, h x, ih]

theorem count_tupleContrib (it : IndexTuple) (u v : IndexVar) :
    (tupleContrib it u).count v = (tupleContrib it v).count u := by
  unfold tupleContrib
  apply count_flatten_map_congr
  intro i
  unfold rowContrib
  apply count_flatten_map_congr
  intro j
  exact count_edgeContrib it u v i j

/-- C3 (graph symmetry): in the graph of every index expression, `v` occurs in
the adjacency list of `u` exactly as often as `u` occurs in the adjacency list
of `v`; in particular the edge `u -> v` comes with the edge `v -> u`. -/
theorem createIndexVarGraph_symmetric (indexExpression : IndexExpr) :
    (∀ u v, (adjacency (createIndexVarGraph indexExpression) u).count v =
      (adjacency (createIndexVarGraph indexExpression) v).count u) ∧
    SymmetricGraph (createIndexVarGraph indexExpression) := by
  have hcount : ∀ u v, (adjacency (createIndexVarGraph indexExpression) u).count v =
      (adjacency (createIndexVarGraph indexExpression) v).count u := by
    intro u v
    rw [(adjacency_createIndexVarGraph indexExpression u).2,
      (adjacency_createIndexVarGraph indexExpression v).2]
    apply count_flatten_map_congr
    intro itu
    exact count_tupleContrib itu.1 u v
  refine ⟨hcount, ?_⟩
  intro u v h
  have h' : v ∈ adjacency (createIndexVarGraph indexExpression) u := h
  show u ∈ adjacency (createIndexVarGraph indexExpression) v
  rw [← List.count_pos_iff] at h' ⊢
  rw [← hcount u v]
  exact h'

/-! ## The edges of the graph -/

theorem sizeSub_one_of_pos {n : Nat} (h0 : 0 < n) (h : n < 2 ^ 64) : sizeSub n 1 = n - 1 := by
  unfold sizeSub
  norm_num at h ⊢
  omega

theorem foldl_eq_self {α β : Type} (step : β → α → β) (xs : List α) (b : β)
    (h : ∀ b x, step b x = b) : xs.foldl step b = b := by
  induction xs with
  | nil => rfl
  | cons x xs ih => rw [List.foldl_cons, h, ih]

theorem addEdgesFrom_of_length_le (g : IndexVarGraph) (it : IndexTuple) (i : Nat)
    (h : it.length ≤ i + 1) : addEdgesFrom g it i = g := by
  unfold addEdgesFrom
  rw [Nat.sub_eq_zero_of_le h]
  rfl

/-- A tuple of length 0 or 1 leaves the graph as it is. For length 0 the bound
`it.size() - 1` wraps around to `2^64 - 1`, and the inner loop never runs. -/
theorem addTupleEdges_of_length_le_one (g : IndexVarGraph) (it : IndexTuple)
    (h : it.length ≤ 1) : addTupleEdges g it = g := by
  unfold addTupleEdges
  apply foldl_eq_self
  intro b i
  exact addEdgesFrom_of_length_le b it i (by omega)

theorem mem_edgeContrib (it : IndexTuple) (u v : IndexVar) (i j : Nat) :
    v ∈ edgeContrib it u i j ↔
      (u = it.getD i 0 ∧ v = it.getD j 0) ∨ (u = it.getD j 0 ∧ v = it.getD i 0) := by
  unfold edgeContrib
  by_cases h1 : u = it.getD i 0 <;> by_cases h2 : u = it.getD j 0 <;> simp [h1, h2]

theorem mem_rowContrib (it : IndexTuple) (u v : IndexVar) (i : Nat) :
    v ∈ rowContrib it u i ↔ ∃ j, i < j ∧ j < it.length ∧ v ∈ edgeContrib it u i j := by
  unfold rowContrib
  simp only [List.mem_flatten, List.mem_map, List.mem_range'_1]
  constructor
  · rintro ⟨l, ⟨j, ⟨hj1, hj2⟩, rfl⟩, hv⟩
    exact ⟨j, by omega, by omega, hv⟩
  · rintro ⟨j, hj1, hj2, hv⟩
    exact ⟨_, ⟨j, ⟨by omega, by omega⟩, rfl⟩, hv⟩

theorem mem_tupleContrib (it : IndexTuple) (u v : IndexVar) :
    v ∈ tupleContrib it u ↔
      ∃ i j, i < sizeSub it.length 1 ∧ i < j ∧ j < it.length ∧ v ∈ edgeContrib it u i j := by
  unfold tupleContrib
  simp only [List.mem_flatten, List.mem_map, List.mem_range]
  constructor
  · rintro ⟨l, ⟨i, hi, rfl⟩, hv⟩
    obtain ⟨j, h1, h2, h3⟩ := (mem_rowContrib it u v i).mp hv
    exact ⟨i, j, hi, h1, h2, h3⟩
  · rintro ⟨i, j, hi, h1, h2, h3⟩
    exact ⟨_, ⟨i, hi, rfl⟩, (mem_rowContrib it u v i).mpr ⟨j, h1, h2, h3⟩⟩

theorem getD_eq_of_getElem? {it : IndexTuple} {p : Nat} {u : IndexVar}
    (h : it[p]? = some u) : it.getD p 0 = u := by
  simp [List.getD, h]

theorem getElem?_of_lt_getD {it : IndexTuple} {p : Nat} (h : p < it.length) :
    it[p]? = some (it.getD p 0) := by
  simp [List.getD, List.getElem?_eq_getElem h]

/-- An entry `v` that the tuple `it` adds to the adjacency list of `u` comes
from two different positions of the tuple that hold `u` and `v`. -/
theorem pair_of_mem_tupleContrib (it : IndexTuple) (u v : IndexVar)
    (h : v ∈ tupleContrib it u) :
    ∃ p q : Nat, p ≠ q ∧ it[p]? = some u ∧ it[q]? = some v := by
  obtain ⟨i, j, _, hij, hj, hv⟩ := (mem_tupleContrib it u v).mp h
  have hi : i < it.length := by omega
  rcases (mem_edgeContrib it u v i j).mp hv with ⟨h1, h2⟩ | ⟨h1, h2⟩
  · exact ⟨i, j, by omega, h1 ▸ getElem?_of_lt_getD hi, h2 ▸ getElem?_of_lt_getD hj⟩
  · exact ⟨j, i, by omega, h1 ▸ getElem?_of_lt_getD hj, h2 ▸ getElem?_of_lt_getD hi⟩

/-- The tuple `it` puts `v` in the adjacency list of `u` iff it holds `u` and
`v` at two different positions. -/
theorem mem_tupleContrib_iff (it : IndexTuple) (hlen : it.length < 2 ^ 64)
    (u v : IndexVar) :
    v ∈ tupleContrib it u ↔
      ∃ p q : Nat, p ≠ q ∧ it[p]? = some u ∧ it[q]? = some v := by
  constructor
  · exact pair_of_mem_tupleContrib it u v
  · rw [mem_tupleContrib]
    rintro ⟨p, q, hpq, hp, hq⟩
    have hpl := (List.getElem?_eq_some.mp hp).1
    have hql := (List.getElem?_eq_some.mp hq).1
    have hs : sizeSub it.length 1 = it.length - 1 := sizeSub_one_of_pos (by omega) hlen
    rcases Nat.lt_or_gt_of_ne hpq with hlt | hgt
    · refine ⟨p, q, by omega, hlt, hql, ?_⟩
      rw [mem_edgeContrib]
      exact Or.inl ⟨(getD_eq_of_getElem? hp).symm, (getD_eq_of_getElem? hq).symm⟩
    · refine ⟨q, p, by omega, hgt, hpl, ?_⟩
      rw [mem_edgeContrib]
      exact Or.inr ⟨(getD_eq_of_getElem? hp).symm, (getD_eq_of_getElem? hq).symm⟩

theorem allSinks_cons (p : IndexVar × List IndexVar) (g : IndexVarGraph) :
    allSinks (p :: g) = p.2 ++ allSinks g := by
  simp [allSinks]

theorem length_allSinks_mapPushBack (g : IndexVarGraph) (k x : IndexVar) :
    (allSinks (mapPushBack g k x)).length = (allSinks g).length + 1 := by
  induction g with
  | nil => simp [mapPushBack, allSinks]
  | cons a g ih =>
    obtain ⟨k1, vs⟩ := a
    simp only [mapPushBack]
    split_ifs with h1 h2
    · simp only [allSinks_cons, List.length_append, List.length_singleton]
      omega
    · simp only [allSinks_cons, List.length_append, List.length_singleton]
      omega
    · simp only [allSinks_cons, List.length_append, ih]
      omega

theorem length_allSinks_addEdgePair (g : IndexVarGraph) (it : IndexTuple) (i j : Nat) :
    (allSinks (addEdgePair g it i j)).length = (allSinks g).length + 2 := by
  unfold addEdgePair
  rw [length_allSinks_mapPushBack, length_allSinks_mapPushBack]

theorem length_allSinks_foldl {α : Type} (step : IndexVarGraph → α → IndexVarGraph)
    (w : α → Nat) (hstep : ∀ g x, (allSinks (step g x)).length = (allSinks g).length + w x)
    (xs : List α) (g : IndexVarGraph) :
    (allSinks (xs.foldl step g)).length = (allSinks g).length + (xs.map w).sum := by
  induction xs generalizing g with
  | nil => simp
  | cons x xs ih =>
    simp only [List.foldl_cons, List.map_cons, List.sum_cons]
    rw [ih, hstep]
    omega

theorem length_allSinks_addEdgesFrom (g : IndexVarGraph) (it : IndexTuple) (i : Nat) :
    (allSinks (addEdgesFrom g it i)).length =
      (allSinks g).length + 2 * (it.length - (i + 1)) := by
  unfold addEdgesFrom
  rw [length_allSinks_foldl (fun g j => addEdgePair g it i j) (fun _ => 2)
    (fun g j => length_allSinks_addEdgePair g it i j)]
  simp [Nat.mul_comm]

theorem sum_range_pairs (n m : Nat) (h : m ≤ n) :
    ((List.range m).map (fun i => 2 * (n - (i + 1)))).sum + m * (m + 1) = 2 * m * n := by
  induction m with
  | zero => simp
  | succ m ih =>
    have ih' := ih (by omega)
    rw [List.range_succ, List.map_append, List.sum_append]
    simp only [List.map_cons, List.map_nil, List.sum_cons, List.sum_nil, Nat.add_zero]
    obtain ⟨d, rfl⟩ : ∃ d, n = m + 1 + d := ⟨n - (m + 1), by omega⟩
    have e : m + 1 + d - (m + 1) = d := by omega
    rw [e]
    nlinarith [ih']

/-- A tuple of length `n` adds `n * (n - 1)` adjacency entries. -/
theorem length_allSinks_addTupleEdges (g : IndexVarGraph) (it : IndexTuple)
    (hlen : it.length < 2 ^ 64) :
    (allSinks (addTupleEdges g it)).length =
      (allSinks g).length + it.length * (it.length - 1) := by
  rcases Nat.eq_zero_or_pos it.length with h0 | hpos
  · rw [addTupleEdges_of_length_le_one g it (by omega), h0]
    simp
  · unfold addTupleEdges
    rw [length_allSinks_foldl (fun g i => addEdgesFrom g it i)
      (fun i => 2 * (it.length - (i + 1)))
      (fun g i => length_allSinks_addEdgesFrom g it i), sizeSub_one_of_pos hpos hlen]
    have := sum_range_pairs it.length (it.length - 1) (by omega)
    obtain ⟨d, hd⟩ : ∃ d, it.length = d + 1 := ⟨it.length - 1, by omega⟩
    rw [hd] at this ⊢
    simp only [Nat.add_sub_cancel] at this ⊢
    nlinarith [this]

/-! ## The tuple map -/

theorem mapAt_of_mem_sorted {κ ν : Type} [DecidableEq κ] [LinearOrder κ]
    {m : List (κ × ν)} (hm : MapSorted m) {k : κ} {v : ν} (h : (k, v) ∈ m) :
    mapAt m k = some v := by
  induction m with
  | nil => simp at h
  | cons a m ih =>
    obtain ⟨k1, v1⟩ := a
    have hm' : (∀ y ∈ mapKeys m, k1 < y) ∧ MapSorted m := by
      simpa [MapSorted, mapKeys] using hm
    rcases List.mem_cons.mp h with heq | hmem
    · cases heq
      simp [mapAt]
    · have hk : k ∈ mapKeys m := List.mem_map.mpr ⟨(k, v), hmem, rfl⟩
      have hne : ¬ k1 = k := ne_of_lt (hm'.1 k hk)
      simp only [mapAt, hne, if_false]
      exact ih hm'.2 hmem

theorem mapSorted_nodup_keys {κ ν : Type} [LinearOrder κ] {m : List (κ × ν)}
    (hm : MapSorted m) : (mapKeys m).Nodup :=
  List.Pairwise.imp (fun h => ne_of_lt h) hm

theorem lists_ne_nil_mapPushBack {κ ν : Type} [LinearOrder κ] {m : List (κ × List ν)}
    (hm : ∀ p ∈ m, p.2 ≠ []) (k : κ) (x : ν) : ∀ p ∈ mapPushBack m k x, p.2 ≠ [] := by
  induction m with
  | nil =>
    intro p hp
    simp only [mapPushBack, List.mem_singleton] at hp
    subst hp
    simp
  | cons a m ih =>
    obtain ⟨k1, vs⟩ := a
    have hm1 : ∀ p ∈ m, p.2 ≠ [] := fun p hp => hm p (List.mem_cons_of_mem _ hp)
    intro p hp
    simp only [mapPushBack] at hp
    split_ifs at hp with h1 h2
    · rcases List.mem_cons.mp hp with rfl | hp
      · simp
      · exact hm1 p hp
    · rcases List.mem_cons.mp hp with rfl | hp
      · simp
      · exact hm p hp
    · rcases List.mem_cons.mp hp with rfl | hp
      · exact hm _ (List.mem_cons_self _ _)
      · exact ih hm1 p hp

/-- The state of the visitor after it has met the accesses `l`, started on the
map `m0`. -/
theorem foldl_visitIndexedTensor (l : List IndexedTensor) (m0 : IndexTupleUses)
    (hm0 : MapSorted m0) (hne : ∀ p ∈ m0, p.2 ≠ []) :
    MapSorted (l.foldl visitIndexedTensor m0) ∧
    (∀ p ∈ l.foldl visitIndexedTensor m0, p.2 ≠ []) ∧
    (∀ k, (mapAt (l.foldl visitIndexedTensor m0) k).getD [] =
      (mapAt m0 k).getD [] ++ l.filter (fun a => a.indexVars = k)) ∧
    (∀ k, k ∈ mapKeys (l.foldl visitIndexedTensor m0) ↔
      k ∈ mapKeys m0 ∨ ∃ a ∈ l, a.indexVars = k) := by
  induction l generalizing m0 with
  | nil => exact ⟨hm0, hne, by simp, by simp⟩
  | cons a l ih =>
    have hs1 : MapSorted (visitIndexedTensor m0 a) := mapSorted_mapPushBack hm0 _ _
    have hn1 : ∀ p ∈ visitIndexedTensor m0 a, p.2 ≠ [] := lists_ne_nil_mapPushBack hne _ _
    obtain ⟨i1, i2, i3, i4⟩ := ih (visitIndexedTensor m0 a) hs1 hn1
    refine ⟨i1, i2, ?_, ?_⟩
    · intro k
      rw [List.foldl_cons, i3 k]
      unfold visitIndexedTensor
      rw [getD_mapAt_mapPushBack hm0, List.append_assoc]
      by_cases hk : k = a.indexVars
      · subst hk
        simp
      · have hk' : ¬ a.indexVars = k := fun h => hk h.symm
        simp [hk, hk']
    · intro k
      rw [List.foldl_cons, i4 k]
      unfold visitIndexedTensor
      rw [mem_mapKeys_mapPushBack]
      constructor
      · rintro ((rfl | h) | ⟨b, hb, rfl⟩)
        · exact Or.inr ⟨a, List.mem_cons_self _ _, rfl⟩
        · exact Or.inl h
        · exact Or.inr ⟨b, List.mem_cons_of_mem _ hb, rfl⟩
      · rintro (h | ⟨b, hb, rfl⟩)
        · exact Or.inl (Or.inr h)
        · rcases List.mem_cons.mp hb with rfl | hb
          · exact Or.inl (Or.inl rfl)
          · exact Or.inr ⟨b, hb, rfl⟩

theorem getIndexTupleUses_facts (indexExpr : IndexExpr) :
    MapSorted (getIndexTupleUses indexExpr) ∧
    (∀ p ∈ getIndexTupleUses indexExpr, p.2 ≠ []) ∧
    (∀ k, (mapAt (getIndexTupleUses indexExpr) k).getD [] =
      (visitedTensors indexExpr.value).filter (fun a => a.indexVars = k)) ∧
    (∀ k, k ∈ mapKeys (getIndexTupleUses indexExpr) ↔
      ∃ a ∈ visitedTensors indexExpr.value, a.indexVars = k) := by
  obtain ⟨i1, i2, i3, i4⟩ :=
    foldl_visitIndexedTensor (visitedTensors indexExpr.value) [] mapSorted_nil (by simp)
  refine ⟨i1, i2, ?_, ?_⟩
  · intro k
    have := i3 k
    simpa [mapAt] using this
  · intro k
    have := i4 k
    simpa [mapKeys] using this

/-- C6 (index tuple analysis): `getIndexTupleUses` groups the accesses met by
the traversal by their index-variable tuple. Every access is listed under the
key equal to its own tuple; the list under a key is the sub-list, in traversal
order, of the accesses with that tuple and is never empty; no key occurs twice;
an expression without accesses yields the empty map; `B(i,j)+C(i,j)` gives the
one key `(i,j)` with `[B,C]` and `B(i,j)+C(j,i)` gives two keys. -/
theorem getIndexTupleUses_groups (indexExpr : IndexExpr) :
    (∀ a ∈ visitedTensors indexExpr.value,
      mapAt (getIndexTupleUses indexExpr) a.indexVars =
        some ((visitedTensors indexExpr.value).filter
          (fun b => b.indexVars = a.indexVars))) ∧
    (∀ k l, (k, l) ∈ getIndexTupleUses indexExpr →
      l = (visitedTensors indexExpr.value).filter (fun b => b.indexVars = k) ∧ l ≠ []) ∧
    (mapKeys (getIndexTupleUses indexExpr)).Nodup ∧
    (visitedTensors indexExpr.value = [] → getIndexTupleUses indexExpr = []) ∧
    getIndexTupleUses ⟨[0, 1],
      .add (.indexedTensor ⟨10, [0, 1]⟩) (.indexedTensor ⟨11, [0, 1]⟩)⟩ =
        [([0, 1], [⟨10, [0, 1]⟩, ⟨11, [0, 1]⟩])] ∧
    getIndexTupleUses ⟨[0, 1],
      .add (.indexedTensor ⟨10, [0, 1]⟩) (.indexedTensor ⟨11, [1, 0]⟩)⟩ =
        [([0, 1], [⟨10, [0, 1]⟩]), ([1, 0], [⟨11, [1, 0]⟩])] := by
  obtain ⟨hs, hne, hget, hkeys⟩ := getIndexTupleUses_facts indexExpr
  refine ⟨?_, ?_, mapSorted_nodup_keys hs, ?_, by decide, by decide⟩
  · intro a ha
    have hk : a.indexVars ∈ mapKeys (getIndexTupleUses indexExpr) :=
      (hkeys _).mpr ⟨a, ha, rfl⟩
    cases hc : mapAt (getIndexTupleUses indexExpr) a.indexVars with
    | none => exact absurd hk ((mapAt_eq_none_iff _ _).mp hc)
    | some l =>
      have := hget a.indexVars
      rw [hc] at this
      rw [← this]
      rfl
  · intro k l hmem
    have hat := mapAt_of_mem_sorted hs hmem
    have := hget k
    rw [hat] at this
    exact ⟨this, hne _ hmem⟩
  · intro hnil
    unfold getIndexTupleUses
    rw [hnil]
    rfl

/-! ## C4 and C5 -/

theorem edge_createIndexVarGraph_iff (indexExpression : IndexExpr) (u v : IndexVar) :
    Edge (createIndexVarGraph indexExpression) u v ↔
      ∃ t ∈ mapKeys (getIndexTupleUses indexExpression), v ∈ tupleContrib t u := by
  show v ∈ adjacency (createIndexVarGraph indexExpression) u ↔ _
  rw [(adjacency_createIndexVarGraph indexExpression u).2]
  simp only [List.mem_flatten, List.mem_map, mapKeys]
  constructor
  · rintro ⟨l, ⟨itu, hitu, rfl⟩, hv⟩
    exact ⟨itu.1, ⟨itu, hitu, rfl⟩, hv⟩
  · rintro ⟨t, ⟨itu, hitu, rfl⟩, hv⟩
    exact ⟨_, ⟨itu, hitu, rfl⟩, hv⟩

/-- C4 (edges of the graph): `createIndexVarGraph` inserts exactly the edges of
the tuple map. The edge `u -> v` is present iff some tuple of the tuple map
holds `u` and `v` at two different positions; the number of adjacency entries
of the graph is the sum of `n * (n - 1)` over the distinct tuples, `n` the
length of the tuple, which is what each tuple adds; and a tuple of length 0 or
1 adds nothing. Tuples are `std::vector`s, shorter than `2^64`. -/
theorem createIndexVarGraph_edges (indexExpression : IndexExpr)
    (hlen : ∀ a ∈ visitedTensors indexExpression.value, a.indexVars.length < 2 ^ 64) :
    (∀ u v, Edge (createIndexVarGraph indexExpression) u v ↔
      ∃ t ∈ mapKeys (getIndexTupleUses indexExpression),
        ∃ p q : Nat, p ≠ q ∧ t[p]? = some u ∧ t[q]? = some v) ∧
    (allSinks (createIndexVarGraph indexExpression)).length =
      ((mapKeys (getIndexTupleUses indexExpression)).map
        (fun t => t.length * (t.length - 1))).sum ∧
    (∀ (g : IndexVarGraph) (t : IndexTuple), t.length < 2 ^ 64 →
      (allSinks (addTupleEdges g t)).length = (allSinks g).length + t.length * (t.length - 1)) ∧
    (∀ (g : IndexVarGraph) (t : IndexTuple), t.length ≤ 1 → addTupleEdges g t = g) := by
  obtain ⟨_, _, _, hkeys⟩ := getIndexTupleUses_facts indexExpression
  have hklen : ∀ t ∈ mapKeys (getIndexTupleUses indexExpression), t.length < 2 ^ 64 := by
    intro t ht
    obtain ⟨a, ha, rfl⟩ := (hkeys t).mp ht
    exact hlen a ha
  refine ⟨?_, ?_, fun g t ht => length_allSinks_addTupleEdges g t ht,
    fun g t ht => addTupleEdges_of_length_le_one g t ht⟩
  · intro u v
    rw [edge_createIndexVarGraph_iff]
    constructor
    · rintro ⟨t, ht, hv⟩
      exact ⟨t, ht, (mem_tupleContrib_iff t (hklen t ht) u v).mp hv⟩
    · rintro ⟨t, ht, hv⟩
      exact ⟨t, ht, (mem_tupleContrib_iff t (hklen t ht) u v).mpr hv⟩
  · unfold createIndexVarGraph
    have hgen : ∀ (m : IndexTupleUses) (g : IndexVarGraph),
        (∀ t ∈ mapKeys m, t.length < 2 ^ 64) →
        (allSinks (m.foldl (fun g itu => addTupleEdges g itu.1) g)).length =
          (allSinks g).length + ((mapKeys m).map (fun t => t.length * (t.length - 1))).sum := by
      intro m
      induction m with
      | nil => intro g _; simp [mapKeys]
      | cons itu m ih =>
        intro g hm
        have h1 : itu.1.length < 2 ^ 64 := hm itu.1 (by simp [mapKeys])
        have h2 : ∀ t ∈ mapKeys m, t.length < 2 ^ 64 :=
          fun t ht => hm t (by
            simp only [mapKeys, List.map_cons, List.mem_cons]
            exact Or.inr ht)
        rw [List.foldl_cons, ih _ h2, length_allSinks_addTupleEdges g itu.1 h1]
        simp only [mapKeys, List.map_cons, List.sum_cons]
        omega
    have := hgen (getIndexTupleUses indexExpression) [] hklen
    simpa [allSinks] using this

/-- Witness of C4: the contraction `A(i,j) = B(i,k) * C(k,j)`. -/
theorem createIndexVarGraph_edges_witness :
    (∀ u v, Edge (createIndexVarGraph ⟨[0, 1],
        .mul (.indexedTensor ⟨10, [0, 2]⟩) (.indexedTensor ⟨11, [2, 1]⟩)⟩) u v ↔
      ∃ t ∈ mapKeys (getIndexTupleUses ⟨[0, 1],
        .mul (.indexedTensor ⟨10, [0, 2]⟩) (.indexedTensor ⟨11, [2, 1]⟩)⟩),
        ∃ p q : Nat, p ≠ q ∧ t[p]? = some u ∧ t[q]? = some v) ∧
    (allSinks (createIndexVarGraph ⟨[0, 1],
        .mul (.indexedTensor ⟨10, [0, 2]⟩) (.indexedTensor ⟨11, [2, 1]⟩)⟩)).length =
      ((mapKeys (getIndexTupleUses ⟨[0, 1],
        .mul (.indexedTensor ⟨10, [0, 2]⟩) (.indexedTensor ⟨11, [2, 1]⟩)⟩)).map
        (fun t => t.length * (t.length - 1))).sum ∧
    (∀ (g : IndexVarGraph) (t : IndexTuple), t.length < 2 ^ 64 →
      (allSinks (addTupleEdges g t)).length = (allSinks g).length + t.length * (t.length - 1)) ∧
    (∀ (g : IndexVarGraph) (t : IndexTuple), t.length ≤ 1 → addTupleEdges g t = g) :=
  createIndexVarGraph_edges
    ⟨[0, 1], .mul (.indexedTensor ⟨10, [0, 2]⟩) (.indexedTensor ⟨11, [2, 1]⟩)⟩
    (by decide)

/-- C5, refuted as stated: the access `B(i,i)` (with `i = 0`) puts `i` into its
own adjacency list, twice. -/
theorem createIndexVarGraph_selfLoop :
    adjacency (createIndexVarGraph ⟨[0], .indexedTensor ⟨10, [0, 0]⟩⟩) 0 = [0, 0] ∧
    0 ∈ adjacency (createIndexVarGraph ⟨[0], .indexedTensor ⟨10, [0, 0]⟩⟩) 0 := by
  decide

/-- C5, amended: when no access of the index expression uses the same index
variable at two positions, the graph has no self-loop: no index variable
occurs in its own adjacency list. -/
theorem createIndexVarGraph_no_selfLoop (indexExpression : IndexExpr)
    (hnd : ∀ a ∈ visitedTensors indexExpression.value, a.indexVars.Nodup) (u : IndexVar) :
    u ∉ adjacency (createIndexVarGraph indexExpression) u := by
  intro h
  obtain ⟨t, ht, hv⟩ := (edge_createIndexVarGraph_iff indexExpression u u).mp h
  obtain ⟨a, ha, rfl⟩ := (getIndexTupleUses_facts indexExpression).2.2.2 t |>.mp ht
  obtain ⟨p, q, hpq, hp, hq⟩ := pair_of_mem_tupleContrib _ u u hv
  have hql := (List.getElem?_eq_some.mp hq).1
  have hpl := (List.getElem?_eq_some.mp hp).1
  rcases Nat.lt_or_gt_of_ne hpq with hlt | hgt
  · exact List.nodup_iff_getElem?_ne_getElem?.mp (hnd a ha) p q hlt hql (hp.trans hq.symm)
  · exact List.nodup_iff_getElem?_ne_getElem?.mp (hnd a ha) q p hgt hpl (hq.trans hp.symm)

/-- Witness of C5 (amended): the transpose-add `A(i,j) = B(i,j) + C(j,i)`, at
the variable `i`. -/
theorem createIndexVarGraph_no_selfLoop_witness :
    0 ∉ adjacency (createIndexVarGraph ⟨[0, 1],
      .add (.indexedTensor ⟨10, [0, 1]⟩) (.indexedTensor ⟨11, [1, 0]⟩)⟩) 0 :=
  createIndexVarGraph_no_selfLoop
    ⟨[0, 1], .add (.indexedTensor ⟨10, [0, 1]⟩) (.indexedTensor ⟨11, [1, 0]⟩)⟩
    (by decide) 0

/-! ## The continuation predicate of a subset loop -/

theorem eval_loadCoordinate_one (env : Env) (p : TensorIndexVar) :
    eval env (p.loadCoordinate 1) = some (p.spanEnd env) := by
  simp [TensorIndexVar.loadCoordinate, TensorIndexVar.spanEnd, eval]

theorem eval_loadCoordinate_zero (env : Env) (p : TensorIndexVar) :
    eval env (p.loadCoordinate 0) = some (p.spanBegin env) := by
  simp [TensorIndexVar.loadCoordinate, TensorIndexVar.spanBegin, eval]

theorem eval_compareToNextIndexLocation (env : Env) (p : TensorIndexVar) :
    eval env (compareToNextIndexLocation p) =
      some (if env.vars p.coordinateVar < p.spanEnd env then 1 else 0) := by
  simp [compareToNextIndexLocation, eval, TensorIndexVar.loadCoordinate,
    TensorIndexVar.spanEnd, TensorIndexVar.getCoordinateVar]

theorem eval_foldl_and (env : Env) (rest : List TensorIndexVar) (acc : Expr) (x : Int)
    (h : eval env acc = some x) :
    ∃ y, eval env (rest.foldl
        (fun condition it => Expr.and condition (compareToNextIndexLocation it)) acc) = some y ∧
      (y ≠ 0 ↔ x ≠ 0 ∧ ∀ p ∈ rest, env.vars p.coordinateVar < p.spanEnd env) := by
  induction rest generalizing acc x with
  | nil => exact ⟨x, h, by simp⟩
  | cons q rest ih =>
    have hstep : eval env (Expr.and acc (compareToNextIndexLocation q)) =
        some (if x ≠ 0 ∧ (if env.vars q.coordinateVar < q.spanEnd env then (1 : Int) else 0) ≠ 0
          then 1 else 0) := by
      rw [eval, h, eval_compareToNextIndexLocation]
      rfl
    obtain ⟨y, hy, hiff⟩ := ih _ _ hstep
    refine ⟨y, hy, ?_⟩
    rw [hiff]
    by_cases hx : x = 0 <;> by_cases hq : env.vars q.coordinateVar < q.spanEnd env <;>
      simp [hx, hq]

/-- The value of the continuation predicate: it exists, and it is non-zero iff
every participant is strictly below its next boundary. -/
theorem eval_subsetLoopCondition (first : TensorIndexVar) (rest : List TensorIndexVar)
    (env : Env) :
    ∃ condition x, subsetLoopCondition (first :: rest) = some condition ∧
      eval env condition = some x ∧
      (x ≠ 0 ↔ ∀ p ∈ first :: rest, env.vars p.coordinateVar < p.spanEnd env) := by
  obtain ⟨y, hy, hiff⟩ := eval_foldl_and env rest (compareToNextIndexLocation first) _
    (eval_compareToNextIndexLocation env first)
  refine ⟨_, y, rfl, hy, ?_⟩
  rw [hiff]
  by_cases hq : env.vars first.coordinateVar < first.spanEnd env <;> simp [hq]

/-- C9, amended (merge condition): for a non-empty participant list the
continuation predicate built by `subsetLoopCondition` has a value under every
assignment of coordinate pointers and boundaries, and it is true iff every
participant has its coordinate pointer strictly below its next boundary. -/
theorem subsetLoopCondition_true_iff (first : TensorIndexVar)
    (rest : List TensorIndexVar) (env : Env) :
    ∃ condition x, subsetLoopCondition (first :: rest) = some condition ∧
      eval env condition = some x ∧
      (x ≠ 0 ↔ ∀ p ∈ first :: rest, env.vars p.coordinateVar < p.spanEnd env) :=
  eval_subsetLoopCondition first rest env

/-- C9, refuted as stated: two participants over spans of length 1, the first
with its pointer at the start of its span and the second with its pointer at
its boundary. One participant is strictly below its boundary, and the
predicate is false. -/
theorem subsetLoopCondition_not_any :
    ∃ condition, subsetLoopCondition [⟨100, 1, 2, 0⟩, ⟨100, 3, 4, 1⟩] = some condition ∧
      eval ⟨fun v => if v = 3 then 1 else 0, fun _ p => p, fun _ _ => 0⟩ condition = some 0 ∧
      ∃ p ∈ [(⟨100, 1, 2, 0⟩ : TensorIndexVar), ⟨100, 3, 4, 1⟩],
        (⟨fun v => if v = 3 then 1 else 0, fun _ p => p, fun _ _ => 0⟩ : Env).vars
            p.coordinateVar <
          p.spanEnd ⟨fun v => if v = 3 then 1 else 0, fun _ p => p, fun _ _ => 0⟩ := by
  refine ⟨_, rfl, by decide, ?_⟩
  decide

/-! ## Simulation of the emitted subset loop -/

theorem exec_block (watch : Var) (fuel : Nat) (stmts : List Stmt) (s : Sim) :
    exec watch (fuel + 1) (.block stmts) s = execSeq (exec watch fuel) stmts s := rfl

theorem exec_assignStmt (watch : Var) (fuel : Nat) (v : Var) (e : Expr) (s : Sim) :
    exec watch (fuel + 1) (.assignStmt v e) s =
      (eval s.env e).map (fun x => s.write watch v x) := rfl

theorem exec_whileLoop (watch : Var) (fuel : Nat) (c : Expr) (b : Stmt) (s : Sim) :
    exec watch (fuel + 1) (.whileLoop c b) s =
      match eval s.env c with
      | none => none
      | some x =>
        if x = 0 then some s
        else
          match exec watch fuel b s with
          | none => none
          | some s1 => exec watch fuel (.whileLoop c b) s1 := rfl

theorem exec_min (watch : Var) (fuel : Nat) (r : Var) (es : List Expr) (s : Sim) :
    exec watch (fuel + 1) (.min r es) s =
      match evalAll s.env es with
      | some (x :: xs) => some (s.write watch r (xs.foldl Min.min x))
      | _ => none := rfl

/-- A block of assignments whose targets are pairwise different, none of them
watched, and whose right-hand sides do not read the target of another
assignment of the block: every target receives the value its right-hand side
has before the block, and nothing else changes. -/
theorem execSeq_assign {α : Type} (watch : Var) (fuel : Nat) (lhs : α → Var)
    (rhs : α → Expr) (val : α → Int) (ps : List α) (s : Sim)
    (hnd : (ps.map lhs).Nodup) (hw : watch ∉ ps.map lhs)
    (hev : ∀ p ∈ ps, ∀ env' : Env, env'.coordinates = s.env.coordinates →
      env'.sinks = s.env.sinks →
      (∀ w, (w ∉ ps.map lhs ∨ w = lhs p) → env'.vars w = s.env.vars w) →
      eval env' (rhs p) = some (val p)) :
    ∃ s', execSeq (exec watch (fuel + 1))
        (ps.map (fun p => Stmt.assignStmt (lhs p) (rhs p))) s = some s' ∧
      s'.env.coordinates = s.env.coordinates ∧ s'.env.sinks = s.env.sinks ∧
      s'.trace = s.trace ∧ (∀ p ∈ ps, s'.env.vars (lhs p) = val p) ∧
      (∀ w, w ∉ ps.map lhs → s'.env.vars w = s.env.vars w) := by
  induction ps generalizing s with
  | nil => exact ⟨s, rfl, rfl, rfl, rfl, by simp, by simp⟩
  | cons p0 ps ih =>
    have hnd' : lhs p0 ∉ ps.map lhs ∧ (ps.map lhs).Nodup := by
      simpa [List.nodup_cons] using hnd
    have hw' : watch ≠ lhs p0 ∧ watch ∉ ps.map lhs := by
      simpa [List.mem_cons, not_or] using hw
    have h0 : eval s.env (rhs p0) = some (val p0) :=
      hev p0 (List.mem_cons_self _ _) s.env rfl rfl (fun _ _ => rfl)
    have hs1v : ∀ w, w ≠ lhs p0 → (s.write watch (lhs p0) (val p0)).env.vars w = s.env.vars w := by
      intro w hw0
      simp [Sim.write, hw0]
    have hs1t : (s.write watch (lhs p0) (val p0)).trace = s.trace := by
      simp [Sim.write, Ne.symm hw'.1]
    obtain ⟨s', hrun, hc, hk, ht, hval, hframe⟩ := ih (s.write watch (lhs p0) (val p0)) hnd'.2 hw'.2
      (by
        intro p hp env' hc hk hag
        apply hev p (List.mem_cons_of_mem _ hp) env' hc hk
        intro w hcase
        have hpne : lhs p ≠ lhs p0 := by
          intro heq
          exact hnd'.1 (heq ▸ List.mem_map_of_mem lhs hp)
        rcases hcase with hnot | heq
        · have hnot' : w ≠ lhs p0 ∧ w ∉ ps.map lhs := by
            simpa [List.mem_cons, not_or] using hnot
          rw [hag w (Or.inl hnot'.2)]
          exact hs1v w hnot'.1
        · rw [hag w (Or.inr heq), heq]
          exact hs1v _ hpne)
    refine ⟨s', ?_, hc, hk, ht.trans hs1t, ?_, ?_⟩
    · simp only [List.map_cons, execSeq, exec_assignStmt, h0, Option.map_some']
      exact hrun
    · intro p hp
      rcases List.mem_cons.mp hp with rfl | hp
      · rw [hframe _ hnd'.1]
        simp [Sim.write]
      · exact hval p hp
    · intro w hwn
      have hnot' : w ≠ lhs p0 ∧ w ∉ ps.map lhs := by
        simpa [List.mem_cons, not_or] using hwn
      rw [hframe w hnot'.2]
      exact hs1v w hnot'.1

theorem evalAll_varExpr (env : Env) (vs : List Var) :
    evalAll env (vs.map Expr.varExpr) = some (vs.map env.vars) := by
  induction vs with
  | nil => rfl
  | cons v vs ih => simp [evalAll, eval, ih]

/-! ## Element-wise minima of coordinate lists -/

theorem getElem?_foldl_zipWith_min {α : Type} (f : α → List Int) (val : α → Int) (k : Nat)
    (ps : List α) (h : ∀ p ∈ ps, (f p)[k]? = some (val p)) (sp : List Int) (x : Int)
    (hx : sp[k]? = some x) :
    ((ps.map f).foldl (List.zipWith Min.min) sp)[k]? = some ((ps.map val).foldl Min.min x) := by
  induction ps generalizing sp x with
  | nil => exact hx
  | cons p0 ps ih =>
    simp only [List.map_cons, List.foldl_cons]
    apply ih (fun p hp => h p (List.mem_cons_of_mem _ hp))
    rw [List.getElem?_zipWith, hx, h p0 (List.mem_cons_self _ _)]

theorem length_foldl_zipWith_min (sps : List (List Int)) (sp : List Int) (k : Nat) :
    k < (sps.foldl (List.zipWith Min.min) sp).length ↔
      k < sp.length ∧ ∀ s ∈ sps, k < s.length := by
  induction sps generalizing sp with
  | nil => simp
  | cons s sps ih =>
    rw [List.foldl_cons, ih, List.length_zipWith]
    simp only [List.mem_cons, forall_eq_or_imp, lt_min_iff]
    tauto

theorem lt_length_lockStep (sps : List (List Int)) (hne : sps ≠ []) (k : Nat) :
    k < (lockStep sps).length ↔ ∀ s ∈ sps, k < s.length := by
  cases sps with
  | nil => exact absurd rfl hne
  | cons sp sps =>
    simp only [lockStep, length_foldl_zipWith_min, List.mem_cons, forall_eq_or_imp]

theorem pairwise_zipWith_min {a b : List Int} (ha : a.Pairwise (· < ·))
    (hb : b.Pairwise (· < ·)) : (List.zipWith Min.min a b).Pairwise (· < ·) := by
  induction a generalizing b with
  | nil => simp
  | cons x a ih =>
    cases b with
    | nil => simp
    | cons y b =>
      rw [List.pairwise_cons] at ha hb
      rw [List.zipWith_cons_cons, List.pairwise_cons]
      refine ⟨?_, ih ha.2 hb.2⟩
      intro z hz
      obtain ⟨i, hi⟩ := List.mem_iff_getElem?.mp hz
      rw [List.getElem?_zipWith] at hi
      cases hai : a[i]? with
      | none => simp [hai] at hi
      | some u =>
        cases hbi : b[i]? with
        | none => simp [hai, hbi] at hi
        | some w =>
          simp only [hai, hbi, Option.some.injEq] at hi
          have hu := ha.1 u (List.mem_iff_getElem?.mpr ⟨i, hai⟩)
          have hw := hb.1 w (List.mem_iff_getElem?.mpr ⟨i, hbi⟩)
          rw [← hi]
          exact lt_min (lt_of_le_of_lt (min_le_left _ _) hu)
            (lt_of_le_of_lt (min_le_right _ _) hw)

theorem mem_zipWith_min {a b : List Int} {z : Int} (hz : z ∈ List.zipWith Min.min a b) :
    z ∈ a ∨ z ∈ b := by
  obtain ⟨i, hi⟩ := List.mem_iff_getElem?.mp hz
  rw [List.getElem?_zipWith] at hi
  cases hai : a[i]? with
  | none => simp [hai] at hi
  | some u =>
    cases hbi : b[i]? with
    | none => simp [hai, hbi] at hi
    | some w =>
      simp only [hai, hbi, Option.some.injEq] at hi
      rcases min_choice u w with h | h
      · left
        rw [← hi, h]
        exact List.mem_iff_getElem?.mpr ⟨i, hai⟩
      · right
        rw [← hi, h]
        exact List.mem_iff_getElem?.mpr ⟨i, hbi⟩

theorem headBelow_self {l : List Int} (h : l.Pairwise (· < ·)) : HeadBelow l l := by
  intro x hx y hy
  cases l with
  | nil => simp at hx
  | cons a l =>
    simp only [List.head?_cons, Option.some.injEq] at hx
    subst hx
    rcases List.mem_cons.mp hy with rfl | hy
    · exact le_refl _
    · exact le_of_lt ((List.pairwise_cons.mp h).1 y hy)

theorem headBelow_zipWith_min {a b s : List Int} (h : HeadBelow a s ∨ HeadBelow b s) :
    HeadBelow (List.zipWith Min.min a b) s := by
  intro x hx y hy
  cases a with
  | nil => simp at hx
  | cons u a =>
    cases b with
    | nil => simp at hx
    | cons w b =>
      simp only [List.zipWith_cons_cons, List.head?_cons, Option.some.injEq] at hx
      rw [← hx]
      rcases h with h | h
      · exact le_trans (min_le_left _ _) (h u rfl y hy)
      · exact le_trans (min_le_right _ _) (h w rfl y hy)

theorem foldl_zipWith_min_facts (sps : List (List Int)) (sp : List Int)
    (seen : List (List Int)) (hsp : sp.Pairwise (· < ·))
    (hsps : ∀ s ∈ sps, s.Pairwise (· < ·))
    (hmem : ∀ x ∈ sp, ∃ s ∈ seen, x ∈ s) (hhead : ∀ s ∈ seen, HeadBelow sp s) :
    (sps.foldl (List.zipWith Min.min) sp).Pairwise (· < ·) ∧
    (∀ x ∈ sps.foldl (List.zipWith Min.min) sp, ∃ s ∈ seen ++ sps, x ∈ s) ∧
    (∀ s ∈ seen ++ sps, HeadBelow (sps.foldl (List.zipWith Min.min) sp) s) ∧
    (sps.foldl (List.zipWith Min.min) sp = [] ↔ sp = [] ∨ ∃ s ∈ sps, s = []) := by
  induction sps generalizing sp seen with
  | nil =>
    refine ⟨hsp, ?_, ?_, by simp⟩
    · simpa using hmem
    · simpa using hhead
  | cons s sps ih =>
    have hs := hsps s (List.mem_cons_self _ _)
    obtain ⟨i1, i2, i3, i4⟩ := ih (List.zipWith Min.min sp s) (seen ++ [s])
      (pairwise_zipWith_min hsp hs) (fun t ht => hsps t (List.mem_cons_of_mem _ ht))
      (by
        intro x hx
        rcases mem_zipWith_min hx with h | h
        · obtain ⟨t, ht, hxt⟩ := hmem x h
          exact ⟨t, List.mem_append_left _ ht, hxt⟩
        · exact ⟨s, by simp, h⟩)
      (by
        intro t ht
        rcases List.mem_append.mp ht with ht | ht
        · exact headBelow_zipWith_min (Or.inl (hhead t ht))
        · rw [List.mem_singleton] at ht
          subst ht
          exact headBelow_zipWith_min (Or.inr (headBelow_self hs)))
    simp only [List.foldl_cons]
    refine ⟨i1, ?_, ?_, ?_⟩
    · simpa [List.append_assoc] using i2
    · simpa [List.append_assoc] using i3
    · rw [i4, List.zipWith_eq_nil_iff]
      simp only [List.mem_cons, exists_eq_or_imp]
      tauto

/-- The element-wise minimum of strictly increasing lists is strictly
increasing, consists of elements of the lists, begins with the least element
of all lists, and is empty iff one of the lists is. -/
theorem lockStep_facts (sps : List (List Int)) (hne : sps ≠ [])
    (hs : ∀ s ∈ sps, s.Pairwise (· < ·)) :
    (lockStep sps).Pairwise (· < ·) ∧
    (∀ x ∈ lockStep sps, ∃ s ∈ sps, x ∈ s) ∧
    (∀ s ∈ sps, HeadBelow (lockStep sps) s) ∧
    (lockStep sps = [] ↔ ∃ s ∈ sps, s = []) := by
  cases sps with
  | nil => exact absurd rfl hne
  | cons sp sps =>
    have hsp := hs sp (List.mem_cons_self _ _)
    obtain ⟨i1, i2, i3, i4⟩ := foldl_zipWith_min_facts sps sp [sp] hsp
      (fun t ht => hs t (List.mem_cons_of_mem _ ht))
      (fun x hx => ⟨sp, by simp, hx⟩)
      (by
        intro t ht
        rw [List.mem_singleton] at ht
        subst ht
        exact headBelow_self hsp)
    refine ⟨i1, ?_, ?_, ?_⟩
    · simpa [lockStep] using i2
    · simpa [lockStep] using i3
    · simp only [lockStep, i4, List.mem_cons, exists_eq_or_imp]

/-- A strictly increasing list of elements of the given lists is a sub-list of
their sorted union. -/
theorem sublist_sortedUnion (l : List Int) (sps : List (List Int))
    (hl : l.Pairwise (· < ·)) (hmem : ∀ x ∈ l, ∃ s ∈ sps, x ∈ s) :
    l.Sublist (sortedUnion sps) := by
  have hnd : l.Nodup := List.Pairwise.imp (fun h => ne_of_lt h) hl
  have hsub : l ⊆ sortedUnion sps := by
    intro x hx
    obtain ⟨s, hs, hxs⟩ := hmem x hx
    unfold sortedUnion
    rw [(List.perm_insertionSort _ _).mem_iff, List.mem_dedup, List.mem_flatten]
    exact ⟨s, hs, hxs⟩
  have hsl : l.Sorted (· ≤ ·) := List.Pairwise.imp (fun h => le_of_lt h) hl
  exact List.sublist_of_subperm_of_sorted (List.subperm_of_subset hnd hsub) hsl
    (List.sorted_insertionSort _ _)

/-! ## The loop of a merge of two or more participants -/

theorem lt_length_span (p : TensorIndexVar) (env : Env) (k : Nat) :
    k < (p.span env).length ↔ p.spanBegin env + k < p.spanEnd env := by
  simp only [TensorIndexVar.span, List.length_map, List.length_range, Int.lt_toNat]
  omega

theorem getElem?_span (p : TensorIndexVar) (env : Env) (k : Nat)
    (hk : k < (p.span env).length) :
    (p.span env)[k]? = some (env.sinks p.tensorIndex (p.spanBegin env + k)) := by
  have hk' : k < (p.spanEnd env - p.spanBegin env).toNat := by
    simpa [TensorIndexVar.span] using hk
  simp [TensorIndexVar.span, List.getElem?_range hk']

theorem distinctVars_facts {iv : Var} {ps : List TensorIndexVar} (hd : DistinctVars iv ps) :
    (ps.map TensorIndexVar.coordinateVar).Nodup ∧ (ps.map TensorIndexVar.sinkVar).Nodup ∧
    iv ∉ ps.map TensorIndexVar.coordinateVar ∧ iv ∉ ps.map TensorIndexVar.sinkVar ∧
    (∀ p ∈ ps, p.coordinateVar ∉ ps.map TensorIndexVar.sinkVar) ∧
    (∀ p ∈ ps, p.sourceVar ∉ ps.map TensorIndexVar.coordinateVar ∧
      p.sourceVar ∉ ps.map TensorIndexVar.sinkVar ∧ p.sourceVar ≠ iv) := by
  obtain ⟨hnd, hsrc⟩ := hd
  rw [List.nodup_cons] at hnd
  obtain ⟨hiv, hw⟩ := hnd
  unfold writtenVars at hiv hw hsrc
  rw [List.nodup_append] at hw
  obtain ⟨h1, h2, h3⟩ := hw
  rw [List.mem_append, not_or] at hiv
  refine ⟨h1, h2, hiv.1, hiv.2, ?_, ?_⟩
  · intro p hp hc
    exact h3 (List.mem_map_of_mem _ hp) hc
  · intro p hp
    have := hsrc p hp
    simp only [List.mem_cons, List.mem_append, not_or] at this
    exact ⟨this.2.1, this.2.2, this.1⟩

theorem spanEnd_of_inv {ps : List TensorIndexVar} {env0 : Env} {k : Nat} {s : Sim}
    (hinv : LoopInv ps env0 k s) {p : TensorIndexVar} (hp : p ∈ ps) :
    p.spanEnd s.env = p.spanEnd env0 := by
  obtain ⟨hc, _, hsrc, _, _⟩ := hinv
  simp [TensorIndexVar.spanEnd, hc, hsrc p hp]

/-- Under the loop invariant the continuation predicate is true iff fewer
values are recorded than the element-wise minimum holds. -/
theorem eval_condition_of_inv (first : TensorIndexVar) (rest : List TensorIndexVar)
    (env0 : Env) (k : Nat) (s : Sim) (hinv : LoopInv (first :: rest) env0 k s) :
    ∃ condition x, subsetLoopCondition (first :: rest) = some condition ∧
      eval s.env condition = some x ∧
      (x ≠ 0 ↔ k < (lockStep ((first :: rest).map (fun p => p.span env0))).length) := by
  obtain ⟨condition, x, hc, hx, hiff⟩ := eval_subsetLoopCondition first rest s.env
  refine ⟨condition, x, hc, hx, ?_⟩
  rw [hiff, lt_length_lockStep _ (by simp)]
  simp only [List.forall_mem_map]
  constructor
  · intro h p hp
    have := h p hp
    rw [hinv.2.2.2.1 p hp, spanEnd_of_inv hinv hp] at this
    exact (lt_length_span p env0 k).mpr this
  · intro h p hp
    rw [hinv.2.2.2.1 p hp, spanEnd_of_inv hinv hp]
    exact (lt_length_span p env0 k).mp (h p hp)

/-- One iteration of the merge body takes the loop invariant from `k` to
`k + 1`. -/
theorem exec_mergeBody (iv : Var) (first : TensorIndexVar) (rest : List TensorIndexVar)
    (env0 : Env) (k fuel : Nat) (s : Sim) (hd : DistinctVars iv (first :: rest))
    (hinv : LoopInv (first :: rest) env0 k s)
    (hk : k < (lockStep ((first :: rest).map (fun p => p.span env0))).length) :
    ∃ s', exec iv (fuel + 4) (mergeBody iv (first :: rest)) s = some s' ∧
      LoopInv (first :: rest) env0 (k + 1) s' := by
  obtain ⟨hndc, hnds, hivc, hivs, hcs, hsrc⟩ := distinctVars_facts hd
  obtain ⟨hc0, hk0, hsrc0, hcv0, ht0⟩ := hinv
  have hlen : ∀ p ∈ first :: rest, k < (p.span env0).length := by
    have := (lt_length_lockStep _ (by simp) k).mp hk
    simpa only [List.forall_mem_map] using this
  -- load the sink variables
  obtain ⟨s1, hrun1, hc1, hk1, ht1, hval1, hframe1⟩ :=
    execSeq_assign iv fuel (fun p : TensorIndexVar => p.sinkVar) (fun p => p.loadSink)
      (fun p => env0.sinks p.tensorIndex (p.spanBegin env0 + k)) (first :: rest) s hnds hivs
      (by
        intro p hp env' _ hks hag
        simp only [TensorIndexVar.loadSink, eval, Option.map_some']
        rw [hks, hk0, hag p.coordinateVar (Or.inl (hcs p hp)), hcv0 p hp])
  -- take the minimum
  have hall : evalAll s1.env ((first :: rest).map (fun t => Expr.varExpr t.getSinkVar)) =
      some ((first :: rest).map
        (fun p => env0.sinks p.tensorIndex (p.spanBegin env0 + k))) := by
    have e1 : (first :: rest).map (fun t => Expr.varExpr t.getSinkVar) =
        ((first :: rest).map TensorIndexVar.sinkVar).map Expr.varExpr := by
      rw [List.map_map]
      rfl
    rw [e1, evalAll_varExpr, List.map_map]
    congr 1
    apply List.map_congr_left
    intro p hp
    exact hval1 p hp
  obtain ⟨m, hm⟩ : ∃ m, m = (rest.map
      (fun p => env0.sinks p.tensorIndex (p.spanBegin env0 + k))).foldl Min.min
      (env0.sinks first.tensorIndex (first.spanBegin env0 + k)) := ⟨_, rfl⟩
  have hrun2 : exec iv (fuel + 2)
      (.min iv ((first :: rest).map (fun t => Expr.varExpr t.getSinkVar))) s1 =
      some (s1.write iv iv m) := by
    rw [exec_min, hall, hm]
    rfl
  have hs2v : ∀ w, w ≠ iv → (s1.write iv iv m).env.vars w = s1.env.vars w := by
    intro w hw
    simp [Sim.write, hw]
  -- increment the coordinate pointers
  obtain ⟨s3, hrun3, hc3, hk3, ht3, hval3, hframe3⟩ :=
    execSeq_assign iv (fuel + 1) (fun p : TensorIndexVar => p.coordinateVar)
      (fun p => Expr.add (.varExpr p.coordinateVar) (.literal 1))
      (fun p => p.spanBegin env0 + k + 1) (first :: rest) (s1.write iv iv m) hndc hivc
      (by
        intro p hp env' _ _ hag
        have hne : p.coordinateVar ≠ iv := by
          intro heq
          exact hivc (heq ▸ List.mem_map_of_mem TensorIndexVar.coordinateVar hp)
        simp only [eval, Option.map_some', Option.some_bind]
        rw [hag p.coordinateVar (Or.inr rfl), hs2v _ hne, hframe1 _ (hcs p hp), hcv0 p hp])
  have hlock : (lockStep ((first :: rest).map (fun p => p.span env0)))[k]? = some m := by
    rw [hm]
    simp only [List.map_cons, lockStep]
    exact getElem?_foldl_zipWith_min (fun p : TensorIndexVar => p.span env0) _ k rest
      (fun p hp => getElem?_span p env0 k (hlen p (List.mem_cons_of_mem _ hp))) _ _
      (getElem?_span first env0 k (hlen first (List.mem_cons_self _ _)))
  refine ⟨s3, ?_, ?_, ?_, ?_, ?_, ?_⟩
  · have hA : exec iv (fuel + 2) (.block ((first :: rest).map TensorIndexVar.initSinkVar)) s =
        some s1 := by
      rw [exec_block]
      exact hrun1
    have hB1 : exec iv (fuel + 3)
        (.block [.block ((first :: rest).map TensorIndexVar.initSinkVar),
          .min iv ((first :: rest).map (fun t => Expr.varExpr t.getSinkVar))]) s =
        some (s1.write iv iv m) := by
      rw [exec_block]
      simp only [execSeq, hA, hrun2]
    have hB2 : exec iv (fuel + 3)
        (.block ((first :: rest).map (fun t => increment t.getCoordinateVar)))
        (s1.write iv iv m) = some s3 := by
      rw [exec_block]
      exact hrun3
    unfold mergeBody
    rw [exec_block]
    simp only [execSeq, hB1, hB2]
  · rw [hc3]
    exact hc1.trans hc0
  · rw [hk3]
    exact hk1.trans hk0
  · intro p hp
    obtain ⟨h1, h2, h3⟩ := hsrc p hp
    rw [hframe3 _ h1, hs2v _ h3, hframe1 _ h2]
    exact hsrc0 p hp
  · intro p hp
    rw [hval3 p hp]
    push_cast
    ring
  · rw [ht3]
    have : (s1.write iv iv m).trace = s1.trace ++ [m] := by simp [Sim.write]
    rw [this, ht1, ht0, List.take_succ, hlock]
    rfl

/-- The loop runs until as many values are recorded as the element-wise
minimum holds, whatever the budget above `length - k + 5`. -/
theorem exec_whileLoop_merge (iv : Var) (first : TensorIndexVar)
    (rest : List TensorIndexVar) (env0 : Env) (condition : Expr)
    (hcond : subsetLoopCondition (first :: rest) = some condition)
    (hd : DistinctVars iv (first :: rest)) (d : Nat) :
    ∀ (k fuel : Nat) (s : Sim), LoopInv (first :: rest) env0 k s →
      (lockStep ((first :: rest).map (fun p => p.span env0))).length = k + d →
      d + 5 ≤ fuel →
      ∃ s', exec iv fuel (.whileLoop condition (mergeBody iv (first :: rest))) s = some s' ∧
        LoopInv (first :: rest) env0 (k + d) s' := by
  induction d with
  | zero =>
    intro k fuel s hinv hL hfuel
    obtain ⟨c, x, hc, hx, hiff⟩ := eval_condition_of_inv first rest env0 k s hinv
    have hce : c = condition := Option.some.inj (hc.symm.trans hcond)
    subst hce
    have hx0 : x = 0 := by
      by_contra hne
      have := hiff.mp hne
      omega
    obtain ⟨f, rfl⟩ : ∃ f, fuel = f + 1 := ⟨fuel - 1, by omega⟩
    refine ⟨s, ?_, hinv⟩
    rw [exec_whileLoop, hx]
    simp [hx0]
  | succ d ih =>
    intro k fuel s hinv hL hfuel
    obtain ⟨c, x, hc, hx, hiff⟩ := eval_condition_of_inv first rest env0 k s hinv
    have hce : c = condition := Option.some.inj (hc.symm.trans hcond)
    subst hce
    have hx0 : x ≠ 0 := hiff.mpr (by omega)
    obtain ⟨f, rfl⟩ : ∃ f, fuel = f + 4 + 1 := ⟨fuel - 5, by omega⟩
    obtain ⟨s1, hbody, hinv1⟩ := exec_mergeBody iv first rest env0 k f s hd hinv (by omega)
    obtain ⟨s', hrun, hinv'⟩ := ih (k + 1) (f + 4) s1 hinv1 (by omega) (by omega)
    refine ⟨s', ?_, ?_⟩
    · rw [exec_whileLoop, hx]
      simp only [hx0, if_false, hbody]
      exact hrun
    · have e : k + (d + 1) = k + 1 + d := by omega
      rw [e]
      exact hinv'

/-! ## The statement emitted for a merge, simulated from its start -/

theorem emitSubsetLoop_merge (target : Expr) (iv : Var) (subsetLoop : SubsetLoop)
    (first second : TensorIndexVar) (rest : List TensorIndexVar)
    (hps : subsetLoop.tensorIndexVars = first :: second :: rest) :
    ∃ condition, subsetLoopCondition (first :: second :: rest) = some condition ∧
      emitSubsetLoop target iv subsetLoop =
        .ok (.block [.block ((first :: second :: rest).map TensorIndexVar.initCoordinateVar),
          .whileLoop condition (mergeBody iv (first :: second :: rest))]) := by
  refine ⟨_, rfl, ?_⟩
  simp [emitSubsetLoop, SubsetLoop.getTensorIndexVars, hps, subsetLoopCondition, mergeBody]

/-- The initialisation of the coordinate pointers establishes the loop
invariant for `k = 0`. -/
theorem exec_initCoordinateVars (iv : Var) (ps : List TensorIndexVar) (env : Env)
    (fuel : Nat) (hd : DistinctVars iv ps) :
    ∃ s1, exec iv (fuel + 2) (.block (ps.map TensorIndexVar.initCoordinateVar)) ⟨env, []⟩ =
        some s1 ∧ LoopInv ps env 0 s1 := by
  obtain ⟨hndc, _, hivc, _, _, hsrc⟩ := distinctVars_facts hd
  obtain ⟨s1, hrun, hc, hk, ht, hval, hframe⟩ :=
    execSeq_assign iv fuel (fun p : TensorIndexVar => p.coordinateVar)
      (fun p => p.loadCoordinate 0) (fun p => p.spanBegin env) ps ⟨env, []⟩ hndc hivc
      (by
        intro p hp env' hce _ hag
        rw [eval_loadCoordinate_zero]
        simp only [TensorIndexVar.spanBegin]
        rw [hce, hag p.sourceVar (Or.inl (hsrc p hp).1)])
  refine ⟨s1, ?_, hc, hk, ?_, ?_, ?_⟩
  · rw [exec_block]
    exact hrun
  · intro p hp
    exact hframe _ (hsrc p hp).1
  · intro p hp
    rw [hval p hp]
    simp
  · rw [ht]
    rfl

/-- The statement emitted for two or more participants with distinct
variables, simulated from any environment with any budget above
`length + 6`: the values stored in the induction variable are the element-wise
minima of the coordinate spans, cut to the shortest span. -/
theorem emitSubsetLoop_lockStep (target : Expr) (iv : Var) (subsetLoop : SubsetLoop)
    (env : Env) (hn : 2 ≤ subsetLoop.tensorIndexVars.length)
    (hd : DistinctVars iv subsetLoop.tensorIndexVars) :
    ∃ stmt, emitSubsetLoop target iv subsetLoop = .ok stmt ∧
      ∀ fuel, (lockStep (subsetLoop.tensorIndexVars.map (fun p => p.span env))).length + 6 ≤ fuel →
        ∃ s', exec iv fuel stmt ⟨env, []⟩ = some s' ∧
          s'.trace = lockStep (subsetLoop.tensorIndexVars.map (fun p => p.span env)) := by
  obtain ⟨first, second, rest, hps⟩ :
      ∃ first second rest, subsetLoop.tensorIndexVars = first :: second :: rest := by
    cases h : subsetLoop.tensorIndexVars with
    | nil => rw [h] at hn; simp at hn
    | cons a l =>
      cases l with
      | nil => rw [h] at hn; simp at hn
      | cons b l => exact ⟨a, b, l, rfl⟩
  obtain ⟨condition, hcond, hemit⟩ := emitSubsetLoop_merge target iv subsetLoop first second rest hps
  rw [hps] at hd ⊢
  refine ⟨_, hemit, ?_⟩
  intro fuel hfuel
  obtain ⟨f, rfl⟩ : ∃ f, fuel = f + 2 + 1 := ⟨fuel - 3, by omega⟩
  obtain ⟨s1, hinit, hinv1⟩ := exec_initCoordinateVars iv (first :: second :: rest) env f hd
  obtain ⟨s', hrun, hinv'⟩ := exec_whileLoop_merge iv first (second :: rest) env condition hcond hd
    (lockStep ((first :: second :: rest).map (fun p => p.span env))).length 0 (f + 2) s1 hinv1
    (by omega) (by omega)
  refine ⟨s', ?_, ?_⟩
  · rw [exec_block]
    simp only [execSeq, hinit, hrun]
  · rw [hinv'.2.2.2.2, Nat.zero_add, List.take_length]

/-- C10, amended (merge): for two or more participants with distinct variables
whose coordinate spans are strictly increasing, `emitSubsetLoop` returns a
statement whose simulation, with any sufficient budget, stores in the
induction variable a strictly increasing sequence of coordinates that is a
sub-list of the sorted union of the spans, whose first value is at most every
coordinate of every participant, and which is empty iff some span is empty. -/
theorem emitSubsetLoop_trace (target : Expr) (iv : Var) (subsetLoop : SubsetLoop)
    (env : Env) (hn : 2 ≤ subsetLoop.tensorIndexVars.length)
    (hd : DistinctVars iv subsetLoop.tensorIndexVars)
    (hs : ∀ p ∈ subsetLoop.tensorIndexVars, (p.span env).Pairwise (· < ·)) :
    ∃ stmt fuel0 trace, emitSubsetLoop target iv subsetLoop = .ok stmt ∧
      (∀ fuel, fuel0 ≤ fuel →
        ∃ s', exec iv fuel stmt ⟨env, []⟩ = some s' ∧ s'.trace = trace) ∧
      trace.Sublist (sortedUnion (subsetLoop.tensorIndexVars.map (fun p => p.span env))) ∧
      trace.Pairwise (· < ·) ∧
      (∀ x, trace.head? = some x →
        ∀ p ∈ subsetLoop.tensorIndexVars, ∀ y ∈ p.span env, x ≤ y) ∧
      (trace = [] ↔ ∃ p ∈ subsetLoop.tensorIndexVars, p.span env = []) := by
  obtain ⟨stmt, hemit, hrun⟩ := emitSubsetLoop_lockStep target iv subsetLoop env hn hd
  have hne : subsetLoop.tensorIndexVars.map (fun p => p.span env) ≠ [] := by
    intro h
    have h0 := congrArg List.length h
    rw [List.length_map, List.length_nil] at h0
    omega
  obtain ⟨f1, f2, f3, f4⟩ := lockStep_facts _ hne (by
    intro s hsm
    obtain ⟨p, hp, rfl⟩ := List.mem_map.mp hsm
    exact hs p hp)
  refine ⟨stmt, _, _, hemit, hrun, sublist_sortedUnion _ _ f1 f2, f1, ?_, ?_⟩
  · intro x hx p hp y hy
    exact f3 _ (List.mem_map_of_mem _ hp) x hx y hy
  · rw [f4]
    simp only [List.mem_map, exists_exists_and_eq_and]

/-- Witness of C10 (amended): two participants with the spans `[1, 3]` and
`[2, 4]`. -/
theorem emitSubsetLoop_trace_witness :
    ∃ stmt fuel0 trace,
      emitSubsetLoop (.literal 0) 9 ⟨[⟨100, 1, 2, 0⟩, ⟨100, 3, 4, 1⟩], .add, .literal 0⟩ =
        .ok stmt ∧
      (∀ fuel, fuel0 ≤ fuel →
        ∃ s', exec 9 fuel stmt ⟨⟨fun _ => 0, fun _ p => if p = 0 then 0 else 2,
          fun ti p => if ti = 0 then (if p = 0 then 1 else 3)
            else (if p = 0 then 2 else 4)⟩, []⟩ = some s' ∧ s'.trace = trace) ∧
      trace.Sublist (sortedUnion
        ((⟨[⟨100, 1, 2, 0⟩, ⟨100, 3, 4, 1⟩], .add, .literal 0⟩ : SubsetLoop).tensorIndexVars.map
          (fun p => p.span ⟨fun _ => 0, fun _ p => if p = 0 then 0 else 2,
            fun ti p => if ti = 0 then (if p = 0 then 1 else 3)
              else (if p = 0 then 2 else 4)⟩))) ∧
      trace.Pairwise (· < ·) ∧
      (∀ x, trace.head? = some x →
        ∀ p ∈ (⟨[⟨100, 1, 2, 0⟩, ⟨100, 3, 4, 1⟩], .add, .literal 0⟩ : SubsetLoop).tensorIndexVars,
          ∀ y ∈ p.span ⟨fun _ => 0, fun _ p => if p = 0 then 0 else 2,
            fun ti p => if ti = 0 then (if p = 0 then 1 else 3)
              else (if p = 0 then 2 else 4)⟩, x ≤ y) ∧
      (trace = [] ↔
        ∃ p ∈ (⟨[⟨100, 1, 2, 0⟩, ⟨100, 3, 4, 1⟩], .add, .literal 0⟩ : SubsetLoop).tensorIndexVars,
          p.span ⟨fun _ => 0, fun _ p => if p = 0 then 0 else 2,
            fun ti p => if ti = 0 then (if p = 0 then 1 else 3)
              else (if p = 0 then 2 else 4)⟩ = []) :=
  emitSubsetLoop_trace (.literal 0) 9 ⟨[⟨100, 1, 2, 0⟩, ⟨100, 3, 4, 1⟩], .add, .literal 0⟩
    ⟨fun _ => 0, fun _ p => if p = 0 then 0 else 2,
      fun ti p => if ti = 0 then (if p = 0 then 1 else 3) else (if p = 0 then 2 else 4)⟩
    (by decide) (by unfold DistinctVars; decide) (by decide)

/-- C10, refuted as stated: two participants with the strictly increasing
spans `[1, 3]` and `[2, 4]`. The simulation of the emitted statement stores
`1` and `3` in the induction variable; the sorted union is `[1, 2, 3, 4]`. -/
theorem emitSubsetLoop_not_union :
    TensorIndexVar.span ⟨100, 1, 2, 0⟩ ⟨fun _ => 0, fun _ p => if p = 0 then 0 else 2,
      fun ti p => if ti = 0 then (if p = 0 then 1 else 3)
        else (if p = 0 then 2 else 4)⟩ = [1, 3] ∧
    TensorIndexVar.span ⟨100, 3, 4, 1⟩ ⟨fun _ => 0, fun _ p => if p = 0 then 0 else 2,
      fun ti p => if ti = 0 then (if p = 0 then 1 else 3)
        else (if p = 0 then 2 else 4)⟩ = [2, 4] ∧
    (match emitSubsetLoop (.literal 0) 9
        ⟨[⟨100, 1, 2, 0⟩, ⟨100, 3, 4, 1⟩], .add, .literal 0⟩ with
      | .ok stmt =>
        (exec 9 20 stmt ⟨⟨fun _ => 0, fun _ p => if p = 0 then 0 else 2,
          fun ti p => if ti = 0 then (if p = 0 then 1 else 3)
            else (if p = 0 then 2 else 4)⟩, []⟩).map (fun s => s.trace)
      | .error _ => none) = some [1, 3] ∧
    sortedUnion [[1, 3], [2, 4]] = [1, 2, 3, 4] := by
  decide

/-! ## The shape of the statement `emitSubsetLoop` returns -/

theorem emitSubsetLoop_eq (target : Expr) (iv : Var) (subsetLoop : SubsetLoop)
    (first : TensorIndexVar) (rest : List TensorIndexVar)
    (hps : subsetLoop.tensorIndexVars = first :: rest) :
    ∃ condition, subsetLoopCondition (first :: rest) = some condition ∧
      emitSubsetLoop target iv subsetLoop =
        .ok (.block [.block ((first :: rest).map TensorIndexVar.initCoordinateVar),
          .whileLoop condition (subsetLoopBody iv (first :: rest))]) := by
  refine ⟨_, rfl, ?_⟩
  cases rest with
  | nil =>
    simp [emitSubsetLoop, SubsetLoop.getTensorIndexVars, hps, subsetLoopCondition,
      subsetLoopBody]
  | cons second rest =>
    simp [emitSubsetLoop, SubsetLoop.getTensorIndexVars, hps, subsetLoopCondition,
      subsetLoopBody, mergeBody]

theorem emitSubsetLoop_nil (target : Expr) (iv : Var) (subsetLoop : SubsetLoop)
    (hps : subsetLoop.tensorIndexVars = []) :
    emitSubsetLoop target iv subsetLoop = .error .assertion := by
  simp [emitSubsetLoop, SubsetLoop.getTensorIndexVars, hps]

/-- C11 (one participant): for a subset loop with exactly one participant `p`,
`emitSubsetLoop` builds no merge. The continuation predicate is the single
comparison of the coordinate pointer with the next boundary, without a
conjunction, and the loop body stores the participant's current coordinate
directly in the induction variable, without a minimum and without the sink
variable, before it increments the pointer. -/
theorem emitSubsetLoop_single (target : Expr) (inductionVar : Var) (p : TensorIndexVar)
    (op : CompoundOperator) (e : Expr) :
    subsetLoopCondition [p] =
      some (.lt (.varExpr p.coordinateVar) (p.loadCoordinate 1)) ∧
    emitSubsetLoop target inductionVar ⟨[p], op, e⟩ =
      .ok (.block [.block [.assignStmt p.coordinateVar (p.loadCoordinate 0)],
        .whileLoop (.lt (.varExpr p.coordinateVar) (p.loadCoordinate 1))
          (.block [.assignStmt inductionVar
              (.tensorIndexRead p.tensorIndex (.varExpr p.coordinateVar) .sinks),
            .block [.assignStmt p.coordinateVar
              (.add (.varExpr p.coordinateVar) (.literal 1))]])]) := by
  exact ⟨rfl, rfl⟩

/-- C12 (assertion): `emitSubsetLoop` fails, with the assertion, iff the list of
tensor index variables of the subset loop is empty. For every non-empty list
it returns a block of two statements: the block of the initialisations of the
coordinate pointers, one per participant in order, and the conditional loop
under the continuation predicate. -/
theorem emitSubsetLoop_assertion (target : Expr) (inductionVar : Var)
    (subsetLoop : SubsetLoop) :
    (emitSubsetLoop target inductionVar subsetLoop = .error .assertion ↔
      subsetLoop.tensorIndexVars = []) ∧
    (∀ e, emitSubsetLoop target inductionVar subsetLoop = .error e →
      e = .assertion ∧ subsetLoop.tensorIndexVars = []) ∧
    (subsetLoop.tensorIndexVars ≠ [] →
      ∃ condition body,
        subsetLoopCondition subsetLoop.tensorIndexVars = some condition ∧
        emitSubsetLoop target inductionVar subsetLoop =
          .ok (.block [.block (subsetLoop.tensorIndexVars.map
              (fun p => Stmt.assignStmt p.coordinateVar (p.loadCoordinate 0))),
            .whileLoop condition body])) := by
  cases hps : subsetLoop.tensorIndexVars with
  | nil =>
    have h := emitSubsetLoop_nil target inductionVar subsetLoop hps
    refine ⟨⟨fun _ => rfl, fun _ => h⟩, ?_, fun hne => absurd rfl hne⟩
    intro e he
    rw [h] at he
    exact ⟨(Except.error.inj he).symm, rfl⟩
  | cons first rest =>
    obtain ⟨condition, hc, hemit⟩ := emitSubsetLoop_eq target inductionVar subsetLoop first rest hps
    refine ⟨⟨?_, ?_⟩, ?_, ?_⟩
    · intro h
      rw [hemit] at h
      cases h
    · intro h
      cases h
    · intro e he
      rw [hemit] at he
      cases he
    · intro _
      exact ⟨condition, _, hc, hemit⟩

/-! ## One iteration of the loop body, from any state -/

theorem distinctVars_pointersApart {iv : Var} {ps : List TensorIndexVar}
    (hd : DistinctVars iv ps) : PointersApart iv ps := by
  obtain ⟨hndc, _, hivc, _, hcs, _⟩ := distinctVars_facts hd
  exact ⟨hndc, hivc, fun _ => hcs⟩

theorem forEachSink_fuel_mono
    (visit visit' : IndexVariableLoop → LoopNestState → Except LowerError LoopNestState)
    (h : ∀ L st st', visit L st = .ok st' → visit' L st = .ok st')
    (L : IndexVariableLoop) (sinks : List IndexVar) (st st' : LoopNestState)
    (hrun : forEachSink visit L sinks st = .ok st') :
    forEachSink visit' L sinks st = .ok st' := by
  induction sinks generalizing st with
  | nil => exact hrun
  | cons sink rest ih =>
    simp only [forEachSink] at hrun ⊢
    split_ifs at hrun ⊢ with hv
    · exact ih st hrun
    · cases hc : visit (.unlinked sink) (st.push sink (.linked sink L)) with
      | error e => rw [hc] at hrun; cases hrun
      | ok st1 =>
        rw [hc] at hrun
        rw [h _ _ _ hc]
        exact ih st1 hrun

/-- A result of the recursive traversal does not depend on the budget: a
larger budget gives the same result. -/
theorem createLoopNestRec_fuel_mono (g : IndexVarGraph) (fuel fuel' : Nat)
    (hle : fuel ≤ fuel') (L : IndexVariableLoop) (st st' : LoopNestState)
    (h : createLoopNestRec g fuel L st = .ok st') :
    createLoopNestRec g fuel' L st = .ok st' := by
  induction fuel generalizing fuel' L st st' with
  | zero => simp [createLoopNestRec] at h
  | succ fuel ih =>
    obtain ⟨f', rfl⟩ : ∃ f', fuel' = f' + 1 := ⟨fuel' - 1, by omega⟩
    simp only [createLoopNestRec] at h ⊢
    cases hs : mapAt g L.getIndexVar with
    | none => rw [hs] at h; cases h
    | some sinks =>
      rw [hs] at h
      exact forEachSink_fuel_mono _ _ (fun L st st' hr => ih f' (by omega) L st st' hr)
        L sinks st st' h

theorem forEachSink_outOfRange (g : IndexVarGraph)
    (visit : IndexVariableLoop → LoopNestState → Except LowerError LoopNestState)
    (hvisit : ∀ L st, visit L st = .error .outOfRange →
      ∃ v, Reachable g L.getIndexVar v ∧ mapAt g v = none)
    (L : IndexVariableLoop) (u : IndexVar) (sinks : List IndexVar) (st : LoopNestState)
    (hsinks : ∀ s ∈ sinks, Edge g u s)
    (h : forEachSink visit L sinks st = .error .outOfRange) :
    ∃ v, Reachable g u v ∧ mapAt g v = none := by
  induction sinks generalizing st with
  | nil => simp [forEachSink] at h
  | cons sink rest ih =>
    have hrest : ∀ s ∈ rest, Edge g u s := fun s hs => hsinks s (List.mem_cons_of_mem _ hs)
    simp only [forEachSink] at h
    split_ifs at h with hv
    · exact ih st hrest h
    · cases hc : visit (.unlinked sink) (st.push sink (.linked sink L)) with
      | error e' =>
        rw [hc] at h
        have he : e' = .outOfRange := Except.error.inj h
        subst he
        obtain ⟨v, hr, hn⟩ := hvisit _ _ hc
        exact ⟨v, Relation.ReflTransGen.head (hsinks sink (List.mem_cons_self _ _)) hr, hn⟩
      | ok st1 =>
        rw [hc] at h
        exact ih st1 hrest h

/-- The exception of `ivGraph.at` is raised only for a variable that is
reachable from the variable of the call and is no key of the graph. -/
theorem createLoopNestRec_outOfRange (g : IndexVarGraph) (fuel : Nat)
    (L : IndexVariableLoop) (st : LoopNestState)
    (h : createLoopNestRec g fuel L st = .error .outOfRange) :
    ∃ v, Reachable g L.getIndexVar v ∧ mapAt g v = none := by
  induction fuel generalizing L st with
  | zero =>
    simp only [createLoopNestRec] at h
    cases h
  | succ fuel ih =>
    simp only [createLoopNestRec] at h
    cases hs : mapAt g L.getIndexVar with
    | none => exact ⟨L.getIndexVar, Relation.ReflTransGen.refl, hs⟩
    | some sinks =>
      rw [hs] at h
      exact forEachSink_outOfRange g _ ih L L.getIndexVar sinks st
        (fun s hmem => by
          show s ∈ adjacency g L.getIndexVar
          rw [adjacency_of_mapAt hs]
          exact hmem) h

/-- C18 (termination): when every variable that is reachable from the variable
of `linkedLoop` is a key of the graph, the recursive `createLoopNest` returns:
there is one result that every budget above the number of unvisited adjacency
entries yields. Each recursive call is made for an adjacency entry that is not
visited yet, after its insertion, and the insertion makes the number of
unvisited adjacency entries strictly smaller, cycles and self-loops
notwithstanding. -/
theorem createLoopNestRec_terminates (ivGraph : IndexVarGraph)
    (linkedLoop : IndexVariableLoop) (st : LoopNestState)
    (hkeys : ∀ v, Reachable ivGraph linkedLoop.getIndexVar v → mapAt ivGraph v ≠ none) :
    (∃ st', ∀ fuel, unvisitedSinks ivGraph st.visited < fuel →
      createLoopNestRec ivGraph fuel linkedLoop st = .ok st') ∧
    (∀ (u sink : IndexVar) (loop : IndexVariableLoop) (st0 : LoopNestState),
      Edge ivGraph u sink → mapAt ivGraph u ≠ none → sink ∉ st0.visited →
      unvisitedSinks ivGraph (st0.push sink loop).visited <
        unvisitedSinks ivGraph st0.visited) := by
  constructor
  · cases hc : createLoopNestRec ivGraph (unvisitedSinks ivGraph st.visited + 1) linkedLoop st with
    | error e =>
      exfalso
      rcases createLoopNestRec_error ivGraph _ _ _ _ hc with ⟨_, h2⟩ | ⟨h1, _⟩
      · omega
      · subst h1
        obtain ⟨v, hr, hn⟩ := createLoopNestRec_outOfRange ivGraph _ _ _ hc
        exact hkeys v hr hn
    | ok st' =>
      refine ⟨st', ?_⟩
      intro fuel hfuel
      exact createLoopNestRec_fuel_mono ivGraph _ fuel (by omega) linkedLoop st st' hc
  · intro u sink loop st0 he hu hv
    cases hs : mapAt ivGraph u with
    | none => exact absurd hs hu
    | some sinks =>
      have hmem : sink ∈ sinks := by
        have : sink ∈ adjacency ivGraph u := he
        rw [adjacency_of_mapAt hs] at this
        exact this
      exact unvisitedSinks_insert_lt ivGraph (mem_allSinks_of_mapAt hs hmem) hv

/-- Witness of C18: a graph with the cycle `0 -> 1 -> 2 -> 0` and a self-loop
at `0`, traversed from `0`. -/
theorem createLoopNestRec_terminates_witness :
    (∃ st', ∀ fuel,
      unvisitedSinks [(0, [0, 1]), (1, [2, 0]), (2, [0])]
        (⟨[0], [.unlinked 0]⟩ : LoopNestState).visited < fuel →
      createLoopNestRec [(0, [0, 1]), (1, [2, 0]), (2, [0])] fuel (.unlinked 0)
        ⟨[0], [.unlinked 0]⟩ = .ok st') ∧
    (∀ (u sink : IndexVar) (loop : IndexVariableLoop) (st0 : LoopNestState),
      Edge [(0, [0, 1]), (1, [2, 0]), (2, [0])] u sink →
      mapAt [(0, [0, 1]), (1, [2, 0]), (2, [0])] u ≠ none → sink ∉ st0.visited →
      unvisitedSinks [(0, [0, 1]), (1, [2, 0]), (2, [0])] (st0.push sink loop).visited <
        unvisitedSinks [(0, [0, 1]), (1, [2, 0]), (2, [0])] st0.visited) :=
  createLoopNestRec_terminates [(0, [0, 1]), (1, [2, 0]), (2, [0])] (.unlinked 0)
    ⟨[0], [.unlinked 0]⟩
    (by
      have step : ∀ b c : Nat, b ≤ 2 →
          c ∈ adjacency [(0, [0, 1]), (1, [2, 0]), (2, [0])] b → c ≤ 2 := by
        intro b c hb hc
        interval_cases b <;> simp [adjacency, mapAt] at hc <;> omega
      have keys : ∀ v : Nat, v ≤ 2 → mapAt [(0, [0, 1]), (1, [2, 0]), (2, [0])] v ≠ none := by
        intro v hv
        interval_cases v <;> decide
      intro v hr
      apply keys
      induction hr with
      | refl => decide
      | @tail b c _ hbc ih => exact step b c ih hbc)

/-! ## The graph depends on the set of tuples only -/

theorem createIndexVarGraph_eq_foldl_keys (indexExpression : IndexExpr) :
    createIndexVarGraph indexExpression =
      (mapKeys (getIndexTupleUses indexExpression)).foldl addTupleEdges [] := by
  unfold createIndexVarGraph mapKeys
  rw [List.foldl_map]

theorem keys_eq_of_sorted {κ ν ν' : Type} [LinearOrder κ] {m : List (κ × ν)}
    {m' : List (κ × ν')} (hm : MapSorted m) (hm' : MapSorted m')
    (h : ∀ t, t ∈ mapKeys m ↔ t ∈ mapKeys m') : mapKeys m = mapKeys m' := by
  have hp : (mapKeys m).Perm (mapKeys m') :=
    (List.perm_ext_iff_of_nodup (mapSorted_nodup_keys hm) (mapSorted_nodup_keys hm')).mpr h
  have hs : (mapKeys m).Sorted (· ≤ ·) := List.Pairwise.imp (fun h => le_of_lt h) hm
  have hs' : (mapKeys m').Sorted (· ≤ ·) := List.Pairwise.imp (fun h => le_of_lt h) hm'
  exact List.eq_of_perm_of_sorted hp hs hs'

/-- C19 (the graph depends on the distinct tuples only): two index expressions
whose tuple maps have the same key set, which is to say whose accesses use the
same set of index-variable tuples, yield the same graph, with the same
adjacency lists in the same order, whatever the order of the operands and the
number of accesses that share a tuple. `B(i,j)+C(i,j)` yields the single edge
pair `i -> j`, `j -> i`. -/
theorem createIndexVarGraph_of_keys (e1 e2 : IndexExpr)
    (h : ∀ t, t ∈ mapKeys (getIndexTupleUses e1) ↔ t ∈ mapKeys (getIndexTupleUses e2)) :
    createIndexVarGraph e1 = createIndexVarGraph e2 ∧
    ((∀ t, (∃ a ∈ visitedTensors e1.value, a.indexVars = t) ↔
        (∃ a ∈ visitedTensors e2.value, a.indexVars = t)) ↔
      ∀ t, t ∈ mapKeys (getIndexTupleUses e1) ↔ t ∈ mapKeys (getIndexTupleUses e2)) ∧
    createIndexVarGraph ⟨[0, 1],
      .add (.indexedTensor ⟨10, [0, 1]⟩) (.indexedTensor ⟨11, [0, 1]⟩)⟩ =
        [(0, [1]), (1, [0])] := by
  obtain ⟨hs1, _, _, hk1⟩ := getIndexTupleUses_facts e1
  obtain ⟨hs2, _, _, hk2⟩ := getIndexTupleUses_facts e2
  refine ⟨?_, ?_, by decide⟩
  · rw [createIndexVarGraph_eq_foldl_keys, createIndexVarGraph_eq_foldl_keys,
      keys_eq_of_sorted hs1 hs2 h]
  · constructor
    · intro h' t
      rw [hk1, hk2]
      exact h' t
    · intro h' t
      rw [← hk1, ← hk2]
      exact h' t

/-- Witness of C19: `B(i,j) + C(j,i) + D(i,j)` and `C(j,i) + B(i,j)`. -/
theorem createIndexVarGraph_of_keys_witness :
    createIndexVarGraph ⟨[0, 1], .add (.add (.indexedTensor ⟨10, [0, 1]⟩)
        (.indexedTensor ⟨11, [1, 0]⟩)) (.indexedTensor ⟨12, [0, 1]⟩)⟩ =
      createIndexVarGraph ⟨[0, 1], .add (.indexedTensor ⟨11, [1, 0]⟩)
        (.indexedTensor ⟨10, [0, 1]⟩)⟩ ∧
    ((∀ t, (∃ a ∈ visitedTensors (⟨[0, 1], .add (.add (.indexedTensor ⟨10, [0, 1]⟩)
          (.indexedTensor ⟨11, [1, 0]⟩)) (.indexedTensor ⟨12, [0, 1]⟩)⟩ : IndexExpr).value,
          a.indexVars = t) ↔
        (∃ a ∈ visitedTensors (⟨[0, 1], .add (.indexedTensor ⟨11, [1, 0]⟩)
          (.indexedTensor ⟨10, [0, 1]⟩)⟩ : IndexExpr).value, a.indexVars = t)) ↔
      ∀ t, t ∈ mapKeys (getIndexTupleUses ⟨[0, 1], .add (.add (.indexedTensor ⟨10, [0, 1]⟩)
          (.indexedTensor ⟨11, [1, 0]⟩)) (.indexedTensor ⟨12, [0, 1]⟩)⟩) ↔
        t ∈ mapKeys (getIndexTupleUses ⟨[0, 1], .add (.indexedTensor ⟨11, [1, 0]⟩)
          (.indexedTensor ⟨10, [0, 1]⟩)⟩)) ∧
    createIndexVarGraph ⟨[0, 1],
      .add (.indexedTensor ⟨10, [0, 1]⟩) (.indexedTensor ⟨11, [0, 1]⟩)⟩ =
        [(0, [1]), (1, [0])] :=
  createIndexVarGraph_of_keys
    ⟨[0, 1], .add (.add (.indexedTensor ⟨10, [0, 1]⟩) (.indexedTensor ⟨11, [1, 0]⟩))
      (.indexedTensor ⟨12, [0, 1]⟩)⟩
    ⟨[0, 1], .add (.indexedTensor ⟨11, [1, 0]⟩) (.indexedTensor ⟨10, [0, 1]⟩)⟩
    (by
      intro t
      have e1 : mapKeys (getIndexTupleUses ⟨[0, 1], .add (.add (.indexedTensor ⟨10, [0, 1]⟩)
          (.indexedTensor ⟨11, [1, 0]⟩)) (.indexedTensor ⟨12, [0, 1]⟩)⟩) = [[0, 1], [1, 0]] := by
        decide
      have e2 : mapKeys (getIndexTupleUses ⟨[0, 1], .add (.indexedTensor ⟨11, [1, 0]⟩)
          (.indexedTensor ⟨10, [0, 1]⟩)⟩) = [[0, 1], [1, 0]] := by
        decide
      rw [e1, e2])

/-! ## Two scenarios: the single contraction and the dense-only expression -/

theorem tupleContrib_pair (a b u : IndexVar) :
    tupleContrib [a, b] u = (if u = a then [b] else []) ++ (if u = b then [a] else []) := by
  have h1 : sizeSub 2 1 = 1 := by decide
  simp [tupleContrib, rowContrib, edgeContrib, h1, List.range_succ, List.range']

theorem mapAt_of_adjacency {g : IndexVarGraph} {u : IndexVar} {l : List IndexVar}
    (h : adjacency g u = l) (hne : l ≠ []) : mapAt g u = some l := by
  unfold adjacency at h
  cases hc : mapAt g u with
  | none =>
    rw [hc] at h
    exact absurd h.symm hne
  | some l' =>
    rw [hc] at h
    simpa using h

/-- The tuple map of the contraction holds the two tuples, in either order. -/
theorem getIndexTupleUses_contraction (i j k : IndexVar) (B C : Nat) (hik : i ≠ k) :
    mapKeys (getIndexTupleUses ⟨[i, j],
      .mul (.indexedTensor ⟨B, [i, k]⟩) (.indexedTensor ⟨C, [k, j]⟩)⟩) = [[i, k], [k, j]] ∨
    mapKeys (getIndexTupleUses ⟨[i, j],
      .mul (.indexedTensor ⟨B, [i, k]⟩) (.indexedTensor ⟨C, [k, j]⟩)⟩) = [[k, j], [i, k]] := by
  have hne : ¬ ([i, k] : List IndexVar) = [k, j] := by
    intro h
    exact hik (List.cons.inj h).1
  simp only [getIndexTupleUses, visitedTensors, List.cons_append, List.nil_append,
    List.foldl_cons, List.foldl_nil, visitIndexedTensor, mapPushBack, hne, if_false]
  split_ifs with h
  · right
    rfl
  · left
    rfl

/-- The adjacency lists of the graph of the contraction. -/
theorem adjacency_contraction (i j k : IndexVar) (B C : Nat)
    (hij : i ≠ j) (hik : i ≠ k) (hjk : j ≠ k) :
    adjacency (createIndexVarGraph ⟨[i, j],
      .mul (.indexedTensor ⟨B, [i, k]⟩) (.indexedTensor ⟨C, [k, j]⟩)⟩) i = [k] ∧
    adjacency (createIndexVarGraph ⟨[i, j],
      .mul (.indexedTensor ⟨B, [i, k]⟩) (.indexedTensor ⟨C, [k, j]⟩)⟩) j = [k] ∧
    (adjacency (createIndexVarGraph ⟨[i, j],
      .mul (.indexedTensor ⟨B, [i, k]⟩) (.indexedTensor ⟨C, [k, j]⟩)⟩) k = [i, j] ∨
     adjacency (createIndexVarGraph ⟨[i, j],
      .mul (.indexedTensor ⟨B, [i, k]⟩) (.indexedTensor ⟨C, [k, j]⟩)⟩) k = [j, i]) ∧
    (∀ u, u ≠ i → u ≠ j → u ≠ k →
      adjacency (createIndexVarGraph ⟨[i, j],
        .mul (.indexedTensor ⟨B, [i, k]⟩) (.indexedTensor ⟨C, [k, j]⟩)⟩) u = []) ∧
    (allSinks (createIndexVarGraph ⟨[i, j],
      .mul (.indexedTensor ⟨B, [i, k]⟩) (.indexedTensor ⟨C, [k, j]⟩)⟩)).length = 4 := by
  have hadj : ∀ u, adjacency (createIndexVarGraph ⟨[i, j],
      .mul (.indexedTensor ⟨B, [i, k]⟩) (.indexedTensor ⟨C, [k, j]⟩)⟩) u =
      ((mapKeys (getIndexTupleUses ⟨[i, j],
        .mul (.indexedTensor ⟨B, [i, k]⟩) (.indexedTensor ⟨C, [k, j]⟩)⟩)).map
        (fun t => tupleContrib t u)).flatten := by
    intro u
    rw [(adjacency_createIndexVarGraph _ u).2, mapKeys, List.map_map]
    simp only [Function.comp_def]
  have h2 : ∀ a b : IndexVar, ([a, b] : List IndexVar).length < 2 ^ 64 := by
    intro a b
    rw [List.length_cons, List.length_cons, List.length_nil]
    norm_num
  have hfuel : ∀ keys : List IndexTuple, (keys = [[i, k], [k, j]] ∨ keys = [[k, j], [i, k]]) →
      (allSinks (keys.foldl addTupleEdges [])).length = 4 := by
    intro keys hk
    rcases hk with rfl | rfl
    · rw [List.foldl_cons, List.foldl_cons, List.foldl_nil,
        length_allSinks_addTupleEdges _ _ (h2 _ _),
        length_allSinks_addTupleEdges _ _ (h2 _ _)]
      rfl
    · rw [List.foldl_cons, List.foldl_cons, List.foldl_nil,
        length_allSinks_addTupleEdges _ _ (h2 _ _),
        length_allSinks_addTupleEdges _ _ (h2 _ _)]
      rfl
  have hji : j ≠ i := fun h => hij h.symm
  have hki : k ≠ i := fun h => hik h.symm
  have hkj : k ≠ j := fun h => hjk h.symm
  refine ⟨?_, ?_, ?_, ?_, ?_⟩
  · rw [hadj]
    rcases getIndexTupleUses_contraction i j k B C hik with h | h <;>
      simp [h, tupleContrib_pair, hik, hij, hki]
  · rw [hadj]
    rcases getIndexTupleUses_contraction i j k B C hik with h | h <;>
      simp [h, tupleContrib_pair, hji, hjk, hkj]
  · rw [hadj]
    rcases getIndexTupleUses_contraction i j k B C hik with h | h
    · left
      simp [h, tupleContrib_pair, hki, hkj]
    · right
      simp [h, tupleContrib_pair, hki, hkj]
  · intro u hui huj huk
    rw [hadj]
    rcases getIndexTupleUses_contraction i j k B C hik with h | h <;>
      simp [h, tupleContrib_pair, hui, huj, huk]
  · rw [createIndexVarGraph_eq_foldl_keys,
      hfuel _ (getIndexTupleUses_contraction i j k B C hik)]

/-- The traversal of a graph with the adjacency lists `i: [k]`, `j: [k]` and
`k: [i, j]` (in either order), from the sources `i`, `j`. -/
theorem createLoopNest_chain (g : IndexVarGraph) (i j k : IndexVar)
    (hij : i ≠ j) (hik : i ≠ k) (hjk : j ≠ k) (mi : mapAt g i = some [k])
    (mj : mapAt g j = some [k]) (mk : mapAt g k = some [i, j] ∨ mapAt g k = some [j, i])
    (hf : (allSinks g).length = 4) :
    createLoopNest g [i, j] =
      .ok [.unlinked i, .linked k (.unlinked i), .linked j (.unlinked k)] := by
  have hji : j ≠ i := fun h => hij h.symm
  have hki : k ≠ i := fun h => hik h.symm
  have hkj : k ≠ j := fun h => hjk h.symm
  unfold createLoopNest
  rcases mk with mk | mk
  · simp [forEachSource, loopFuel, hf, createLoopNestRec, forEachSink, mi, mj, mk,
      LoopNestState.push, IndexVariableLoop.getIndexVar, hij, hik, hjk, hji, hki, hkj]
  · simp [forEachSource, loopFuel, hf, createLoopNestRec, forEachSink, mi, mj, mk,
      LoopNestState.push, IndexVariableLoop.getIndexVar, hij, hik, hjk, hji, hki, hkj]

/-- C13, amended (single contraction): for `A(i,j) = B(i,k) * C(k,j)` with
three different index variables and `resultVars = [i,j]`, the graph has
exactly the edges `i <-> k` and `k <-> j`, and `createLoopNest` returns the
loop list `[i, k, j]` in which `i` is the only root, `k` is linked by `i`, and
`j`, which the traversal reaches through `k` before its turn as a source, is
linked by `k`. -/
theorem createLoopNestExpr_contraction (i j k : IndexVar) (B C : Nat)
    (hij : i ≠ j) (hik : i ≠ k) (hjk : j ≠ k) :
    (∀ u v, Edge (createIndexVarGraph ⟨[i, j],
        .mul (.indexedTensor ⟨B, [i, k]⟩) (.indexedTensor ⟨C, [k, j]⟩)⟩) u v ↔
      (u = i ∧ v = k) ∨ (u = k ∧ v = i) ∨ (u = k ∧ v = j) ∨ (u = j ∧ v = k)) ∧
    createLoopNestExpr ⟨[i, j],
        .mul (.indexedTensor ⟨B, [i, k]⟩) (.indexedTensor ⟨C, [k, j]⟩)⟩ =
      .ok [.unlinked i, .linked k (.unlinked i), .linked j (.unlinked k)] := by
  obtain ⟨hi, hj, hk, hother, hfuel⟩ := adjacency_contraction i j k B C hij hik hjk
  have hji : j ≠ i := fun h => hij h.symm
  have hki : k ≠ i := fun h => hik h.symm
  have hkj : k ≠ j := fun h => hjk h.symm
  constructor
  · intro u v
    show v ∈ adjacency _ u ↔ _
    by_cases hui : u = i
    · subst hui
      rw [hi]
      simp [hij, hik]
    · by_cases huj : u = j
      · subst huj
        rw [hj]
        simp [hji, hjk]
      · by_cases huk : u = k
        · subst huk
          rcases hk with hk | hk
          · rw [hk]
            simp [hui, huj]
          · rw [hk]
            simp [hui, huj]
            tauto
        · rw [hother u hui huj huk]
          simp [hui, huj, huk]
  · have mi := mapAt_of_adjacency hi (by simp)
    have mj := mapAt_of_adjacency hj (by simp)
    have mk : mapAt (createIndexVarGraph ⟨[i, j],
        .mul (.indexedTensor ⟨B, [i, k]⟩) (.indexedTensor ⟨C, [k, j]⟩)⟩) k = some [i, j] ∨
        mapAt (createIndexVarGraph ⟨[i, j],
        .mul (.indexedTensor ⟨B, [i, k]⟩) (.indexedTensor ⟨C, [k, j]⟩)⟩) k = some [j, i] := by
      rcases hk with hk | hk
      · exact Or.inl (mapAt_of_adjacency hk (by simp))
      · exact Or.inr (mapAt_of_adjacency hk (by simp))
    exact createLoopNest_chain _ i j k hij hik hjk mi mj mk hfuel

/-- Witness of C13 (amended): `i = 0`, `j = 1`, `k = 2`. -/
theorem createLoopNestExpr_contraction_witness :
    (∀ u v, Edge (createIndexVarGraph ⟨[0, 1],
        .mul (.indexedTensor ⟨10, [0, 2]⟩) (.indexedTensor ⟨11, [2, 1]⟩)⟩) u v ↔
      (u = 0 ∧ v = 2) ∨ (u = 2 ∧ v = 0) ∨ (u = 2 ∧ v = 1) ∨ (u = 1 ∧ v = 2)) ∧
    createLoopNestExpr ⟨[0, 1],
        .mul (.indexedTensor ⟨10, [0, 2]⟩) (.indexedTensor ⟨11, [2, 1]⟩)⟩ =
      .ok [.unlinked 0, .linked 2 (.unlinked 0), .linked 1 (.unlinked 2)] :=
  createLoopNestExpr_contraction 0 1 2 10 11 (by decide) (by decide) (by decide)

/-- C13, refuted as stated: for `A(i,j) = B(i,k) * C(k,j)` with `i = 0`,
`j = 1`, `k = 2` the returned loop list has no unlinked entry for `j`; the
entry of `j` is linked. -/
theorem createLoopNestExpr_contraction_root :
    ∃ loops, createLoopNestExpr ⟨[0, 1],
        .mul (.indexedTensor ⟨10, [0, 2]⟩) (.indexedTensor ⟨11, [2, 1]⟩)⟩ = .ok loops ∧
      IndexVariableLoop.unlinked 1 ∉ loops ∧
      IndexVariableLoop.linked 1 (.unlinked 2) ∈ loops :=
  ⟨[.unlinked 0, .linked 2 (.unlinked 0), .linked 1 (.unlinked 2)], by decide, by decide,
    by decide⟩

/-- The graph of an expression all of whose accesses use one-variable tuples is
empty. -/
theorem createIndexVarGraph_dense (i : IndexVar) (B C : Nat) :
    createIndexVarGraph ⟨[i], .add (.indexedTensor ⟨B, [i]⟩) (.indexedTensor ⟨C, [i]⟩)⟩ = [] := by
  rw [createIndexVarGraph_eq_foldl_keys]
  have hk : mapKeys (getIndexTupleUses
      ⟨[i], .add (.indexedTensor ⟨B, [i]⟩) (.indexedTensor ⟨C, [i]⟩)⟩) = [[i]] := by
    simp [getIndexTupleUses, visitedTensors, visitIndexedTensor, mapPushBack, mapKeys]
  rw [hk, List.foldl_cons, List.foldl_nil]
  exact addTupleEdges_of_length_le_one [] [i] (by simp)

/-- C14, the code at the dense-only expression `A(i) = B(i) + C(i)`: the graph
has no key, the lookup `ivGraph.at(i)` of the first source throws, and neither
`createLoopNest` nor `lowerScatterWorkspace` returns. -/
theorem lowerScatterWorkspace_dense (X : Collaborators) (target : Expr) (i : IndexVar)
    (B C : Nat) :
    createIndexVarGraph ⟨[i], .add (.indexedTensor ⟨B, [i]⟩) (.indexedTensor ⟨C, [i]⟩)⟩ = [] ∧
    createLoopNestExpr ⟨[i], .add (.indexedTensor ⟨B, [i]⟩) (.indexedTensor ⟨C, [i]⟩)⟩ =
      .error .outOfRange ∧
    lowerScatterWorkspace X target
      ⟨[i], .add (.indexedTensor ⟨B, [i]⟩) (.indexedTensor ⟨C, [i]⟩)⟩ = .error .outOfRange := by
  have hg := createIndexVarGraph_dense i B C
  have hl : createLoopNestExpr
      ⟨[i], .add (.indexedTensor ⟨B, [i]⟩) (.indexedTensor ⟨C, [i]⟩)⟩ = .error .outOfRange := by
    unfold createLoopNestExpr
    rw [hg]
    simp [createLoopNest, forEachSource, loopFuel, allSinks, createLoopNestRec, mapAt]
  refine ⟨hg, hl, ?_⟩
  unfold lowerScatterWorkspace
  rw [hl]

/-! ## The statement emitter -/

theorem emitSubsetLoops_ok (X : Collaborators) (target : Expr) (loop : IndexVariableLoop)
    (subsetLoops : List SubsetLoop) (acc : List Stmt)
    (hne : ∀ sl ∈ subsetLoops, sl.tensorIndexVars ≠ []) :
    ∃ stmts, emitSubsetLoops X target loop subsetLoops acc = .ok (acc ++ stmts) ∧
      stmts.length = subsetLoops.length ∧
      ∀ (k : Nat) (sl : SubsetLoop), subsetLoops[k]? = some sl →
        ∃ st, emitSubsetLoop target loop.getInductionVar sl = .ok st ∧
          stmts[k]? = some (.comment (workspaceWriteString X sl loop.getIndexVar) st) := by
  induction subsetLoops generalizing acc with
  | nil => exact ⟨[], by simp [emitSubsetLoops], rfl, by simp⟩
  | cons sl rest ih =>
    have hsl := hne sl (List.mem_cons_self _ _)
    obtain ⟨first, tl, hps⟩ : ∃ first tl, sl.tensorIndexVars = first :: tl := by
      cases h : sl.tensorIndexVars with
      | nil => exact absurd h hsl
      | cons a l => exact ⟨a, l, rfl⟩
    obtain ⟨condition, _, hemit⟩ := emitSubsetLoop_eq target loop.getInductionVar sl first tl hps
    obtain ⟨stmts, hrun, hlen, hget⟩ :=
      ih (acc ++ [.comment (workspaceWriteString X sl loop.getIndexVar)
          (.block [.block ((first :: tl).map TensorIndexVar.initCoordinateVar),
            .whileLoop condition (subsetLoopBody loop.getInductionVar (first :: tl))])])
        (fun s hs => hne s (List.mem_cons_of_mem _ hs))
    refine ⟨Stmt.comment (workspaceWriteString X sl loop.getIndexVar)
        (.block [.block ((first :: tl).map TensorIndexVar.initCoordinateVar),
          .whileLoop condition (subsetLoopBody loop.getInductionVar (first :: tl))]) :: stmts,
      ?_, ?_, ?_⟩
    · simp only [emitSubsetLoops, hemit]
      rw [hrun, List.append_assoc]
      rfl
    · simp [hlen]
    · intro k sl' hk
      cases k with
      | zero =>
        simp only [List.getElem?_cons_zero, Option.some.injEq] at hk
        subst hk
        exact ⟨_, hemit, List.getElem?_cons_zero⟩
      | succ k =>
        simp only [List.getElem?_cons_succ] at hk ⊢
        exact hget k sl' hk

/-- C16 (linked level): for a linked entry of the loop list for which
`createSubsetLoops` returns `n` subset loops, all with participants, the level
is the block of exactly `n + 1` comment statements: the first `n`, in the order
of the subset loops, wrap each the statement `emitSubsetLoop` returns for its
subset loop under the text of `workspaceWriteString`, and the last is the
comment with the text target, result slice, `" = workspace"` that wraps a
no-op. -/
theorem emitLevel_linked (X : Collaborators) (target : Expr) (indexExpression : IndexExpr)
    (loops : List IndexVariableLoop) (loop : IndexVariableLoop) (loopNest : Stmt)
    (hl : loop.isLinked = true) (hmem : loop ∈ loops)
    (hne : ∀ sl ∈ X.createSubsetLoops target indexExpression loop, sl.tensorIndexVars ≠ []) :
    ∃ stmts,
      emitLevel X target indexExpression loops loop loopNest =
        .ok (.block (stmts ++
          [.comment (X.exprToString target ++
            tensorSliceString X indexExpression.resultVars loop.getIndexVar ++ " = workspace")
            .pass])) ∧
      stmts.length = (X.createSubsetLoops target indexExpression loop).length ∧
      (stmts ++
          [Stmt.comment (X.exprToString target ++
            tensorSliceString X indexExpression.resultVars loop.getIndexVar ++ " = workspace")
            .pass]).length = (X.createSubsetLoops target indexExpression loop).length + 1 ∧
      ∀ (k : Nat) (sl : SubsetLoop),
        (X.createSubsetLoops target indexExpression loop)[k]? = some sl →
        ∃ st, emitSubsetLoop target loop.getInductionVar sl = .ok st ∧
          stmts[k]? = some (.comment (workspaceWriteString X sl loop.getIndexVar) st) := by
  obtain ⟨stmts, hrun, hlen, hget⟩ := emitSubsetLoops_ok X target loop
    (X.createSubsetLoops target indexExpression loop) [] hne
  have hpos : loops.length > 0 := List.length_pos_of_mem hmem
  refine ⟨stmts, ?_, hlen, by simp [hlen], hget⟩
  unfold emitLevel
  rw [hrun]
  simp [hl, hpos, transferComment]

/-- Witness of C16: the level of `k` in the loop list of the contraction
`A(i,j) = B(i,k) * C(k,j)`. -/
theorem emitLevel_linked_witness :
    ∃ stmts,
      emitLevel exampleCollaborators (.literal 0) exampleContraction
          [.unlinked 0, .linked 2 (.unlinked 0), .linked 1 (.unlinked 2)]
          (.linked 2 (.unlinked 0)) .undefined =
        .ok (.block (stmts ++
          [.comment (exampleCollaborators.exprToString (.literal 0) ++
            tensorSliceString exampleCollaborators exampleContraction.resultVars
              (IndexVariableLoop.linked 2 (.unlinked 0)).getIndexVar ++ " = workspace")
            .pass])) ∧
      stmts.length = (exampleCollaborators.createSubsetLoops (.literal 0) exampleContraction
        (.linked 2 (.unlinked 0))).length ∧
      (stmts ++
          [Stmt.comment (exampleCollaborators.exprToString (.literal 0) ++
            tensorSliceString exampleCollaborators exampleContraction.resultVars
              (IndexVariableLoop.linked 2 (.unlinked 0)).getIndexVar ++ " = workspace")
            .pass]).length = (exampleCollaborators.createSubsetLoops (.literal 0)
              exampleContraction (.linked 2 (.unlinked 0))).length + 1 ∧
      ∀ (k : Nat) (sl : SubsetLoop),
        (exampleCollaborators.createSubsetLoops (.literal 0) exampleContraction
          (.linked 2 (.unlinked 0)))[k]? = some sl →
        ∃ st, emitSubsetLoop (.literal 0)
            (IndexVariableLoop.linked 2 (.unlinked 0)).getInductionVar sl = .ok st ∧
          stmts[k]? = some (.comment (workspaceWriteString exampleCollaborators sl
            (IndexVariableLoop.linked 2 (.unlinked 0)).getIndexVar) st) :=
  emitLevel_linked exampleCollaborators (.literal 0) exampleContraction
    [.unlinked 0, .linked 2 (.unlinked 0), .linked 1 (.unlinked 2)]
    (.linked 2 (.unlinked 0)) .undefined rfl (by decide) (by decide)

theorem emitLevels_append (X : Collaborators) (target : Expr) (indexExpression : IndexExpr)
    (loops xs ys : List IndexVariableLoop) (loopNest : Stmt) :
    emitLevels X target indexExpression loops (xs ++ ys) loopNest =
      match emitLevels X target indexExpression loops xs loopNest with
      | .error e => .error e
      | .ok nest => emitLevels X target indexExpression loops ys nest := by
  induction xs generalizing loopNest with
  | nil => rfl
  | cons x xs ih =>
    simp only [List.cons_append, emitLevels]
    cases emitLevel X target indexExpression loops x loopNest with
    | error e => rfl
    | ok nest => exact ih nest

/-- The loop over the reversed loop list builds the nest from the inside out:
the statement of an entry is made from the statement of the entries after
it. -/
theorem emitLevels_reverse (X : Collaborators) (target : Expr) (indexExpression : IndexExpr)
    (loops l : List IndexVariableLoop) :
    emitLevels X target indexExpression loops l.reverse .undefined =
      nestOf X target indexExpression loops l := by
  induction l with
  | nil => rfl
  | cons a l ih =>
    rw [List.reverse_cons, emitLevels_append, ih]
    simp only [nestOf]
    cases nestOf X target indexExpression loops l with
    | error e => rfl
    | ok inner =>
      simp only [emitLevels]
      cases emitLevel X target indexExpression loops a inner with
      | error e => rfl
      | ok nest => rfl

theorem emitLevel_unlinked (X : Collaborators) (target : Expr) (indexExpression : IndexExpr)
    (loops : List IndexVariableLoop) (loop : IndexVariableLoop) (loopNest : Stmt)
    (hl : loop.isLinked = false) :
    emitLevel X target indexExpression loops loop loopNest =
      .ok (.forLoop loop.getInductionVar (X.firstIndexSet loop.getIndexVar) loopNest) := by
  simp [emitLevel, hl]

theorem emitLevel_linked_indep (X : Collaborators) (target : Expr)
    (indexExpression : IndexExpr) (loops : List IndexVariableLoop) (loop : IndexVariableLoop)
    (loopNest loopNest' : Stmt) (hl : loop.isLinked = true) :
    emitLevel X target indexExpression loops loop loopNest =
      emitLevel X target indexExpression loops loop loopNest' := by
  simp [emitLevel, hl]

theorem countLoops_wrapDense (X : Collaborators) (pre : List IndexVariableLoop)
    (inner : Stmt) : countLoops (wrapDense X pre inner) = pre.length + countLoops inner := by
  induction pre with
  | nil => simp [wrapDense]
  | cons p pre ih =>
    have e : wrapDense X (p :: pre) inner =
        .forLoop p.getInductionVar (X.firstIndexSet p.getIndexVar) (wrapDense X pre inner) := rfl
    rw [e, countLoops, ih, List.length_cons]
    omega

theorem nestOf_dense (X : Collaborators) (target : Expr) (indexExpression : IndexExpr)
    (loops pre : List IndexVariableLoop) (hpre : ∀ p ∈ pre, p.isLinked = false) :
    nestOf X target indexExpression loops pre = .ok (wrapDense X pre .undefined) := by
  induction pre with
  | nil => rfl
  | cons p pre ih =>
    simp only [nestOf]
    rw [ih (fun q hq => hpre q (List.mem_cons_of_mem _ hq))]
    exact emitLevel_unlinked X target indexExpression loops p _
      (hpre p (List.mem_cons_self _ _))

/-- The nest of a loop list up to its first linked entry: the entries after
that entry leave no trace in it. -/
theorem nestOf_first_linked (X : Collaborators) (target : Expr) (indexExpression : IndexExpr)
    (loops pre post : List IndexVariableLoop) (l : IndexVariableLoop) (nest : Stmt)
    (hpre : ∀ p ∈ pre, p.isLinked = false) (hl : l.isLinked = true)
    (h : nestOf X target indexExpression loops (pre ++ l :: post) = .ok nest) :
    ∃ b, emitLevel X target indexExpression loops l .undefined = .ok b ∧
      nest = wrapDense X pre b := by
  induction pre generalizing nest with
  | nil =>
    simp only [List.nil_append, nestOf] at h
    cases hc : nestOf X target indexExpression loops post with
    | error e => rw [hc] at h; cases h
    | ok inner =>
      rw [hc] at h
      refine ⟨nest, ?_, rfl⟩
      rw [emitLevel_linked_indep X target indexExpression loops l .undefined inner hl]
      exact h
  | cons p pre ih =>
    rw [List.cons_append, nestOf] at h
    cases hc : nestOf X target indexExpression loops (pre ++ l :: post) with
    | error e => rw [hc] at h; cases h
    | ok inner =>
      rw [hc] at h
      obtain ⟨b, hb, hin⟩ := ih inner (fun q hq => hpre q (List.mem_cons_of_mem _ hq)) hc
      refine ⟨b, hb, ?_⟩
      have h' : emitLevel X target indexExpression loops p inner = .ok nest := h
      rw [emitLevel_unlinked X target indexExpression loops p _
        (hpre p (List.mem_cons_self _ _))] at h'
      rw [← Except.ok.inj h', hin]
      rfl

/-- C15, amended (emitter): `lowerScatterWorkspace` processes the loop list
innermost-first, so that the statement of an entry is made from the statement
built for the entries after it. An unlinked entry emits a counted loop whose
body is that statement. A linked entry emits the block of its subset loops,
which is the same whatever statement was built before and takes its place. So
the nest of a loop list without linked entries holds one counted loop per
entry, and the nest of a loop list with a linked entry is the counted loops of
the entries before the first linked entry around the block of that entry. -/
theorem emitLoopNest_levels (X : Collaborators) (target : Expr)
    (indexExpression : IndexExpr) (loops : List IndexVariableLoop) :
    emitLoopNest X target indexExpression loops =
      nestOf X target indexExpression loops loops ∧
    (∀ loop loopNest, loop.isLinked = false →
      emitLevel X target indexExpression loops loop loopNest =
        .ok (.forLoop loop.getInductionVar (X.firstIndexSet loop.getIndexVar) loopNest)) ∧
    (∀ loop loopNest loopNest', loop.isLinked = true →
      emitLevel X target indexExpression loops loop loopNest =
        emitLevel X target indexExpression loops loop loopNest') ∧
    ((∀ loop ∈ loops, loop.isLinked = false) →
      ∃ nest, emitLoopNest X target indexExpression loops = .ok nest ∧
        nest = wrapDense X loops .undefined ∧ countLoops nest = loops.length) ∧
    (∀ pre l post nest, loops = pre ++ l :: post → (∀ p ∈ pre, p.isLinked = false) →
      l.isLinked = true → emitLoopNest X target indexExpression loops = .ok nest →
      ∃ b, emitLevel X target indexExpression loops l .undefined = .ok b ∧
        nest = wrapDense X pre b) := by
  have h1 : emitLoopNest X target indexExpression loops =
      nestOf X target indexExpression loops loops :=
    emitLevels_reverse X target indexExpression loops loops
  refine ⟨h1, ?_, ?_, ?_, ?_⟩
  · intro loop loopNest hl
    exact emitLevel_unlinked X target indexExpression loops loop loopNest hl
  · intro loop loopNest loopNest' hl
    exact emitLevel_linked_indep X target indexExpression loops loop loopNest loopNest' hl
  · intro hall
    refine ⟨_, ?_, rfl, ?_⟩
    · rw [h1]
      exact nestOf_dense X target indexExpression loops loops hall
    · rw [countLoops_wrapDense, countLoops, Nat.add_zero]
  · intro pre l post nest hsplit hpre hl hrun
    rw [h1] at hrun
    have hrun' : nestOf X target indexExpression loops (pre ++ l :: post) = .ok nest := by
      rw [← hsplit]
      exact hrun
    exact nestOf_first_linked X target indexExpression loops pre post l nest hpre hl hrun'

/-- C15, refuted as stated: for the contraction `A(i,j) = B(i,k) * C(k,j)` the
loop list has the three entries `i`, `k`, `j`, and the statement
`lowerScatterWorkspace` returns holds two loops only: the counted loop of `i`
and the subset loop of `k`. The level of `k` is the same statement whether it
is built after the level of `j` or after nothing, so the loop of `j` is not in
the tree. -/
theorem lowerScatterWorkspace_drops_level :
    createLoopNestExpr exampleContraction =
      .ok [.unlinked 0, .linked 2 (.unlinked 0), .linked 1 (.unlinked 2)] ∧
    (match lowerScatterWorkspace exampleCollaborators (.literal 0) exampleContraction with
      | .ok stmt => some (countLoops stmt)
      | .error _ => none) = some 2 ∧
    (match emitLevel exampleCollaborators (.literal 0) exampleContraction
        [.unlinked 0, .linked 2 (.unlinked 0), .linked 1 (.unlinked 2)]
        (.linked 1 (.unlinked 2)) .undefined with
      | .ok stmt => some (countLoops stmt)
      | .error _ => none) = some 1 := by
  refine ⟨by decide, by decide, by decide⟩

/-- Witness of C15 (amended): a loop list of two unlinked entries gives two
nested counted loops. -/
theorem emitLoopNest_levels_witness :
    ∃ nest, emitLoopNest exampleCollaborators (.literal 0) exampleContraction
        [.unlinked 0, .unlinked 1] = .ok nest ∧
      nest = wrapDense exampleCollaborators [.unlinked 0, .unlinked 1] .undefined ∧
      countLoops nest = [IndexVariableLoop.unlinked 0, .unlinked 1].length :=
  (emitLoopNest_levels exampleCollaborators (.literal 0) exampleContraction
    [.unlinked 0, .unlinked 1]).2.2.2.1 (by decide)

end Simit
